import Mathlib

/-!
# Persistent KV store engine: WAL, memtable, segments, engine facade

A shallow embedding of the Go sources (`WAL.go`, `TreeMap.go`, `SSTManager.go`,
`KV_Store.go`, `structures.go`) together with theorems about them.

Modelling conventions

* A file is a list of bytes, `List Nat`; a byte is a natural number below 256 (every
  byte the embedded code writes is below 256).
* A Go `string` is modelled by a Lean `String`, that is a sequence of Unicode scalar
  values.  Go strings that are not valid UTF-8 have no counterpart in the model.
* The Go standard library (`encoding/binary`, `io`, `encoding/json`, `unicode/utf8`,
  `os`) is not part of the repository; the functions the sources call are modelled
  from their documented behaviour, each with a doc comment saying so.
* File-system calls succeed unless the modelled behaviour itself says otherwise
  (end of file, missing file); hardware I/O failures are not modelled.
* Loops whose termination is not structural take a fuel argument and return `none` when
  it runs out; the top-level functions pass a fuel that suffices.
* `uint64` arithmetic is reduced modulo `2 ^ 64` where a value is written to a file; the
  segment counter is not expected to wrap.
-/

namespace KVStore

/-! ## Bytes and fixed-width integers (`encoding/binary`) -/

/-- Big-endian bytes of the low `8 * n` bits of `v`, as `binary.BigEndian` lays out
an integer of `n` bytes. -/
def beBytes : Nat → Nat → List Nat
  | 0, _ => []
  | n + 1, v => beBytes n (v / 256) ++ [v % 256]

/-- Value of a big-endian byte string. -/
def beValue (bs : List Nat) : Nat :=
  bs.foldl (fun acc b => acc * 256 + b) 0

/-- Little-endian bytes of the low `8 * n` bits of `v`, as `binary.LittleEndian`
lays out an integer of `n` bytes. -/
def leBytes : Nat → Nat → List Nat
  | 0, _ => []
  | n + 1, v => (v % 256) :: leBytes n (v / 256)

/-- Value of a little-endian byte string. -/
def leValue : List Nat → Nat
  | [] => 0
  | b :: bs => b + 256 * leValue bs

/-! ## Errors and outcomes -/

/-- The Go error values that occur in the engine. `errorsNew msg` is a value made by
`errors.New(msg)`; `mainError n` is a value of the type `Error` declared in `main.go`
(`KeyNotFound` is `mainError 0`, `KeyDeleted` is `mainError 1`). -/
inductive GoError where
  | EOF
  | ErrUnexpectedEOF
  | jsonError
  | errorsNew (msg : String)
  | mainError (code : Nat)
  | osError (msg : String)
  deriving DecidableEq, Repr

/-- Outcome of a Go call: a normal return with a value, a returned error, or a run-time
panic that aborts the program. -/
inductive Outcome (α : Type) where
  | ok (a : α)
  | err (e : GoError)
  | panic (msg : String)
  deriving DecidableEq, Repr

/-! ## `unicode/utf8` -/

/-- The rune `utf8.RuneError`, U+FFFD. -/
def RuneError : Nat := 0xFFFD

/-- Model of `utf8.EncodeRune` (equivalently `utf8.AppendRune`) on a rune that is a
Unicode scalar value. -/
def utf8Encode (n : Nat) : List Nat :=
  if n < 0x80 then [n]
  else if n < 0x800 then [0xC0 + n / 64, 0x80 + n % 64]
  else if n < 0x10000 then [0xE0 + n / 4096, 0x80 + n / 64 % 64, 0x80 + n % 64]
  else [0xF0 + n / 262144 % 8, 0x80 + n / 4096 % 64, 0x80 + n / 64 % 64, 0x80 + n % 64]

/-- Continuation byte test (`locb <= b <= hicb`). -/
def isCont (b : Nat) : Bool := 0x80 ≤ b && b ≤ 0xBF

/-- Model of `utf8.DecodeRune`: the rune at the start of the bytes and its width;
`(RuneError, 1)` for an invalid or truncated encoding, `(RuneError, 0)` for no bytes. -/
def decodeRune : List Nat → Nat × Nat
  | [] => (RuneError, 0)
  | p0 :: rest =>
    if p0 < 0x80 then (p0, 1)
    else if p0 < 0xC2 then (RuneError, 1)
    else if p0 < 0xE0 then
      match rest with
      | b1 :: _ => if isCont b1 then ((p0 % 32) * 64 + b1 % 64, 2) else (RuneError, 1)
      | _ => (RuneError, 1)
    else if p0 < 0xF0 then
      match rest with
      | b1 :: b2 :: _ =>
        let lo := if p0 = 0xE0 then 0xA0 else 0x80
        let hi := if p0 = 0xED then 0x9F else 0xBF
        if lo ≤ b1 ∧ b1 ≤ hi ∧ isCont b2 then
          ((p0 % 16) * 4096 + (b1 % 64) * 64 + b2 % 64, 3)
        else (RuneError, 1)
      | _ => (RuneError, 1)
    else if p0 < 0xF5 then
      match rest with
      | b1 :: b2 :: b3 :: _ =>
        let lo := if p0 = 0xF0 then 0x90 else 0x80
        let hi := if p0 = 0xF4 then 0x8F else 0xBF
        if lo ≤ b1 ∧ b1 ≤ hi ∧ isCont b2 ∧ isCont b3 then
          ((p0 % 8) * 262144 + (b1 % 64) * 4096 + (b2 % 64) * 64 + b3 % 64, 4)
        else (RuneError, 1)
      | _ => (RuneError, 1)
    else (RuneError, 1)

/-! ## Records (`structures.go`) and their JSON text (`encoding/json`) -/

/-- The record type `FileRecord` of `structures.go`; `Operation` is a Go string type. -/
structure FileRecord where
  Operation : String
  Key : String
  Value : String
  deriving DecidableEq, Repr

/-- The zero value `FileRecord{}`. -/
def FileRecord.zero : FileRecord := ⟨"", "", ""⟩

/-- The constant `Put` of `structures.go`. -/
def Put : String := "set"

/-- The constant `Del` of `structures.go`. -/
def Del : String := "del"

/-- Bytes of an ASCII literal. -/
def ascii (s : String) : List Nat := s.toList.map Char.toNat

/-- Lower-case hexadecimal digit, the table `hex` of `encoding/json`. -/
def hexDigit (d : Nat) : Nat := if d < 10 then 0x30 + d else 0x57 + d

/-- Value of a hexadecimal digit in either case, as `getu4` of `encoding/json` reads it. -/
def hexVal (b : Nat) : Option Nat :=
  if 0x30 ≤ b ∧ b ≤ 0x39 then some (b - 0x30)
  else if 0x61 ≤ b ∧ b ≤ 0x66 then some (b - 0x57)
  else if 0x41 ≤ b ∧ b ≤ 0x46 then some (b - 0x37)
  else none

/-- Model of the string encoder of `encoding/json` (HTML escaping on, the default of
`json.Marshal`) on one rune: the bytes written for the rune `n`. Backspace and form feed are
written as `\b` and `\f`, as recent Go releases do (older ones write `\u0008` and
`\u000c`; the reader below accepts both forms). -/
def quoteChar (n : Nat) : List Nat :=
  if n < 0x80 then
    if n = 0x22 then [0x5C, 0x22]
    else if n = 0x5C then [0x5C, 0x5C]
    else if n = 0x08 then [0x5C, 0x62]
    else if n = 0x0C then [0x5C, 0x66]
    else if n = 0x0A then [0x5C, 0x6E]
    else if n = 0x0D then [0x5C, 0x72]
    else if n = 0x09 then [0x5C, 0x74]
    else if n < 0x20 ∨ n = 0x3C ∨ n = 0x3E ∨ n = 0x26 then
      [0x5C, 0x75, 0x30, 0x30, hexDigit (n / 16), hexDigit (n % 16)]
    else [n]
  else if n = 0x2028 ∨ n = 0x2029 then
    [0x5C, 0x75, 0x32, 0x30, 0x32, hexDigit (n % 16)]
  else utf8Encode n

/-- The bytes between the quotes of the JSON string for a list of runes. -/
def quoteBody : List Char → List Nat
  | [] => []
  | c :: cs => quoteChar c.toNat ++ quoteBody cs

/-- The JSON string literal written by `json.Marshal` for a Go string. -/
def quote (s : String) : List Nat := 0x22 :: (quoteBody s.toList ++ [0x22])

/-- Model of `json.Marshal(record)` for a `FileRecord`: an object with the three exported
fields in declaration order and no insignificant white space. -/
def jsonMarshal (r : FileRecord) : List Nat :=
  ascii "\x7b\"Operation\":" ++ quote r.Operation ++ ascii ",\"Key\":" ++ quote r.Key
    ++ ascii ",\"Value\":" ++ quote r.Value ++ ascii "\x7d"

/-- Four hexadecimal digits read as a number (`getu4` without the leading `\u`). -/
def getu4 : List Nat → Option Nat
  | a :: b :: c :: d :: _ =>
    match hexVal a, hexVal b, hexVal c, hexVal d with
    | some x, some y, some z, some w => some (x * 4096 + y * 256 + z * 16 + w)
    | _, _, _, _ => none
  | _ => none

/-- An escape `\uXXXX` at the start of the bytes (`getu4` with its leading check). -/
def getu4Escaped : List Nat → Option Nat
  | 0x5C :: 0x75 :: rest => getu4 rest
  | _ => none

/-- The test `utf16.IsSurrogate`. -/
def isSurrogate (r : Nat) : Bool := 0xD800 ≤ r && r < 0xE000

/-- Model of `utf16.DecodeRune`. -/
def utf16Decode (r1 r2 : Nat) : Nat :=
  if 0xD800 ≤ r1 ∧ r1 < 0xDC00 ∧ 0xDC00 ≤ r2 ∧ r2 < 0xE000 then
    (r1 - 0xD800) * 1024 + (r2 - 0xDC00) + 0x10000
  else RuneError

/-- The one-letter escapes accepted in a JSON string. -/
def escChar (e : Nat) : Option Char :=
  if e = 0x22 then some '"'
  else if e = 0x5C then some '\\'
  else if e = 0x2F then some '/'
  else if e = 0x62 then some (Char.ofNat 0x08)
  else if e = 0x66 then some (Char.ofNat 0x0C)
  else if e = 0x6E then some '\n'
  else if e = 0x72 then some '\r'
  else if e = 0x74 then some '\t'
  else none

/-- Model of the JSON string reader of `encoding/json` (scanner plus `unquote`): reads the
bytes after an opening quote up to the closing quote, undoing escapes and replacing invalid
UTF-8 by U+FFFD; returns the runes read and the bytes after the closing quote. Each step
consumes at least one byte, so a fuel of the input length suffices. -/
def unquoteAux : Nat → List Nat → List Char → Option (List Char × List Nat)
  | 0, _, _ => none
  | fuel + 1, inp, acc =>
    match inp with
    | [] => none
    | b :: rest =>
      if b = 0x22 then some (acc, rest)
      else if b = 0x5C then
        match rest with
        | [] => none
        | e :: rest2 =>
          if e = 0x75 then
            match getu4 rest2 with
            | none => none
            | some rr =>
              let rest3 := rest2.drop 4
              if isSurrogate rr then
                match getu4Escaped rest3 with
                | some rr1 =>
                  if utf16Decode rr rr1 ≠ RuneError then
                    unquoteAux fuel (rest3.drop 6) (acc ++ [Char.ofNat (utf16Decode rr rr1)])
                  else unquoteAux fuel rest3 (acc ++ [Char.ofNat RuneError])
                | none => unquoteAux fuel rest3 (acc ++ [Char.ofNat RuneError])
              else unquoteAux fuel rest3 (acc ++ [Char.ofNat rr])
          else
            match escChar e with
            | some c => unquoteAux fuel rest2 (acc ++ [c])
            | none => none
      else if b < 0x20 then none
      else if b < 0x80 then unquoteAux fuel rest (acc ++ [Char.ofNat b])
      else
        unquoteAux fuel (rest.drop ((decodeRune (b :: rest)).2 - 1))
          (acc ++ [Char.ofNat (decodeRune (b :: rest)).1])

/-- Reads a JSON string literal whose opening quote has been consumed. -/
def unquote (inp : List Nat) : Option (String × List Nat) :=
  (unquoteAux inp.length inp []).map (fun p => (String.mk p.1, p.2))

/-- Removes the literal `lit` from the front of the input, if it is there. -/
def stripLit : List Nat → List Nat → Option (List Nat)
  | [], inp => some inp
  | _ :: _, [] => none
  | l :: ls, b :: bs => if l = b then stripLit ls bs else none

/-- Model of `json.Unmarshal(data, &record)` for a `FileRecord`. The model accepts the
texts `json.Marshal` produces for a `FileRecord` (the three fields in declaration order,
no white space) with any JSON strings as field values; other JSON texts, some of which
`encoding/json` would accept, are reported as errors by the model. The operation field is
an unconstrained string, as in the Go type. -/
def jsonUnmarshal (data : List Nat) : Option FileRecord :=
  (stripLit (ascii "\x7b\"Operation\":\"") data).bind fun r1 =>
  (unquote r1).bind fun p1 =>
  (stripLit (ascii ",\"Key\":\"") p1.2).bind fun r2 =>
  (unquote r2).bind fun p2 =>
  (stripLit (ascii ",\"Value\":\"") p2.2).bind fun r3 =>
  (unquote r3).bind fun p3 =>
  if p3.2 = ascii "\x7d" then some ⟨p1.1, p2.1, p3.1⟩ else none

/-! ## Files (`os`, `io`, `encoding/binary`) -/

/-- An open file as the sources use it: the bytes of the file and the offset of the
handle. -/
structure WALFile where
  content : List Nat
  pos : Nat
  deriving DecidableEq, Repr

/-- Model of `io.ReadFull(file, buf)` with `len(buf) = n` at offset `pos`: the bytes read
or the error, and the new offset. With `n = 0` nothing is read and no error is returned;
with no byte left the error is `io.EOF`; with some but fewer than `n` bytes left it is
`io.ErrUnexpectedEOF`. -/
def readFull (content : List Nat) (pos n : Nat) : Except GoError (List Nat) × Nat :=
  if n = 0 then (.ok [], pos)
  else if (content.drop pos).length = 0 then (.error .EOF, pos)
  else if (content.drop pos).length < n then (.error .ErrUnexpectedEOF, content.length)
  else (.ok ((content.drop pos).take n), pos + n)

/-- Model of `file.Write(bs)` at offset `pos`: the new content and the new offset. Bytes
already present at the written positions are overwritten; a gap between the end of the
file and the offset is filled with zero bytes. -/
def fileWrite (content : List Nat) (pos : Nat) (bs : List Nat) : List Nat × Nat :=
  (content.take pos ++ List.replicate (pos - content.length) 0 ++ bs
    ++ content.drop (pos + bs.length), pos + bs.length)

/-! ## The write-ahead log (`WAL.go`) -/

/-- `WALFile.SeekStart`: `Seek(0, io.SeekStart)`. -/
def WALFile.SeekStart (w : WALFile) : WALFile := { w with pos := 0 }

/-- `WALFile.SeekEnd`: `Seek(0, io.SeekEnd)`. -/
def WALFile.SeekEnd (w : WALFile) : WALFile := { w with pos := w.content.length }

/-- `WALFile.ResetWal`: `Truncate(0)` followed by `Seek(0, io.SeekStart)`. -/
def WALFile.ResetWal (_w : WALFile) : WALFile := { content := [], pos := 0 }

/-- The bytes of one stored record: `int64(len(data))` in big-endian on 8 bytes, then
`data = json.Marshal(record)`. The same bytes are written by `WriteRecord`, by
`FlushToSST` and copied by `MergeSST`. -/
def encodeRecord (r : FileRecord) : List Nat :=
  beBytes 8 (jsonMarshal r).length ++ jsonMarshal r

/-- `WALFile.WriteRecord`: seek to the end, write the length, write the data. -/
def WALFile.WriteRecord (w : WALFile) (record : FileRecord) : WALFile :=
  let w1 := w.SeekEnd
  let data := jsonMarshal record
  let s1 := fileWrite w1.content w1.pos (beBytes 8 data.length)
  let s2 := fileWrite s1.1 s1.2 data
  { content := s2.1, pos := s2.2 }

/-- Reads one length-prefixed record at offset `pos` of `content`, the block of code shared
by `ReadRecord`, `LoadToMem`, `SearchInSST` and `MergeSST`: `binary.Read` of the `int64`
length, `make([]byte, length)`, `io.ReadFull`, `json.Unmarshal`. The outcome `err e` stands
for the Go return of the zero value together with `e`. A negative length makes `make`
panic. -/
def readRecordAt (content : List Nat) (pos : Nat) : Outcome FileRecord × Nat :=
  match readFull content pos 8 with
  | (.error e, p) => (.err e, p)
  | (.ok lb, p) =>
    let length := beValue lb
    if 2 ^ 63 ≤ length then (.panic "makeslice: len out of range", p)
    else
      match readFull content p length with
      | (.error e, p2) => (.err e, p2)
      | (.ok data, p2) =>
        match jsonUnmarshal data with
        | none => (.err .jsonError, p2)
        | some record => (.ok record, p2)

/-- `WALFile.ReadRecord`. -/
def WALFile.ReadRecord (w : WALFile) : Outcome FileRecord × WALFile :=
  ((readRecordAt w.content w.pos).1, { w with pos := (readRecordAt w.content w.pos).2 })

/-! ## The memtable (`TreeMap.go`) -/

/-- The type `Tuple` of `TreeMap.go`. -/
structure Tuple where
  operation : String
  value : String
  deriving DecidableEq, Repr

/-- The ordered map `treemap.TreeMap[string, Tuple]`, and the Go `map[string]Tuple` of a
loaded segment: association lists, kept in ascending key order by `mapSet`. -/
abbrev KVMap := List (String × Tuple)

/-- The bytes of a Go string: the UTF-8 encoding of its runes. -/
def utf8Bytes (s : String) : List Nat :=
  (s.toList.map fun c => utf8Encode c.toNat).flatten

/-- Lexicographic order on byte strings. -/
def bytesLt : List Nat → List Nat → Bool
  | _, [] => false
  | [], _ :: _ => true
  | a :: as, b :: bs => if a < b then true else if a = b then bytesLt as bs else false

/-- The comparison `a < b` of two Go strings, which compares them byte by byte. -/
def strLt (a b : String) : Bool := bytesLt (utf8Bytes a) (utf8Bytes b)

/-- `Set(key, tp)` of the ordered map: replaces the entry of `key` or inserts it at its
place in key order. -/
def mapSet : KVMap → String → Tuple → KVMap
  | [], k, t => [(k, t)]
  | (k', t') :: m, k, t =>
    if strLt k k' then (k, t) :: (k', t') :: m
    else if k = k' then (k, t) :: m
    else (k', t') :: mapSet m k t

/-- `Get(key)` of the ordered map. -/
def mapGet : KVMap → String → Option Tuple
  | [], _ => none
  | (k', t') :: m, k => if k = k' then some t' else mapGet m k

/-- The memtable `PersMem`: the ordered map and the WAL handle. -/
structure PersMem where
  store : KVMap
  wal : WALFile
  deriving DecidableEq, Repr

/-- One round of the loop of `PersMem.Load` after a record was read: the `switch` on the
operation. Operations other than "set" and "del" match no case. -/
def loadRecord (store : KVMap) (r : FileRecord) : KVMap :=
  if r.Operation = "set" then mapSet store r.Key ⟨"set", r.Value⟩
  else if r.Operation = "del" then mapSet store r.Key ⟨"del", ""⟩
  else store

/-- The loop of `PersMem.Load`; `none` when the fuel does not suffice. Each round that
continues has consumed at least 8 bytes, so the length of the WAL plus one suffices. -/
def PersMem.LoadLoop : Nat → PersMem → Option (Outcome Unit × PersMem)
  | 0, _ => none
  | fuel + 1, s =>
    match s.wal.ReadRecord with
    | (.err e, w) => if e = .EOF then some (.ok (), { s with wal := w })
                     else some (.err e, { s with wal := w })
    | (.panic m, w) => some (.panic m, { s with wal := w })
    | (.ok r, w) => PersMem.LoadLoop fuel { store := loadRecord s.store r, wal := w }

/-- `PersMem.Load`. -/
def PersMem.Load (s : PersMem) : Option (Outcome Unit × PersMem) :=
  PersMem.LoadLoop (s.wal.content.length + 1) { s with wal := s.wal.SeekStart }

/-- `PersMem.GetM`. -/
def PersMem.GetM (s : PersMem) (key : String) : Outcome Tuple :=
  match mapGet s.store key with
  | none => .err (.errorsNew "Key Not found In MemDB")
  | some v => .ok v

/-- `PersMem.SetM`. -/
def PersMem.SetM (s : PersMem) (key val : String) : PersMem :=
  let w := s.wal.SeekEnd.WriteRecord ⟨"set", key, val⟩
  { store := mapSet s.store key ⟨"set", val⟩, wal := w }

/-- `PersMem.DelM`. -/
def PersMem.DelM (s : PersMem) (key : String) : Outcome String × PersMem :=
  let w := s.wal.WriteRecord ⟨"del", key, ""⟩
  match mapGet s.store key with
  | none => (.err (.errorsNew "Key Not Found"), { s with wal := w })
  | some val =>
    if val.operation = "del" then (.err (.errorsNew "Key Deleted"), { s with wal := w })
    else (.ok val.value, { store := mapSet s.store key ⟨"del", ""⟩, wal := w })

/-- `PersMem.DelM1`. -/
def PersMem.DelM1 (s : PersMem) (key : String) : PersMem :=
  let w := s.wal.WriteRecord ⟨"del", key, ""⟩
  { store := mapSet s.store key ⟨"del", ""⟩, wal := w }

/-- `PersMem.Clear`. -/
def PersMem.Clear (s : PersMem) : PersMem :=
  { store := [], wal := s.wal.ResetWal }

/-! ## Vocabulary for statements about the WAL -/

/-- Appends the records to the WAL in order, one `WriteRecord` call each. -/
def writeAll (w : WALFile) (rs : List FileRecord) : WALFile :=
  rs.foldl WALFile.WriteRecord w

/-- Calls `ReadRecord` the given number of times and collects the outcomes in call order. -/
def readN : Nat → WALFile → List (Outcome FileRecord) × WALFile
  | 0, w => ([], w)
  | k + 1, w => ((w.ReadRecord.1) :: (readN k w.ReadRecord.2).1, (readN k w.ReadRecord.2).2)

/-- The bytes of a WAL (or of the record area of a segment) that holds the records in
order. -/
def encodeRecords (rs : List FileRecord) : List Nat :=
  (rs.map encodeRecord).flatten

/-- The last record of the list that has the given key. -/
def lastRecord (rs : List FileRecord) (k : String) : Option FileRecord :=
  rs.reverse.find? (fun r => r.Key = k)

/-- The memtable entry that `Load` stores for a record with operation set or del. -/
def tupleOf (r : FileRecord) : Tuple :=
  if r.Operation = "set" then ⟨"set", r.Value⟩ else ⟨"del", ""⟩

/-- A record as Go can hold it: the JSON text fits the `int` length of a slice. -/
def fitsInt64 (r : FileRecord) : Prop := (jsonMarshal r).length < 2 ^ 63

instance (r : FileRecord) : Decidable (fitsInt64 r) := by
  unfold fitsInt64; infer_instance

/-! ## The segment directory (`os`) -/

/-- Names of the files of the directory `SSTFiles`. `sst n` stands for `SST{n}.sst` and
`tmp n` for `SST{n}.tmp`, the two shapes the sources build with `fmt.Sprintf`; `other` is
any other file name. -/
inductive FileName where
  | sst (n : Nat)
  | tmp (n : Nat)
  | other (name : String)
  deriving DecidableEq, Repr

/-- The test `filepath.Ext(name) == ext` with `ext = ".tmp"`. -/
def FileName.hasTmpExt : FileName → Bool
  | .sst _ => false
  | .tmp _ => true
  | .other name => name.toList.reverse.take 4 == ['p', 'm', 't', '.']

/-- The directory `SSTFiles`: its files with their contents. A directory that does not
exist yet and an empty one are both the empty list (`CheckAndClean` creates the former). -/
abbrev Dir := List (FileName × List Nat)

/-- The content of a file, if the file exists. -/
def dirGet : Dir → FileName → Option (List Nat)
  | [], _ => none
  | (g, c) :: d, f => if f = g then some c else dirGet d f

/-- Creates the file or replaces its content. -/
def dirSet : Dir → FileName → List Nat → Dir
  | [], f, c => [(f, c)]
  | (g, c') :: d, f, c => if f = g then (f, c) :: d else (g, c') :: dirSet d f c

/-- Model of `os.Remove` on a file of the directory; an error when the file is missing. -/
def dirRemove (d : Dir) (f : FileName) : Except GoError Dir :=
  match dirGet d f with
  | none => .error (.osError "remove: no such file or directory")
  | some _ => .ok (d.filter fun e => e.1 ≠ f)

/-- Model of `os.Rename` inside the directory: an error when the old name is missing; a file
that already has the new name is replaced. -/
def dirRename (d : Dir) (old new : FileName) : Except GoError Dir :=
  match dirGet d old with
  | none => .error (.osError "rename: no such file or directory")
  | some c => .ok (dirSet (d.filter fun e => e.1 ≠ old) new c)

/-- Model of `os.OpenFile(name, os.O_RDWR|os.O_CREATE, 0644)` as far as the content goes:
the content of the file and the directory, in which a missing file has been created
empty. -/
def openCreate (d : Dir) (f : FileName) : List Nat × Dir :=
  match dirGet d f with
  | some c => (c, d)
  | none => ([], dirSet d f [])

/-- Writing `bs` from offset 0 into a file opened without `O_TRUNC`: bytes of the old
content beyond the written ones stay. -/
def overwrite (old bs : List Nat) : List Nat := bs ++ old.drop bs.length

/-! ## Constants (`KV_Store.go`) -/

/-- The constant `magicNumber`. -/
def magicNumber : Nat := 0x1234567890ABCDEF

/-- The constant `sysVers`. -/
def sysVers : Nat := 110011

/-- The package-level constants `defLoad`, `treshold` and `mergeThreshold`. They are kept
as a parameter of the model so that small instances can be evaluated; `sourceConfig` holds
the values of the sources. -/
structure Config where
  defLoad : Nat
  treshold : Nat
  mergeThreshold : Nat
  deriving DecidableEq, Repr

/-- The values of the constants in `KV_Store.go`. -/
def sourceConfig : Config := ⟨1000, 1000, 10⟩

/-- The text `err.Error()` of an error value. The texts of JSON and file-system errors are
not modelled in detail; none of them equals a text the sources compare with. -/
def GoError.Error : GoError → String
  | .EOF => "EOF"
  | .ErrUnexpectedEOF => "unexpected EOF"
  | .jsonError => "invalid character looking for beginning of value"
  | .errorsNew msg => msg
  | .mainError 0 => "Key Not Found"
  | .mainError 1 => "Key Deleted"
  | .mainError _ => "Unknown Error"
  | .osError msg => msg

/-! ## Reading segments (`SSTManager.go`) -/

/-- Model of `binary.Read(file, binary.LittleEndian, &x)` for a `uint64` at offset `pos`. -/
def readU64LE (content : List Nat) (pos : Nat) : Except GoError Nat × Nat :=
  match readFull content pos 8 with
  | (.error e, p) => (.error e, p)
  | (.ok bs, p) => (.ok (leValue bs), p)

/-- The header part shared by `LoadToMem` and `SearchInSST`: magic number, system version
and number of records, with both panics. Returns the number of records and the offset of
the first record. -/
def readHeader (content : List Nat) : Outcome (Nat × Nat) :=
  match readU64LE content 0 with
  | (.error e, _) => .err e
  | (.ok magic, p1) =>
    if magic ≠ magicNumber then .panic "Invalid SST file"
    else
      match readU64LE content p1 with
      | (.error e, _) => .err e
      | (.ok sysVersion, p2) =>
        if sysVersion ≠ sysVers then
          .panic "Non Compatible SST file (Check the system version)"
        else
          match readU64LE content p2 with
          | (.error e, _) => .err e
          | (.ok numRecords, p3) => .ok (numRecords, p3)

/-- The record loop of `LoadToMem`: reads `n` records from offset `pos` and stores each in
the map; the map as far as it was filled is returned also on an error. -/
def loadRecords : Nat → List Nat → Nat → KVMap → Outcome Unit × KVMap
  | 0, _, _, mp => (.ok (), mp)
  | n + 1, content, pos, mp =>
    match readRecordAt content pos with
    | (.err e, _) => (.err e, mp)
    | (.panic m, _) => (.panic m, mp)
    | (.ok record, p) =>
      loadRecords n content p (mapSet mp record.Key ⟨record.Operation, record.Value⟩)

/-- `SSTMap.LoadToMem` on a freshly opened file with the given content, filling the map
`mp`. -/
def LoadToMem (mp : KVMap) (content : List Nat) : Outcome Unit × KVMap :=
  match readHeader content with
  | .err e => (.err e, mp)
  | .panic m => (.panic m, mp)
  | .ok (numRecords, p) => loadRecords numRecords content p mp

/-- The record loop of `SearchInSST`. -/
def searchRecords : Nat → List Nat → Nat → String → Outcome String
  | 0, _, _, _ => .err (.errorsNew "Key Not Found")
  | n + 1, content, pos, key =>
    match readRecordAt content pos with
    | (.err e, _) => .err e
    | (.panic m, _) => .panic m
    | (.ok record, p) =>
      if record.Key = key then
        if record.Operation = "del" then .err (.errorsNew "Key Deleted")
        else .ok record.Value
      else if strLt key record.Key then .err (.errorsNew "Key Not Found")
      else searchRecords n content p key

/-- `mySSTManager.SearchInSST`: the result and the directory (the file is opened with
`O_CREATE`, so a missing segment file is created empty). -/
def SearchInSST (d : Dir) (key : String) (idx : Nat) : Outcome String × Dir :=
  let o := openCreate d (.sst idx)
  match readHeader o.1 with
  | .err e => (.err e, o.2)
  | .panic m => (.panic m, o.2)
  | .ok (numRecords, p) => (searchRecords numRecords o.1 p key, o.2)

/-- The loop of `SearchInDisk` from index `i` downwards. -/
def searchDiskFrom (d : Dir) (key : String) : Nat → Outcome String × Dir
  | 0 =>
    match SearchInSST d key 0 with
    | (.ok val, d1) => (.ok val, d1)
    | (.panic m, d1) => (.panic m, d1)
    | (.err e, d1) =>
      if e.Error = "Key Deleted" then (.err (.errorsNew "Key Deleted"), d1)
      else (.err (.errorsNew "Key Not Found"), d1)
  | i + 1 =>
    if i + 1 > 10000000 then (.panic "Strange Error Occured", d)
    else
      match SearchInSST d key (i + 1) with
      | (.ok val, d1) => (.ok val, d1)
      | (.panic m, d1) => (.panic m, d1)
      | (.err e, d1) =>
        if e.Error = "Key Deleted" then (.err (.errorsNew "Key Deleted"), d1)
        else searchDiskFrom d1 key i

/-- The type `mySSTManager`. A nil map and an empty map of `memSST` are both `[]`. -/
structure mySSTManager where
  sstCount : Nat
  loadCount : Nat
  loadIdx : Nat
  memSST : List KVMap
  loadThreshold : Nat
  deriving DecidableEq, Repr

/-- `mySSTManager.SearchInDisk`. -/
def SearchInDisk (m : mySSTManager) (d : Dir) (key : String) : Outcome String × Dir :=
  if m.loadIdx = 0 then (.err (.errorsNew "Key Not Found"), d)
  else searchDiskFrom d key (m.loadIdx - 1)

/-- The loop of `Search` over the cached maps, given from the highest slot down: the
decision of the first map that holds the key. -/
def searchMem : List KVMap → String → Option (Outcome String)
  | [], _ => none
  | mp :: rest, key =>
    match mapGet mp key with
    | some val =>
      if val.operation = "del" then some (.err (.errorsNew "Key Deleted"))
      else some (.ok val.value)
    | none => searchMem rest key

/-- `mySSTManager.Search`. -/
def Search (m : mySSTManager) (d : Dir) (key : String) : Outcome String × Dir :=
  match searchMem m.memSST.reverse key with
  | some res => (res, d)
  | none => SearchInDisk m d key

/-! ## The engine (`KV_Store.go`) -/

/-- The type `MyKvStore`, together with the directory `SSTFiles` it works on. -/
structure MyKvStore where
  sstM : mySSTManager
  loadCount : Nat
  memDB : PersMem
  sysVersion : Nat
  dir : Dir
  deriving DecidableEq, Repr

/-- `MyKvStore.Get`. -/
def MyKvStore.Get (kv : MyKvStore) (key : String) : Outcome String × MyKvStore :=
  match kv.memDB.GetM key with
  | .ok T =>
    if T.operation = "del" then (.err (.errorsNew "Key Deleted"), kv)
    else (.ok T.value, kv)
  | _ =>
    let r := Search kv.sstM kv.dir key
    (r.1, { kv with dir := r.2 })

/-- The bytes `FlushToSST` writes for the memtable: header (magic number, system version,
number of entries, little-endian) and one record per entry in iteration order. -/
def segmentBytes (sysVersion : Nat) (store : KVMap) : List Nat :=
  leBytes 8 magicNumber ++ leBytes 8 sysVersion ++ leBytes 8 store.length
    ++ encodeRecords (store.map fun e => ⟨e.2.operation, e.1, e.2.value⟩)

/-- `MyKvStore.Update`: loads the newest segment into a fresh map and stores the map in
slot `sstCount - 1`, or appends it when the slice is too short. -/
def MyKvStore.Update (kv : MyKvStore) : Outcome Unit × MyKvStore :=
  let o := openCreate kv.dir (.sst (kv.sstM.sstCount - 1))
  let kv1 := { kv with dir := o.2 }
  match LoadToMem [] o.1 with
  | (.err e, _) => (.err e, kv1)
  | (.panic m, _) => (.panic m, kv1)
  | (.ok (), ss) =>
    if kv.sstM.sstCount ≤ kv.sstM.memSST.length then
      (.ok (), { kv1 with sstM := { kv.sstM with
        memSST := kv.sstM.memSST.set (kv.sstM.sstCount - 1) ss } })
    else
      (.ok (), { kv1 with sstM := { kv.sstM with memSST := kv.sstM.memSST ++ [ss] } })

/-- `MyKvStore.FlushToSST`: write the memtable to `SST{sstCount}.tmp`, rename the file to
`SST{sstCount}.sst`, count it, clear memtable and WAL, load the new segment. -/
def MyKvStore.FlushToSST (kv : MyKvStore) : Outcome Unit × MyKvStore :=
  let o := openCreate kv.dir (.tmp kv.sstM.sstCount)
  let d1 := dirSet o.2 (.tmp kv.sstM.sstCount)
    (overwrite o.1 (segmentBytes kv.sysVersion kv.memDB.store))
  match dirRename d1 (.tmp kv.sstM.sstCount) (.sst kv.sstM.sstCount) with
  | .error e => (.err e, { kv with dir := d1 })
  | .ok d2 =>
    MyKvStore.Update { kv with
      dir := d2
      sstM := { kv.sstM with sstCount := kv.sstM.sstCount + 1 }
      memDB := kv.memDB.Clear }

/-- `MyKvStore.CheckIfFlush`. -/
def MyKvStore.CheckIfFlush (kv : MyKvStore) : Outcome Unit × MyKvStore :=
  if kv.memDB.store.length > kv.sstM.loadThreshold then kv.FlushToSST
  else (.ok (), kv)

/-- `MyKvStore.Set`. The deferred `CheckIfFlush` runs after `SetM`; its error, if any, is
not returned (a panic in it propagates). -/
def MyKvStore.Set (kv : MyKvStore) (key val : String) : Outcome Unit × MyKvStore :=
  match MyKvStore.CheckIfFlush { kv with memDB := kv.memDB.SetM key val } with
  | (.panic m, kv1) => (.panic m, kv1)
  | (_, kv1) => (.ok (), kv1)

/-- `MyKvStore.Del`. The deferred `CheckIfFlush` runs on both return paths. -/
def MyKvStore.Del (kv : MyKvStore) (key : String) : Outcome String × MyKvStore :=
  match kv.Get key with
  | (.panic m, kv1) => (.panic m, kv1)
  | (.err e, kv1) =>
    match kv1.CheckIfFlush with
    | (.panic m, kv2) => (.panic m, kv2)
    | (_, kv2) => (.err e, kv2)
  | (.ok s, kv1) =>
    match MyKvStore.CheckIfFlush { kv1 with memDB := kv1.memDB.DelM1 key } with
    | (.panic m, kv2) => (.panic m, kv2)
    | (_, kv2) => (.ok s, kv2)

/-! ## Directory scan, manager construction and segment preload (`SSTManager.go`) -/

/-- `CheckAndClean`: removes the files with the temporary extension and returns the number
of files that remain. -/
def CheckAndClean (d : Dir) : Nat × Dir :=
  ((d.filter fun e => !e.1.hasTmpExt).length, d.filter fun e => !e.1.hasTmpExt)

/-- `NewSSTManager`. -/
def NewSSTManager (cfg : Config) (load treshold : Nat) (d : Dir) : mySSTManager × Dir :=
  let c := CheckAndClean d
  ({ sstCount := c.1
     loadCount := load
     loadIdx := c.1 - cfg.defLoad
     memSST := List.replicate cfg.defLoad []
     loadThreshold := treshold }, c.2)

/-- The loop of `LoadALL` for `count` indices starting at `i`. The goroutines of the source
write to distinct slots; they are run here one after the other. Their errors are dropped,
as in the source; the map of a slot stays as far as it was filled. -/
def loadAllFrom : Nat → Nat → mySSTManager → Dir → Outcome Unit × mySSTManager × Dir
  | 0, _, m, d => (.ok (), m, d)
  | count + 1, i, m, d =>
    let o := openCreate d (.sst i)
    if m.memSST.length ≤ i - m.loadIdx then (.panic "index out of range", m, o.2)
    else
      match LoadToMem [] o.1 with
      | (.panic msg, mp) =>
        (.panic msg, { m with memSST := m.memSST.set (i - m.loadIdx) mp }, o.2)
      | (_, mp) =>
        loadAllFrom count (i + 1) { m with memSST := m.memSST.set (i - m.loadIdx) mp } o.2

/-- `mySSTManager.LoadALL`. -/
def LoadALL (m : mySSTManager) (d : Dir) : Outcome Unit × mySSTManager × Dir :=
  loadAllFrom (m.sstCount - m.loadIdx) m.loadIdx m d

/-! ## Merging two segments (`MergeSST`) -/

/-- What `MergeSST` keeps for one input file: content and offset of the handle, the
look-ahead record (its length, its bytes, its decoded form), the counter `f` of records
taken and the header count `n`. -/
structure Cursor where
  content : List Nat
  pos : Nat
  length : Nat
  data : List Nat
  record : FileRecord
  f : Nat
  n : Nat
  deriving DecidableEq, Repr

/-- Reading and decoding the record that follows a length read: `make`, `io.ReadFull`,
`json.Unmarshal`. -/
def Cursor.readPayload (c : Cursor) (p length : Nat) : Outcome Cursor :=
  if 2 ^ 63 ≤ length then .panic "makeslice: len out of range"
  else
    match readFull c.content p length with
    | (.error e, _) => .err e
    | (.ok data, p2) =>
      match jsonUnmarshal data with
      | none => .err .jsonError
      | some r => .ok { c with pos := p2, length := length, data := data, record := r }

/-- The statement `f++` applied to the cursor of a successful step. -/
def Cursor.count : Outcome Cursor → Outcome Cursor
  | .ok c => .ok { c with f := c.f + 1 }
  | .err e => .err e
  | .panic m => .panic m

/-- Advancing an input in the main loop of `MergeSST` after its look-ahead record was
written. When the length read fails with the text "EOF" the counter is incremented and the
look-ahead stays; when it fails otherwise the source falls through with the old length. -/
def Cursor.advance (c : Cursor) : Outcome Cursor :=
  match readFull c.content c.pos 8 with
  | (.error e, p) =>
    if e.Error = "EOF" then .ok { c with pos := p, f := c.f + 1 }
    else Cursor.count (c.readPayload p c.length)
  | (.ok lb, p) => Cursor.count (c.readPayload p (beValue lb))

/-- The main loop of `MergeSST`, `for f1 < numRecords1 && f2 < numRecords2`: the input
whose look-ahead key is strictly smaller is written, otherwise the second input. Returns
the outcome with the two cursors, and the bytes written so far. -/
def mergeLoop : Nat → Cursor → Cursor → List Nat → Option (Outcome (Cursor × Cursor) × List Nat)
  | 0, _, _, _ => none
  | fuel + 1, c1, c2, out =>
    if c1.f < c1.n ∧ c2.f < c2.n then
      if strLt c1.record.Key c2.record.Key then
        match c1.advance with
        | .err e => some (.err e, out ++ beBytes 8 c1.length ++ c1.data)
        | .panic m => some (.panic m, out ++ beBytes 8 c1.length ++ c1.data)
        | .ok c1' => mergeLoop fuel c1' c2 (out ++ beBytes 8 c1.length ++ c1.data)
      else
        match c2.advance with
        | .err e => some (.err e, out ++ beBytes 8 c2.length ++ c2.data)
        | .panic m => some (.panic m, out ++ beBytes 8 c2.length ++ c2.data)
        | .ok c2' => mergeLoop fuel c1 c2' (out ++ beBytes 8 c2.length ++ c2.data)
    else some (.ok (c1, c2), out)

/-- Reading the next raw record in a drain loop: `make` and `io.ReadFull`, no decoding. -/
def Cursor.readRaw (c : Cursor) (p length : Nat) : Outcome Cursor :=
  if 2 ^ 63 ≤ length then .panic "makeslice: len out of range"
  else
    match readFull c.content p length with
    | (.error e, _) => .err e
    | (.ok data, p2) => .ok { c with pos := p2, length := length, data := data }

/-- A drain loop of `MergeSST`, `for f < numRecords`: writes the look-ahead record and reads
the next one, until the length read fails with the text "EOF". The counter is not changed
in this loop. -/
def drainLoop : Nat → Cursor → List Nat → Option (Outcome Unit × List Nat)
  | 0, _, _ => none
  | fuel + 1, c, out =>
    if c.f < c.n then
      match readFull c.content c.pos 8 with
      | (.error e, p) =>
        if e.Error = "EOF" then some (.ok (), out ++ beBytes 8 c.length ++ c.data)
        else
          match c.readRaw p c.length with
          | .err e' => some (.err e', out ++ beBytes 8 c.length ++ c.data)
          | .panic m => some (.panic m, out ++ beBytes 8 c.length ++ c.data)
          | .ok c' => drainLoop fuel c' (out ++ beBytes 8 c.length ++ c.data)
      | (.ok lb, p) =>
        match c.readRaw p (beValue lb) with
        | .err e' => some (.err e', out ++ beBytes 8 c.length ++ c.data)
        | .panic m => some (.panic m, out ++ beBytes 8 c.length ++ c.data)
        | .ok c' => drainLoop fuel c' (out ++ beBytes 8 c.length ++ c.data)
    else some (.ok (), out)

/-- The two headers as `MergeSST` reads them, with its two panics: the shared version and
the two record counts. -/
def readHeaders (c1 c2 : List Nat) : Outcome (Nat × Nat × Nat) :=
  match readU64LE c1 0, readU64LE c2 0 with
  | (.error e, _), _ => .err e
  | (.ok _, _), (.error e, _) => .err e
  | (.ok magic1, _), (.ok magic2, _) =>
    if magic1 ≠ magic2 ∨ magic1 ≠ magicNumber then .panic "Invalid SST files"
    else
      match readU64LE c1 8, readU64LE c2 8 with
      | (.error e, _), _ => .err e
      | (.ok _, _), (.error e, _) => .err e
      | (.ok v1, _), (.ok v2, _) =>
        if v1 ≠ v2 ∨ v1 ≠ sysVers then
          .panic "Non Compatible SST files (Check the system version)"
        else
          match readU64LE c1 16, readU64LE c2 16 with
          | (.error e, _), _ => .err e
          | (.ok _, _), (.error e, _) => .err e
          | (.ok n1, _), (.ok n2, _) => .ok (v1, n1, n2)

/-- The first look-ahead record of an input, read at offset 24, with the counter at 0. -/
def firstCursor (content : List Nat) (n : Nat) : Outcome Cursor :=
  match readFull content 24 8 with
  | (.error e, _) => .err e
  | (.ok lb, p) =>
    Cursor.readPayload ⟨content, p, 0, [], FileRecord.zero, 0, n⟩ p (beValue lb)

/-- The copying part of `MergeSST`: headers, first look-ahead records, main loop and the
two drain loops. Returns the outcome and the bytes written to the destination file. -/
def mergeBytes (c1 c2 : List Nat) : Option (Outcome Unit × List Nat) :=
  match readHeaders c1 c2 with
  | .err e => some (.err e, [])
  | .panic m => some (.panic m, [])
  | .ok (v1, n1, n2) =>
    let out0 := leBytes 8 magicNumber ++ leBytes 8 v1 ++ leBytes 8 ((n1 + n2) % 2 ^ 64)
    match firstCursor c1 n1 with
    | .err e => some (.err e, out0)
    | .panic m => some (.panic m, out0)
    | .ok k1 =>
      match firstCursor c2 n2 with
      | .err e => some (.err e, out0)
      | .panic m => some (.panic m, out0)
      | .ok k2 =>
        match mergeLoop (n1 + n2 + 1) k1 k2 out0 with
        | none => none
        | some (.err e, out) => some (.err e, out)
        | some (.panic m, out) => some (.panic m, out)
        | some (.ok (k1', k2'), out) =>
          match drainLoop (c1.length + 2) k1' out with
          | none => none
          | some (.err e, out1) => some (.err e, out1)
          | some (.panic m, out1) => some (.panic m, out1)
          | some (.ok (), out1) => drainLoop (c2.length + 2) k2' out1

/-- `mySSTManager.MergeSST`: merge `SST{i}.sst` and `SST{j}.sst` into `SST{i/2}.tmp`, remove
`SST{j}.sst`, remove `SST{i}.sst`, rename `SST{i/2}.tmp` to `SST{i/2}.sst`. -/
def MergeSST (d : Dir) (i j : Nat) : Option (Outcome Unit × Dir) :=
  let o1 := openCreate d (.sst i)
  let o2 := openCreate o1.2 (.sst j)
  let o3 := openCreate o2.2 (.tmp (i / 2))
  match mergeBytes o1.1 o2.1 with
  | none => none
  | some (.err e, out) => some (.err e, dirSet o3.2 (.tmp (i / 2)) (overwrite o3.1 out))
  | some (.panic m, out) => some (.panic m, dirSet o3.2 (.tmp (i / 2)) (overwrite o3.1 out))
  | some (.ok (), out) =>
    let d3 := dirSet o3.2 (.tmp (i / 2)) (overwrite o3.1 out)
    match dirRemove d3 (.sst j) with
    | .error e => some (.err e, d3)
    | .ok d4 =>
      match dirRemove d4 (.sst i) with
      | .error e => some (.err e, d4)
      | .ok d5 =>
        match dirRename d5 (.tmp (i / 2)) (.sst (i / 2)) with
        | .error e => some (.err e, d5)
        | .ok d6 => some (.ok (), d6)

/-! ## Compaction and start (`KV_Store.go`) -/

/-- The inner loop of `SSTCompaction`, `for i := 0; i+1 < n; i += 2`, from index `i`. -/
def mergePairs : Nat → Nat → Nat → Dir → Option (Outcome Unit × Dir)
  | 0, _, _, _ => none
  | fuel + 1, n, i, d =>
    if i + 1 < n then
      match MergeSST d i (i + 1) with
      | none => none
      | some (.ok (), d1) => mergePairs fuel n (i + 2) d1
      | some (.err e, d1) => some (.err e, d1)
      | some (.panic m, d1) => some (.panic m, d1)
    else some (.ok (), d)

/-- The outer loop of `SSTCompaction`, `for n > mergeThreshold`. -/
def compactLoop (cfg : Config) : Nat → Nat → Dir → Option (Outcome Unit × Dir)
  | 0, _, _ => none
  | fuel + 1, n, d =>
    if n > cfg.mergeThreshold then
      match mergePairs (n + 1) n 0 d with
      | none => none
      | some (.err e, d1) => some (.err e, d1)
      | some (.panic m, d1) => some (.panic m, d1)
      | some (.ok (), d1) =>
        if n % 2 = 1 then
          match dirRename d1 (.sst (n - 1)) (.sst (n / 2)) with
          | .error e => some (.err e, d1)
          | .ok d2 => compactLoop cfg fuel (CheckAndClean d2).1 (CheckAndClean d2).2
        else compactLoop cfg fuel (CheckAndClean d1).1 (CheckAndClean d1).2
    else some (.ok (), d)

/-- `MyKvStore.SSTCompaction`, on the directory. -/
def SSTCompaction (cfg : Config) (d : Dir) : Option (Outcome Unit × Dir) :=
  compactLoop cfg ((CheckAndClean d).1 + 1) (CheckAndClean d).1 (CheckAndClean d).2

/-- `NewKeyValueStore` on a directory and a WAL file content: the manager from
`NewSSTManager(defLoad, treshold)`, the memtable from `NewPersMem` (empty map, WAL handle
at the end of the file). -/
def NewKeyValueStore (cfg : Config) (d : Dir) (walContent : List Nat) : MyKvStore :=
  let m := NewSSTManager cfg cfg.defLoad cfg.treshold d
  { sstM := m.1
    loadCount := 0
    memDB := { store := [], wal := WALFile.SeekEnd ⟨walContent, 0⟩ }
    sysVersion := sysVers
    dir := m.2 }

/-- `MyKvStore.Start`: compaction, recount, WAL replay and segment preload. The two
goroutines of the source are run one after the other (they touch disjoint state) and are
taken to have finished when `Start` returns; the errors they return are dropped, as in the
source. -/
def MyKvStore.Start (cfg : Config) (kv : MyKvStore) : Option (Outcome Unit × MyKvStore) :=
  match SSTCompaction cfg kv.dir with
  | none => none
  | some (.err e, d1) => some (.err e, { kv with dir := d1 })
  | some (.panic m, d1) => some (.panic m, { kv with dir := d1 })
  | some (.ok (), d1) =>
    let c := CheckAndClean d1
    match kv.memDB.Load with
    | none => none
    | some (.panic m, mem) => some (.panic m, { kv with dir := c.2, memDB := mem })
    | some (_, mem) =>
      match LoadALL { kv.sstM with sstCount := c.1 } c.2 with
      | (.panic m, mgr, d2) => some (.panic m, { kv with sstM := mgr, dir := d2, memDB := mem })
      | (_, mgr, d2) => some (.ok (), { kv with sstM := mgr, dir := d2, memDB := mem })

/-! ## Vocabulary for statements about traces of the engine -/

/-- A mutation requested from the engine. -/
inductive Op where
  | set (key val : String)
  | del (key : String)
  deriving DecidableEq, Repr

/-- The key a mutation is about. -/
def Op.key : Op → String
  | .set key _ => key
  | .del key => key

/-- The engine after one call of `Set` or `Del`. -/
def MyKvStore.step (kv : MyKvStore) : Op → MyKvStore
  | .set key val => (kv.Set key val).2
  | .del key => (kv.Del key).2

/-- The engine after a sequence of calls of `Set` and `Del`. -/
def MyKvStore.run (kv : MyKvStore) (ops : List Op) : MyKvStore :=
  ops.foldl MyKvStore.step kv

/-- A new process on the files an engine leaves behind: `NewKeyValueStore` followed by
`Start`, on the directory and the WAL file of `kv`. -/
def MyKvStore.restart (cfg : Config) (kv : MyKvStore) : Option (Outcome Unit × MyKvStore) :=
  (NewKeyValueStore cfg kv.dir kv.memDB.wal.content).Start cfg

/-! ## Vocabulary for statements about lookups -/

/-- What `Get` returns for a record found in a tier: "Key Deleted" for a tombstone, the
value otherwise. -/
def decision (t : Tuple) : Outcome String :=
  if t.operation = "del" then .err (.errorsNew "Key Deleted") else .ok t.value

/-- The entry for the key in the highest cache slot that holds the key. -/
def cacheGet : List KVMap → String → Option Tuple
  | [], _ => none
  | mp :: rest, key =>
    match cacheGet rest key with
    | some t => some t
    | none => mapGet mp key

/-- The entry for the key in the memtable or else in the highest cache slot that holds the
key. -/
def MyKvStore.topGet (kv : MyKvStore) (key : String) : Option Tuple :=
  match mapGet kv.memDB.store key with
  | some t => some t
  | none => cacheGet kv.sstM.memSST key

/-- Keys in strictly ascending order. -/
def SortedMap (m : KVMap) : Prop := m.Pairwise fun a b => strLt a.1 b.1 = true

/-- The record that a mutation appends to the WAL. -/
def Op.record : Op → FileRecord
  | .set key val => ⟨"set", key, val⟩
  | .del key => ⟨"del", key, ""⟩

/-- The states of the engine the theorems are about: the version field holds `sysVers`
(as set by `NewKeyValueStore`), the memtable is in key order (as `mapSet` keeps it), its
entries and their number fit the integer types of Go, and no cache slot at or above
`sstCount` is filled. -/
structure WF (kv : MyKvStore) : Prop where
  version : kv.sysVersion = sysVers
  sorted : SortedMap kv.memDB.store
  fits : ∀ e ∈ kv.memDB.store, fitsInt64 ⟨e.2.operation, e.1, e.2.value⟩
  size : kv.memDB.store.length + 1 < 2 ^ 64
  threshold : kv.sstM.loadThreshold + 1 < 2 ^ 64
  slots : ∀ j, kv.sstM.sstCount ≤ j → kv.sstM.memSST.getD j [] = []

/-- The record `FlushToSST` builds for a memtable entry. -/
def entryRecord (e : String × Tuple) : FileRecord := ⟨e.2.operation, e.1, e.2.value⟩

/-- A well-formed segment file that holds the records `rs`: magic number, system version
`sysVers`, the number of records, then the records. -/
def segmentOf (rs : List FileRecord) : List Nat :=
  leBytes 8 magicNumber ++ leBytes 8 sysVers ++ leBytes 8 rs.length ++ encodeRecords rs

/-- The cache after `Update` has stored the map `ss` of the segment with index
`sstCount`: in slot `sstCount` when the slice is long enough, appended otherwise. -/
def flushSlots (m : mySSTManager) (ss : KVMap) : List KVMap :=
  if m.sstCount + 1 ≤ m.memSST.length then m.memSST.set m.sstCount ss
  else m.memSST ++ [ss]

/-- Record keys in non-decreasing order. -/
def KeysAscending (rs : List FileRecord) : Prop :=
  rs.Pairwise fun a b => strLt b.Key a.Key = false

/-- The file `SST{i}.sst` of the directory is a well-formed segment that holds the records
`rs` in non-decreasing key order, or the file is missing and `rs` is empty. -/
def HoldsSegment (d : Dir) (i : Nat) (rs : List FileRecord) : Prop :=
  (dirGet d (.sst i) = some (segmentOf rs) ∧ rs.length < 2 ^ 64 ∧ (∀ r ∈ rs, fitsInt64 r)
      ∧ KeysAscending rs)
    ∨ (dirGet d (.sst i) = none ∧ rs = [])

/-- The first record with the key in the on-disk segment of highest index below `n` that
holds a record with the key; `segs i` are the records of segment `i`. -/
def diskGet (segs : Nat → List FileRecord) : Nat → String → Option FileRecord
  | 0, _ => none
  | n + 1, key =>
    match (segs n).find? (fun r => r.Key = key) with
    | some r => some r
    | none => diskGet segs n key

/-- The decision of the first tier that holds a record for the key, in the order memtable,
cache slots from the highest down, on-disk segments from `loadIdx - 1` down to 0; "Key Not
Found" when no tier holds one. -/
def tierGet (kv : MyKvStore) (segs : Nat → List FileRecord) (key : String) : Outcome String :=
  match mapGet kv.memDB.store key with
  | some t => decision t
  | none =>
    match cacheGet kv.sstM.memSST key with
    | some t => decision t
    | none =>
      match diskGet segs kv.sstM.loadIdx key with
      | some r => decision ⟨r.Operation, r.Value⟩
      | none => .err (.errorsNew "Key Not Found")

/-! ## Concrete engines used as instances -/

/-- The records of two on-disk segments: segment 0 holds a tombstone for "a" and a value
for "b", segment 1 holds a value for "a". -/
def sampleSegs : Nat → List FileRecord
  | 0 => [⟨"del", "a", ""⟩, ⟨"set", "b", "2"⟩]
  | 1 => [⟨"set", "a", "9"⟩]
  | _ => []

/-- An engine with `loadIdx = 1`: segment 1 is cached in slot 0, segment 0 is on disk only,
and the memtable holds the key "c". -/
def sampleEngine : MyKvStore :=
  { sstM := { sstCount := 2, loadCount := 1, loadIdx := 1,
              memSST := [[("a", ⟨"set", "9"⟩)]], loadThreshold := 5 }
    loadCount := 0
    memDB := { store := [("c", ⟨"set", "3"⟩)], wal := ⟨encodeRecord ⟨"set", "c", "3"⟩, 0⟩ }
    sysVersion := sysVers
    dir := [(.sst 0, segmentOf (sampleSegs 0)), (.sst 1, segmentOf (sampleSegs 1))] }

/-- A small configuration: four cache slots, flush when the memtable holds more than one
entry, compact when there is more than one segment. -/
def smallConfig : Config := ⟨4, 1, 1⟩

/-- A configuration in which every mutation flushes: flush threshold 0. -/
def eagerConfig : Config := ⟨4, 0, 1⟩

/-- A directory of eleven well-formed one-record segments; segment 0 holds ("k", "old") and
segment 1, the newer one, holds ("k", "new"). -/
def elevenSegments : Dir :=
  [(.sst 0, segmentOf [⟨"set", "k", "old"⟩]), (.sst 1, segmentOf [⟨"set", "k", "new"⟩]),
   (.sst 2, segmentOf [⟨"set", "c", "2"⟩]), (.sst 3, segmentOf [⟨"set", "d", "3"⟩]),
   (.sst 4, segmentOf [⟨"set", "e", "4"⟩]), (.sst 5, segmentOf [⟨"set", "f", "5"⟩]),
   (.sst 6, segmentOf [⟨"set", "g", "6"⟩]), (.sst 7, segmentOf [⟨"set", "h", "7"⟩]),
   (.sst 8, segmentOf [⟨"set", "i", "8"⟩]), (.sst 9, segmentOf [⟨"set", "j", "9"⟩]),
   (.sst 10, segmentOf [⟨"set", "l", "10"⟩])]


/-! ## Vocabulary for statements about segments -/

/-- The record that `ReadRecord` hands to its caller: the decoded record on success, the
zero value `FileRecord{}` on every error return (`WAL.go`, lines 101, 103, 110 and 117). -/
def returnedRecord : Outcome FileRecord → FileRecord
  | .ok r => r
  | _ => FileRecord.zero

/-- A WAL file that is closed and opened again with `NewWALFile`: same bytes, handle at
offset 0. -/
def WALFile.reopen (w : WALFile) : WALFile := { content := w.content, pos := 0 }

/-- The scan of all records of a segment as the specification words it: take the first
record with the key; its value if the operation is set, "Key Deleted" if it is del, and
"Key Not Found" if no record has the key. -/
def scanAll (rs : List FileRecord) (key : String) : Outcome String :=
  match rs.find? (fun r => r.Key = key) with
  | some r =>
    if r.Operation = "del" then .err (.errorsNew "Key Deleted") else .ok r.Value
  | none => .err (.errorsNew "Key Not Found")

/-- Record keys in strictly ascending order. -/
def KeysStrictlyAscending (rs : List FileRecord) : Prop :=
  rs.Pairwise fun a b => strLt a.Key b.Key = true

/-- An engine whose memtable holds exactly `loadThreshold` entries (one entry, threshold
1). -/
def atThresholdEngine : MyKvStore :=
  { sampleEngine with sstM := { sampleEngine.sstM with loadThreshold := 1 } }

/-- An engine whose memtable holds `loadThreshold + 1` entries (one entry, threshold 0). -/
def overThresholdEngine : MyKvStore :=
  { sampleEngine with sstM := { sampleEngine.sstM with loadThreshold := 0 } }

/-! ## Vocabulary for statements about merging -/

/-- Inserting the list `a :: as` into the merge with a second list: `k` continues the
merge once `a` has been written. -/
def mergeInto (a : FileRecord) (as : List FileRecord)
    (k : List FileRecord → List FileRecord) : List FileRecord → List FileRecord
  | [] => a :: as
  | b :: bs =>
    if strLt a.Key b.Key then a :: k (b :: bs) else b :: mergeInto a as k bs

/-- The order in which `MergeSST` writes the records of its two inputs: the head of the
first list when its key is strictly smaller than the head key of the second list, the head
of the second list otherwise; the rest of a list once the other is used up. -/
def mergeRecs : List FileRecord → List FileRecord → List FileRecord
  | [] => fun bs => bs
  | a :: as => mergeInto a as (mergeRecs as)

/-- The cursor of `MergeSST` has `cur` as its look-ahead record, read and decoded, and the
records `rest` still unread behind the handle. -/
structure Cursor.Active (c : Cursor) (cur : FileRecord) (rest : List FileRecord) : Prop where
  unread : ∃ pre, c.content = pre ++ encodeRecords rest ∧ c.pos = pre.length
  length : c.length = (jsonMarshal cur).length
  data : c.data = jsonMarshal cur
  record : c.record = cur
  count : c.f + rest.length + 1 = c.n
  fitsCur : fitsInt64 cur
  fitsRest : ∀ r ∈ rest, fitsInt64 r

/-- The cursor of a drain loop holds the bytes of `cur` as look-ahead, with the records
`rest` still unread behind the handle, and its counter is below the header count. -/
structure Cursor.Pending (c : Cursor) (cur : FileRecord) (rest : List FileRecord) : Prop where
  unread : ∃ pre, c.content = pre ++ encodeRecords rest ∧ c.pos = pre.length
  length : c.length = (jsonMarshal cur).length
  data : c.data = jsonMarshal cur
  count : c.f < c.n
  fitsRest : ∀ r ∈ rest, fitsInt64 r

/-- The directory after a `MergeSST(i, j)` whose copying part wrote the bytes `out`: the
three files opened (created when missing), the temporary file written, `SST{j}.sst` and
`SST{i}.sst` removed, the temporary file renamed to `SST{i/2}.sst`. -/
def mergedDir (d : Dir) (i j : Nat) (out : List Nat) : Dir :=
  let o1 := openCreate d (.sst i)
  let o2 := openCreate o1.2 (.sst j)
  let o3 := openCreate o2.2 (.tmp (i / 2))
  let d3 := dirSet o3.2 (.tmp (i / 2)) (overwrite o3.1 out)
  let d4 := d3.filter fun e => e.1 ≠ FileName.sst j
  let d5 := d4.filter fun e => e.1 ≠ FileName.sst i
  dirSet (d5.filter fun e => e.1 ≠ FileName.tmp (i / 2)) (.sst (i / 2)) (overwrite o3.1 out)


/-! ## The order of the file-system calls at the end of a merge -/

/-- The directory after each file-system call of `MergeSST` from the point where the merged
bytes are in the temporary file, in the order of the calls in the source: after the last
write to `SST{i/2}.tmp`, after `os.Remove` of `SST{j}.sst`, after `os.Remove` of
`SST{i}.sst`, after `os.Rename` of `SST{i/2}.tmp` to `SST{i/2}.sst`. A call that fails ends
the list; `none` when the merge of the bytes does not complete without error. -/
def MergeSST.dirStates (d : Dir) (i j : Nat) : Option (List Dir) :=
  let o1 := openCreate d (.sst i)
  let o2 := openCreate o1.2 (.sst j)
  let o3 := openCreate o2.2 (.tmp (i / 2))
  match mergeBytes o1.1 o2.1 with
  | some (.ok (), out) =>
    let d3 := dirSet o3.2 (.tmp (i / 2)) (overwrite o3.1 out)
    match dirRemove d3 (.sst j) with
    | .error _ => some [d3]
    | .ok d4 =>
      match dirRemove d4 (.sst i) with
      | .error _ => some [d3, d4]
      | .ok d5 =>
        match dirRename d5 (.tmp (i / 2)) (.sst (i / 2)) with
        | .error _ => some [d3, d4, d5]
        | .ok d6 => some [d3, d4, d5, d6]
  | _ => none

/-! ## Vocabulary for statements about compaction -/

/-- The directory holds exactly the files `SST0.sst` .. `SST{n-1}.sst`, each once, and no
other file. -/
def ExactlySegments (d : Dir) (n : Nat) : Prop :=
  (d.map Prod.fst).Perm ((List.range n).map FileName.sst)

instance (d : Dir) (n : Nat) : Decidable (ExactlySegments d n) := by
  unfold ExactlySegments
  infer_instance

/-- One pass of the loop of `SSTCompaction` over `n` segments, up to the directory scan that
ends it: the inner loop over the pairs, then the rename of the tail when `n` is odd. -/
def compactPass (n : Nat) (d : Dir) : Option (Outcome Unit × Dir) :=
  match mergePairs (n + 1) n 0 d with
  | none => none
  | some (.err e, d1) => some (.err e, d1)
  | some (.panic m, d1) => some (.panic m, d1)
  | some (.ok (), d1) =>
    if n % 2 = 1 then
      match dirRename d1 (.sst (n - 1)) (.sst (n / 2)) with
      | .error e => some (.err e, d1)
      | .ok d2 => some (.ok (), d2)
    else some (.ok (), d1)

/-- The directory `d` inside a pass over the `n` segments of `d0`, when the pairs below `k`
have been merged: it holds the merged segments `SST0.sst` .. `SST{k-1}.sst`, segment `a`
being the output of the merge of the segments `2a` and `2a+1` of `d0`, the segments
`SST{2k}.sst` .. `SST{n-1}.sst` of `d0` unchanged, and no other file. -/
structure MidPass (d0 : Dir) (n k : Nat) (d : Dir) : Prop where
  nodup : (d.map Prod.fst).Nodup
  names : ∀ f, dirGet d f ≠ none → ∃ a, f = FileName.sst a ∧ (a < k ∨ (2 * k ≤ a ∧ a < n))
  merged : ∀ a, a < k → ∃ c1 c2 out, dirGet d0 (.sst (2 * a)) = some c1
    ∧ dirGet d0 (.sst (2 * a + 1)) = some c2 ∧ mergeBytes c1 c2 = some (.ok (), out)
    ∧ dirGet d (.sst a) = some out
  rest : ∀ a, 2 * k ≤ a → a < n → ∃ c, dirGet d0 (.sst a) = some c ∧ dirGet d (.sst a) = some c

/-- The directory `d2` after a pass over the `n` segments of `d0`: it holds exactly the
segments below `(n + 1) / 2`; segment `k` is the output of the merge of the segments `2k`
and `2k+1` of `d0`, and for odd `n` the last segment of `d0` has become segment `n / 2`. -/
structure PassResult (d0 : Dir) (n : Nat) (d2 : Dir) : Prop where
  exact : ExactlySegments d2 ((n + 1) / 2)
  merged : ∀ k, 2 * k + 1 < n → ∃ c1 c2 out, dirGet d0 (.sst (2 * k)) = some c1
    ∧ dirGet d0 (.sst (2 * k + 1)) = some c2 ∧ mergeBytes c1 c2 = some (.ok (), out)
    ∧ dirGet d2 (.sst k) = some out
  tail : n % 2 = 1 → dirGet d2 (.sst (n / 2)) = dirGet d0 (.sst (n - 1))

/-- The records of three on-disk segments: the two of `sampleSegs` and a newer one that
holds a value for "c". -/
def threeSegs : Nat → List FileRecord
  | 2 => [⟨"set", "c", "3"⟩]
  | a => sampleSegs a

/-- A directory of three well-formed segments. -/
def threeSegments : Dir :=
  [(.sst 0, segmentOf (threeSegs 0)), (.sst 1, segmentOf (threeSegs 1)),
   (.sst 2, segmentOf (threeSegs 2))]

/-- The directory holds exactly the segments below `n`, and segment `a` is the well-formed
segment of the records `segs a` (possibly none: a header with count 0): the records fit the
integer type of their length prefix, and the record counts together fit the count field of
a header. -/
structure HoldsSegments (d : Dir) (n : Nat) (segs : Nat → List FileRecord) : Prop where
  exact : ExactlySegments d n
  content : ∀ a, a < n → dirGet d (.sst a) = some (segmentOf (segs a))
  fits : ∀ a, a < n → ∀ r ∈ segs a, fitsInt64 r
  total : ((List.range n).map fun a => (segs a).length).sum < 2 ^ 64

/-- The records of the segments after a pass over `n` segments with records `segs`: segment
`k` holds the merge of the records of the segments `2k` and `2k+1`; for odd `n` the last
one holds the records of the former last segment. -/
def passSegs (n : Nat) (segs : Nat → List FileRecord) (k : Nat) : List FileRecord :=
  if 2 * k + 1 < n then mergeRecs (segs (2 * k)) (segs (2 * k + 1)) else segs (2 * k)

/-! ## Vocabulary for statements about the memtable and its WAL -/

/-- A call on the memtable, of the three that the engine issues to change it: `SetM`,
`DelM1` and `Clear`. -/
inductive MemOp where
  | set (key val : String)
  | del (key : String)
  | clear
  deriving DecidableEq, Repr

/-- The memtable after one such call. -/
def PersMem.apply (s : PersMem) : MemOp → PersMem
  | .set key val => s.SetM key val
  | .del key => s.DelM1 key
  | .clear => s.Clear

/-- The memtable after a sequence of such calls. -/
def PersMem.applyAll (s : PersMem) (ops : List MemOp) : PersMem :=
  ops.foldl PersMem.apply s

/-- The record that a call appends to the WAL fits the integer type of its length prefix;
`Clear` appends none. -/
def MemOp.fits : MemOp → Prop
  | .set key val => fitsInt64 ⟨"set", key, val⟩
  | .del key => fitsInt64 ⟨"del", key, ""⟩
  | .clear => True

instance (op : MemOp) : Decidable op.fits := by
  cases op <;> unfold MemOp.fits <;> infer_instance

/-! ## A flush whose first file-system call fails -/

/-- `FlushToSST` given the error, if any, that its first call returns, `os.OpenFile` on
`SST{sstCount}.tmp`: with an error the function returns it at once and nothing has changed
(`KV_Store.go`, lines 133 to 137); without one it runs as `FlushToSST`. -/
def MyKvStore.FlushToSSTOn (openErr : Option GoError) (kv : MyKvStore) :
    Outcome Unit × MyKvStore :=
  match openErr with
  | some e => (.err e, kv)
  | none => kv.FlushToSST

/-- `CheckIfFlush`, with the error of the `os.OpenFile` call of the flush given. -/
def MyKvStore.CheckIfFlushOn (openErr : Option GoError) (kv : MyKvStore) :
    Outcome Unit × MyKvStore :=
  if kv.memDB.store.length > kv.sstM.loadThreshold then kv.FlushToSSTOn openErr
  else (.ok (), kv)

/-- `Set`, with the error of the `os.OpenFile` call of the flush given. The statement
`defer kv.CheckIfFlush()` discards what the call returns; `Set` returns what `SetM`
returned. -/
def MyKvStore.SetOn (openErr : Option GoError) (kv : MyKvStore) (key val : String) :
    Outcome Unit × MyKvStore :=
  match MyKvStore.CheckIfFlushOn openErr { kv with memDB := kv.memDB.SetM key val } with
  | (.panic m, kv1) => (.panic m, kv1)
  | (_, kv1) => (.ok (), kv1)

/-- `Del`, with the error of the `os.OpenFile` call of the flush given. -/
def MyKvStore.DelOn (openErr : Option GoError) (kv : MyKvStore) (key : String) :
    Outcome String × MyKvStore :=
  match kv.Get key with
  | (.panic m, kv1) => (.panic m, kv1)
  | (.err e, kv1) =>
    match kv1.CheckIfFlushOn openErr with
    | (.panic m, kv2) => (.panic m, kv2)
    | (_, kv2) => (.err e, kv2)
  | (.ok s, kv1) =>
    match MyKvStore.CheckIfFlushOn openErr { kv1 with memDB := kv1.memDB.DelM1 key } with
    | (.panic m, kv2) => (.panic m, kv2)
    | (_, kv2) => (.ok s, kv2)

/-- The error of an `os.OpenFile` call on a full disk. -/
def diskFull : GoError := .osError "open SSTFiles/SST0.tmp: no space left on device"

/-! ## The HTTP frontend (`main.go`) -/

/-- What a handler writes to its `http.ResponseWriter`: the status code and the body. -/
structure Response where
  status : Nat
  body : String
  deriving DecidableEq, Repr

/-- `HTTP_API_DB.HandleGet` for the query parameter `key`. The constants `KeyNotFound` and
`KeyDeleted` have the type `Error` and the values 0 and 1; the comparison `err ==
KeyNotFound` of the interface value `err` with one of them holds only when the dynamic type
of `err` is `Error`. `fmt.Fprint` writes the body with the status 200; `http.Error` writes
the text and a newline with the given status. -/
def HandleGet (kv : MyKvStore) (key : String) : Outcome Response × MyKvStore :=
  match kv.Get key with
  | (.panic m, kv1) => (.panic m, kv1)
  | (.err e, kv1) =>
    if e = .mainError 0 ∨ e = .mainError 1 then (.ok ⟨200, "Key not found"⟩, kv1)
    else (.ok ⟨500, e.Error ++ "\n"⟩, kv1)
  | (.ok val, kv1) => (.ok ⟨200, val⟩, kv1)

/-! ## Two segments that hold the same key -/

/-- A directory of two one-record segments that both hold the key "k": segment 0, the
older one, with the value "old", and segment 1, the newer one, with the value "new". -/
def twoVersions : Dir :=
  [(.sst 0, segmentOf [⟨"set", "k", "old"⟩]), (.sst 1, segmentOf [⟨"set", "k", "new"⟩])]

/-! ## Directories for statements about the load window -/

/-- A configuration with a load window of one segment: one cache slot, flush threshold 1,
merge threshold 1. -/
def windowConfig : Config := ⟨1, 1, 1⟩

/-- A directory of `n` well-formed one-record segments `SST0.sst` .. `SST{n-1}.sst`, each
holding ("k", "v"). -/
def manySegments (n : Nat) : Dir :=
  (List.range n).map fun a => (FileName.sst a, segmentOf [⟨"set", "k", "v"⟩])

/-! ## Engines for statements about flushes of larger memtables -/

/-- An engine whose memtable holds a tombstone and two values, in key order; directory and
cache are those of `sampleEngine`. -/
def tombstoneEngine : MyKvStore :=
  { sampleEngine with
    memDB := ⟨[("a", ⟨"del", ""⟩), ("b", ⟨"set", "2"⟩), ("c", ⟨"set", "3"⟩)],
      ⟨encodeRecords [⟨"set", "a", "1"⟩, ⟨"set", "b", "2"⟩, ⟨"del", "a", ""⟩,
        ⟨"set", "c", "3"⟩], 0⟩⟩ }

/-- The key of `i + 1` letters "a"; these keys ascend with `i`. -/
def aKey (i : Nat) : String := String.mk (List.replicate (i + 1) 'a')

/-- The records (set, `aKey i`, "v") for `i < n`, in this order. -/
def aRecords (n : Nat) : List FileRecord :=
  (List.range n).map fun i => ⟨"set", aKey i, "v"⟩

/-- The engine that `Start` gives on an empty directory and a WAL that holds the records
`aRecords n`: the replay fills the memtable with `n` entries and does not flush. Such a WAL
is left by a process that stopped after the WAL append of a `Set` and before the flush that
the `Set` triggers had cleared the WAL. -/
def replayedEngine (cfg : Config) (n : Nat) : MyKvStore :=
  { sstM := ⟨0, cfg.defLoad, 0, List.replicate cfg.defLoad [], cfg.treshold⟩
    loadCount := 0
    memDB := ⟨(List.range n).map fun i => (aKey i, ⟨"set", "v"⟩),
      ⟨encodeRecords (aRecords n), (encodeRecords (aRecords n)).length⟩⟩
    sysVersion := sysVers
    dir := [] }
/-! ## The JSON text of a record can be read back -/

theorem hexVal_hexDigit (d : Nat) (h : d < 16) : hexVal (hexDigit d) = some d := by
  interval_cases d <;> rfl

theorem decodeRune_two (n : Nat) (rest : List Nat) (h80 : 0x80 ≤ n) (h1 : n < 0x800) :
    decodeRune (utf8Encode n ++ rest) = (n, (utf8Encode n).length) := by
  have h0 : ¬ n < 0x80 := by omega
  simp only [utf8Encode, h0, h1, if_true, if_false, List.cons_append, List.nil_append,
    decodeRune, isCont, Bool.and_eq_true, decide_eq_true_eq, List.length_cons, List.length_nil]
  split_ifs <;> simp only [RuneError] at * <;> first
    | omega
    | (rw [Prod.mk.injEq]; omega)

theorem decodeRune_three (n : Nat) (rest : List Nat) (h1 : 0x800 ≤ n) (h2 : n < 0x10000)
    (hv : n < 0xD800 ∨ 0xDFFF < n) :
    decodeRune (utf8Encode n ++ rest) = (n, (utf8Encode n).length) := by
  have h0 : ¬ n < 0x80 := by omega
  have h1' : ¬ n < 0x800 := by omega
  simp only [utf8Encode, h0, h1', h2, if_true, if_false, List.cons_append, List.nil_append,
    decodeRune, isCont, Bool.and_eq_true, decide_eq_true_eq, List.length_cons, List.length_nil]
  split_ifs <;> simp only [RuneError] at * <;> first
    | omega
    | (rw [Prod.mk.injEq]; omega)

theorem decodeRune_four_digits (q b1 b2 b3 : Nat) (rest : List Nat)
    (hq1 : 1 ≤ q ∨ 16 ≤ b1) (hq4 : q < 4 ∨ (q = 4 ∧ b1 < 16))
    (l1 : b1 < 64) (l2 : b2 < 64) (l3 : b3 < 64) :
    decodeRune ((0xF0 + q) :: (0x80 + b1) :: (0x80 + b2) :: (0x80 + b3) :: rest)
      = (q * 262144 + b1 * 4096 + b2 * 64 + b3, 4) := by
  simp only [decodeRune, isCont, Bool.and_eq_true, decide_eq_true_eq]
  split_ifs <;> simp only [RuneError] at * <;> first
    | omega
    | (rw [Prod.mk.injEq]; omega)

theorem decodeRune_four (n : Nat) (rest : List Nat) (h2 : 0x10000 ≤ n) (hv : n < 0x110000) :
    decodeRune (utf8Encode n ++ rest) = (n, (utf8Encode n).length) := by
  have h0 : ¬ n < 0x80 := by omega
  have h1 : ¬ n < 0x800 := by omega
  have h2' : ¬ n < 0x10000 := by omega
  simp only [utf8Encode, h0, h1, h2', if_false, List.cons_append, List.nil_append,
    List.length_cons, List.length_nil]
  rw [decodeRune_four_digits _ _ _ _ rest (by omega) (by omega) (by omega) (by omega) (by omega)]
  rw [Prod.mk.injEq]
  omega

theorem decodeRune_utf8Encode (n : Nat) (rest : List Nat) (h80 : 0x80 ≤ n)
    (hv : n < 0xD800 ∨ (0xDFFF < n ∧ n < 0x110000)) :
    decodeRune (utf8Encode n ++ rest) = (n, (utf8Encode n).length) := by
  by_cases h1 : n < 0x800
  · exact decodeRune_two n rest h80 h1
  · by_cases h2 : n < 0x10000
    · exact decodeRune_three n rest (by omega) h2 (by omega)
    · exact decodeRune_four n rest (by omega) (by omega)

theorem utf8Encode_head (n : Nat) (h80 : 0x80 ≤ n) :
    ∃ b tail, utf8Encode n = b :: tail ∧ 0x80 ≤ b := by
  unfold utf8Encode
  split_ifs
  · omega
  · exact ⟨_, _, rfl, by omega⟩
  · exact ⟨_, _, rfl, by omega⟩
  · exact ⟨_, _, rfl, by omega⟩

theorem unquoteAux_raw (n : Nat) (fuel : Nat) (rest : List Nat) (acc : List Char)
    (h80 : 0x80 ≤ n) (hv : n < 0xD800 ∨ (0xDFFF < n ∧ n < 0x110000)) :
    unquoteAux (fuel + 1) (utf8Encode n ++ rest) acc
      = unquoteAux fuel rest (acc ++ [Char.ofNat n]) := by
  have hd := decodeRune_utf8Encode n rest h80 hv
  obtain ⟨b, tail, he, hb⟩ := utf8Encode_head n h80
  rw [he] at hd ⊢
  simp only [List.cons_append] at hd ⊢
  have b1 : ¬ b = 0x22 := by omega
  have b2 : ¬ b = 0x5C := by omega
  have b3 : ¬ b < 0x20 := by omega
  have b4 : ¬ b < 0x80 := by omega
  simp only [unquoteAux, b1, b2, b3, b4, if_false, hd, List.length_cons, Nat.add_sub_cancel]
  rw [List.drop_left]

theorem unquoteAux_ascii (n : Nat) (fuel : Nat) (rest : List Nat) (acc : List Char)
    (h80 : n < 0x80) :
    unquoteAux (fuel + 1) (quoteChar n ++ rest) acc
      = unquoteAux fuel rest (acc ++ [Char.ofNat n]) := by
  interval_cases n <;> rfl

theorem unquoteAux_sep (n : Nat) (fuel : Nat) (rest : List Nat) (acc : List Char)
    (h : n = 0x2028 ∨ n = 0x2029) :
    unquoteAux (fuel + 1) (quoteChar n ++ rest) acc
      = unquoteAux fuel rest (acc ++ [Char.ofNat n]) := by
  rcases h with h | h <;> subst h <;> rfl

theorem unquoteAux_quoteChar (c : Char) (fuel : Nat) (rest : List Nat) (acc : List Char) :
    unquoteAux (fuel + 1) (quoteChar c.toNat ++ rest) acc = unquoteAux fuel rest (acc ++ [c]) := by
  have hv : c.toNat < 0xD800 ∨ (0xDFFF < c.toNat ∧ c.toNat < 0x110000) := c.valid
  have hc : Char.ofNat c.toNat = c := Char.ofNat_toNat c
  generalize c.toNat = n at hv hc
  rw [← hc]
  by_cases h80 : n < 0x80
  · exact unquoteAux_ascii n fuel rest acc h80
  · by_cases hs : n = 0x2028 ∨ n = 0x2029
    · exact unquoteAux_sep n fuel rest acc hs
    · have hq : quoteChar n = utf8Encode n := by
        simp only [quoteChar, h80, hs, if_false]
      rw [hq]
      exact unquoteAux_raw n fuel rest acc (by omega) hv

theorem unquoteAux_quoteBody (cs : List Char) :
    ∀ (fuel : Nat) (rest : List Nat) (acc : List Char), cs.length < fuel →
      unquoteAux fuel (quoteBody cs ++ 0x22 :: rest) acc = some (acc ++ cs, rest) := by
  induction cs with
  | nil =>
    intro fuel rest acc hf
    obtain ⟨f, rfl⟩ : ∃ f, fuel = f + 1 := ⟨fuel - 1, by simp at hf; omega⟩
    simp [quoteBody, unquoteAux]
  | cons c cs ih =>
    intro fuel rest acc hf
    obtain ⟨f, rfl⟩ : ∃ f, fuel = f + 1 := ⟨fuel - 1, by simp at hf; omega⟩
    simp only [quoteBody, List.append_assoc]
    rw [unquoteAux_quoteChar, ih f rest (acc ++ [c]) (by simpa using hf)]
    simp

theorem quoteChar_ne_nil (n : Nat) : 1 ≤ (quoteChar n).length := by
  unfold quoteChar utf8Encode
  split_ifs <;> simp

theorem length_quoteBody (cs : List Char) : cs.length ≤ (quoteBody cs).length := by
  induction cs with
  | nil => simp [quoteBody]
  | cons c cs ih =>
    have := quoteChar_ne_nil c.toNat
    simp only [quoteBody, List.length_cons, List.length_append]
    omega

/-- Reading the string literal written for `s` (after its opening quote) gives `s` back and
leaves exactly the bytes that followed the closing quote. -/
theorem unquote_quoteBody (s : String) (rest : List Nat) :
    unquote (quoteBody s.toList ++ 0x22 :: rest) = some (s, rest) := by
  unfold unquote
  rw [unquoteAux_quoteBody s.toList _ rest []]
  · simp
  · have := length_quoteBody s.toList
    simp only [List.length_append, List.length_cons]
    omega

theorem stripLit_append (lit rest : List Nat) : stripLit lit (lit ++ rest) = some rest := by
  induction lit with
  | nil => cases rest <;> rfl
  | cons l ls ih => simp [stripLit, ih]

/-- The codec law: `json.Unmarshal` applied to the output of `json.Marshal` returns the
record that was marshalled. -/
theorem jsonUnmarshal_jsonMarshal (r : FileRecord) : jsonUnmarshal (jsonMarshal r) = some r := by
  have e : jsonMarshal r =
      ascii "\x7b\"Operation\":\"" ++ (quoteBody r.Operation.toList ++ 0x22 ::
        (ascii ",\"Key\":\"" ++ (quoteBody r.Key.toList ++ 0x22 ::
          (ascii ",\"Value\":\"" ++ (quoteBody r.Value.toList ++ 0x22 :: ascii "\x7d"))))) := by
    simp [jsonMarshal, quote, ascii]
  rw [e]
  unfold jsonUnmarshal
  simp only [stripLit_append, unquote_quoteBody, Option.bind, if_true]

/-! ## Framing of records in a file -/

theorem length_beBytes (k v : Nat) : (beBytes k v).length = k := by
  induction k generalizing v with
  | zero => rfl
  | succ k ih => simp [beBytes, ih]

theorem beValue_beBytes8 (v : Nat) (h : v < 2 ^ 64) : beValue (beBytes 8 v) = v := by
  simp only [beBytes, beValue, List.nil_append, List.cons_append, List.foldl_cons,
    List.foldl_nil]
  omega

theorem length_encodeRecord (r : FileRecord) :
    (encodeRecord r).length = 8 + (jsonMarshal r).length := by
  simp [encodeRecord, length_beBytes]

theorem readFull_mid (pre bs rest : List Nat) :
    readFull (pre ++ bs ++ rest) pre.length bs.length = (.ok bs, pre.length + bs.length) := by
  unfold readFull
  by_cases h0 : bs.length = 0
  · have : bs = [] := List.length_eq_zero.mp h0
    simp [this]
  · have hd : List.drop pre.length (pre ++ bs ++ rest) = bs ++ rest := by
      rw [List.append_assoc, List.drop_left]
    simp only [h0, if_false, hd, List.length_append]
    have h1 : ¬ (bs.length + rest.length = 0) := by omega
    have h2 : ¬ (bs.length + rest.length < bs.length) := by omega
    simp only [h1, h2, if_false, List.take_left]

theorem readFull_end (content : List Nat) (n : Nat) (hn : n ≠ 0) :
    readFull content content.length n = (.error .EOF, content.length) := by
  simp [readFull, hn]

/-- Reading at the offset where a record starts returns the record and moves the offset
just past it. -/
theorem readRecordAt_encodeRecord (pre rest : List Nat) (r : FileRecord) (hr : fitsInt64 r) :
    readRecordAt (pre ++ encodeRecord r ++ rest) pre.length
      = (.ok r, pre.length + (encodeRecord r).length) := by
  unfold fitsInt64 at hr
  have e1 : pre ++ encodeRecord r ++ rest
      = pre ++ beBytes 8 (jsonMarshal r).length ++ (jsonMarshal r ++ rest) := by
    simp [encodeRecord]
  have r1 := readFull_mid pre (beBytes 8 (jsonMarshal r).length) (jsonMarshal r ++ rest)
  rw [length_beBytes] at r1
  have e2 : pre ++ encodeRecord r ++ rest
      = (pre ++ beBytes 8 (jsonMarshal r).length) ++ jsonMarshal r ++ rest := by
    simp [encodeRecord]
  have r2 := readFull_mid (pre ++ beBytes 8 (jsonMarshal r).length) (jsonMarshal r) rest
  rw [List.length_append, length_beBytes] at r2
  unfold readRecordAt
  rw [e1, r1]
  simp only
  rw [beValue_beBytes8 _ (by omega)]
  have hlt : ¬ (2 ^ 63 ≤ (jsonMarshal r).length) := by omega
  simp only [hlt, if_false]
  rw [← e1, e2, r2]
  simp only [jsonUnmarshal_jsonMarshal, length_encodeRecord]
  rw [Nat.add_assoc]

/-- Reading at the end of the file returns `io.EOF` and leaves the offset where it is. -/
theorem readRecordAt_end (content : List Nat) :
    readRecordAt content content.length = (.err .EOF, content.length) := by
  unfold readRecordAt
  rw [readFull_end content 8 (by decide)]

theorem fileWrite_end (content bs : List Nat) :
    fileWrite content content.length bs = (content ++ bs, content.length + bs.length) := by
  simp [fileWrite]

theorem WriteRecord_eq (w : WALFile) (r : FileRecord) :
    w.WriteRecord r
      = { content := w.content ++ encodeRecord r,
          pos := (w.content ++ encodeRecord r).length } := by
  have e := fileWrite_end (w.content ++ beBytes 8 (jsonMarshal r).length) (jsonMarshal r)
  rw [List.length_append] at e
  simp only [WALFile.WriteRecord, WALFile.SeekEnd, fileWrite_end, e, encodeRecord,
    List.length_append, List.append_assoc, Nat.add_assoc]

theorem writeAll_eq (rs : List FileRecord) : ∀ w : WALFile,
    (writeAll w rs).content = w.content ++ encodeRecords rs := by
  induction rs with
  | nil => intro w; simp [writeAll, encodeRecords]
  | cons r rs ih =>
    intro w
    have := ih (w.WriteRecord r)
    simp only [writeAll, List.foldl_cons] at this ⊢
    rw [this, WriteRecord_eq]
    simp [encodeRecords]

theorem encodeRecords_cons (r : FileRecord) (rs : List FileRecord) :
    encodeRecords (r :: rs) = encodeRecord r ++ encodeRecords rs := by
  simp [encodeRecords]

theorem ReadRecord_at_record (pre rest : List Nat) (r : FileRecord) (hr : fitsInt64 r) :
    WALFile.ReadRecord ⟨pre ++ encodeRecord r ++ rest, pre.length⟩
      = (.ok r, ⟨pre ++ encodeRecord r ++ rest, (pre ++ encodeRecord r).length⟩) := by
  simp only [WALFile.ReadRecord, readRecordAt_encodeRecord pre rest r hr, List.length_append]

theorem ReadRecord_at_end (content : List Nat) :
    WALFile.ReadRecord ⟨content, content.length⟩ = (.err .EOF, ⟨content, content.length⟩) := by
  simp only [WALFile.ReadRecord, readRecordAt_end]

theorem readN_succ (k : Nat) (w : WALFile) :
    readN (k + 1) w
      = ((w.ReadRecord.1) :: (readN k w.ReadRecord.2).1, (readN k w.ReadRecord.2).2) := rfl

theorem readN_records (rs : List FileRecord) : ∀ pre : List Nat, (∀ x ∈ rs, fitsInt64 x) →
    (readN (rs.length + 1) ⟨pre ++ encodeRecords rs, pre.length⟩).1
      = rs.map Outcome.ok ++ [Outcome.err GoError.EOF] := by
  induction rs with
  | nil =>
    intro pre _
    simp only [encodeRecords, List.map_nil, List.flatten_nil, List.append_nil, List.length_nil,
      Nat.zero_add, readN, ReadRecord_at_end, List.nil_append]
  | cons r rs ih =>
    intro pre h
    have hr : fitsInt64 r := h r (List.mem_cons_self _ _)
    have hrs : ∀ x ∈ rs, fitsInt64 x := fun x hx => h x (List.mem_cons_of_mem _ hx)
    have e : pre ++ encodeRecords (r :: rs) = pre ++ encodeRecord r ++ encodeRecords rs := by
      rw [encodeRecords_cons, List.append_assoc]
    rw [e, List.length_cons, readN_succ, ReadRecord_at_record pre _ r hr]
    simp only [List.map_cons, List.cons_append]
    rw [ih (pre ++ encodeRecord r) hrs]

/-! ## Claims about the WAL codec -/

/-- C6: decode undoes encode. For every record small enough to be a Go slice, `ReadRecord`
positioned at the bytes that `WriteRecord` has just written returns exactly that record and
stops right after it; and for every list of such records appended to an empty WAL, seeking
to the start and calling `ReadRecord` once more than there are records returns the records
in order and then `io.EOF`. -/
theorem C6_decode_undoes_encode (w : WALFile) (r : FileRecord) (rs : List FileRecord)
    (hr : fitsInt64 r) (hrs : ∀ x ∈ rs, fitsInt64 x) :
    WALFile.ReadRecord ⟨(w.WriteRecord r).content, w.content.length⟩
        = (.ok r, ⟨(w.WriteRecord r).content, (w.WriteRecord r).content.length⟩)
      ∧ (readN (rs.length + 1) (writeAll ⟨[], 0⟩ rs).SeekStart).1
        = rs.map Outcome.ok ++ [Outcome.err GoError.EOF] := by
  constructor
  · rw [WriteRecord_eq]
    have := ReadRecord_at_record w.content [] r hr
    simpa using this
  · have e : (writeAll ⟨[], 0⟩ rs).SeekStart = ⟨[] ++ encodeRecords rs, ([] : List Nat).length⟩ := by
      simp [WALFile.SeekStart, writeAll_eq]
    rw [e]
    exact readN_records rs [] hrs

theorem C6_decode_undoes_encode_witness :
    WALFile.ReadRecord
        ⟨(WALFile.WriteRecord ⟨[1, 2, 3], 1⟩ ⟨"set", "testKey", "testValue"⟩).content, 3⟩
        = (.ok ⟨"set", "testKey", "testValue"⟩,
            ⟨(WALFile.WriteRecord ⟨[1, 2, 3], 1⟩ ⟨"set", "testKey", "testValue"⟩).content,
              (WALFile.WriteRecord ⟨[1, 2, 3], 1⟩ ⟨"set", "testKey", "testValue"⟩).content.length⟩)
      ∧ (readN 3 (writeAll ⟨[], 0⟩ [⟨"set", "a", "1"⟩, ⟨"del", "a", ""⟩]).SeekStart).1
        = [.ok ⟨"set", "a", "1"⟩, .ok ⟨"del", "a", ""⟩, .err .EOF] :=
  C6_decode_undoes_encode ⟨[1, 2, 3], 1⟩ ⟨"set", "testKey", "testValue"⟩
    [⟨"set", "a", "1"⟩, ⟨"del", "a", ""⟩] (by decide) (by decide)

/-- C9: for every WAL content and every offset of the handle, `WriteRecord` leaves the
file content equal to the previous content followed by the encoding of the record, and the
handle at the new end of file. -/
theorem C9_WriteRecord_appends (w : WALFile) (r : FileRecord) :
    (w.WriteRecord r).content = w.content ++ encodeRecord r
      ∧ (w.WriteRecord r).pos = (w.WriteRecord r).content.length := by
  rw [WriteRecord_eq]
  exact ⟨rfl, rfl⟩

theorem readFull_short (pre tail : List Nat) (n : Nat) (h0 : tail ≠ []) (hn : tail.length < n) :
    readFull (pre ++ tail) pre.length n = (.error .ErrUnexpectedEOF, (pre ++ tail).length) := by
  have hl : 0 < tail.length := List.length_pos.mpr h0
  have h1 : n ≠ 0 := by omega
  have h2 : ¬ (tail.length = 0) := by omega
  simp only [readFull, h1, if_false, List.drop_left, h2, hn, if_true]

/-- A length prefix `N > 0` followed by at least one but fewer than `N` payload bytes is
reported as `io.ErrUnexpectedEOF`. -/
theorem ReadRecord_partial_payload (pre tail : List Nat) (N : Nat) (hN : N < 2 ^ 63)
    (h0 : tail ≠ []) (hn : tail.length < N) :
    (WALFile.ReadRecord ⟨pre ++ beBytes 8 N ++ tail, pre.length⟩).1
      = .err .ErrUnexpectedEOF := by
  have r1 := readFull_mid pre (beBytes 8 N) tail
  rw [length_beBytes] at r1
  have r2 := readFull_short (pre ++ beBytes 8 N) tail N h0 hn
  rw [List.length_append, length_beBytes] at r2
  simp only [WALFile.ReadRecord, readRecordAt, r1, beValue_beBytes8 N (by omega)]
  have hlt : ¬ (2 ^ 63 ≤ N) := by omega
  simp only [hlt, if_false, r2]

/-- A length prefix `N > 0` followed by no payload byte at all is reported as `io.EOF`, the
value that `Load` takes for the clean end of the log. -/
theorem ReadRecord_missing_payload (pre : List Nat) (N : Nat) (hN : N < 2 ^ 63) (h0 : 0 < N) :
    (WALFile.ReadRecord ⟨pre ++ beBytes 8 N, pre.length⟩).1 = .err .EOF := by
  have r1 := readFull_mid pre (beBytes 8 N) []
  rw [length_beBytes, List.append_nil] at r1
  have r2 := readFull_end (pre ++ beBytes 8 N) N (by omega)
  rw [List.length_append, length_beBytes] at r2
  simp only [WALFile.ReadRecord, readRecordAt, r1, beValue_beBytes8 N (by omega)]
  have hlt : ¬ (2 ^ 63 ≤ N) := by omega
  simp only [hlt, if_false, r2]

/-- C7, the code at the failing input: a WAL that holds one complete record followed by the
8-byte length 41 of a second record and none of its payload. The second `ReadRecord` returns
`io.EOF`, and `Load` returns without error, keeping only the first record. -/
theorem C7_missing_payload_reads_as_EOF :
    (readN 2 ⟨encodeRecord ⟨"set", "a", "1"⟩ ++ beBytes 8 41, 0⟩).1
        = [.ok ⟨"set", "a", "1"⟩, .err .EOF]
      ∧ PersMem.Load ⟨[], ⟨encodeRecord ⟨"set", "a", "1"⟩ ++ beBytes 8 41, 0⟩⟩
        = some (.ok (), ⟨[("a", ⟨"set", "1"⟩)],
            ⟨encodeRecord ⟨"set", "a", "1"⟩ ++ beBytes 8 41, 57⟩⟩) := by
  constructor <;> rfl

/-- C8, counterexample: a well-formed payload whose operation is "foo" is decoded without
error; `ReadRecord` returns the record. -/
theorem C8_unknown_operation_is_returned :
    (WALFile.ReadRecord ⟨encodeRecord ⟨"foo", "a", "b"⟩, 0⟩).1 = .ok ⟨"foo", "a", "b"⟩ := by
  rfl

/-! ## Replaying the WAL (`PersMem.Load`) -/

theorem LoadLoop_records (rs : List FileRecord) :
    ∀ (store : KVMap) (pre : List Nat) (fuel : Nat), rs.length < fuel →
      (∀ x ∈ rs, fitsInt64 x) →
      PersMem.LoadLoop fuel ⟨store, ⟨pre ++ encodeRecords rs, pre.length⟩⟩
        = some (.ok (), ⟨rs.foldl loadRecord store,
            ⟨pre ++ encodeRecords rs, (pre ++ encodeRecords rs).length⟩⟩) := by
  induction rs with
  | nil =>
    intro store pre fuel hf _
    obtain ⟨f, rfl⟩ : ∃ f, fuel = f + 1 := ⟨fuel - 1, by omega⟩
    simp only [encodeRecords, List.map_nil, List.flatten_nil, List.append_nil, PersMem.LoadLoop,
      ReadRecord_at_end, if_true, List.foldl_nil]
  | cons r rs ih =>
    intro store pre fuel hf h
    obtain ⟨f, rfl⟩ : ∃ f, fuel = f + 1 := ⟨fuel - 1, by omega⟩
    have hr : fitsInt64 r := h r (List.mem_cons_self _ _)
    have hrs : ∀ x ∈ rs, fitsInt64 x := fun x hx => h x (List.mem_cons_of_mem _ hx)
    have e : pre ++ encodeRecords (r :: rs) = pre ++ encodeRecord r ++ encodeRecords rs := by
      rw [encodeRecords_cons, List.append_assoc]
    rw [e]
    simp only [PersMem.LoadLoop, ReadRecord_at_record pre _ r hr, List.foldl_cons]
    exact ih (loadRecord store r) (pre ++ encodeRecord r) f
      (by simp only [List.length_cons] at hf; omega) hrs

theorem length_le_encodeRecords (rs : List FileRecord) :
    rs.length ≤ (encodeRecords rs).length := by
  induction rs with
  | nil => simp [encodeRecords]
  | cons r rs ih =>
    rw [encodeRecords_cons, List.length_append, length_encodeRecord, List.length_cons]
    omega

/-- Replaying a WAL that holds the records `rs` applies `loadRecord` to them in order, ends
without error and leaves the handle at the end of the file. -/
theorem Load_records (rs : List FileRecord) (store : KVMap) (pos : Nat)
    (h : ∀ x ∈ rs, fitsInt64 x) :
    PersMem.Load ⟨store, ⟨encodeRecords rs, pos⟩⟩
      = some (.ok (), ⟨rs.foldl loadRecord store,
          ⟨encodeRecords rs, (encodeRecords rs).length⟩⟩) := by
  have := LoadLoop_records rs store [] ((encodeRecords rs).length + 1)
    (by have := length_le_encodeRecords rs; omega) h
  simpa [PersMem.Load, WALFile.SeekStart] using this

theorem mapGet_mapSet (m : KVMap) (k k' : String) (t : Tuple) :
    mapGet (mapSet m k t) k' = if k' = k then some t else mapGet m k' := by
  induction m with
  | nil => simp [mapSet, mapGet]
  | cons e m ih =>
    obtain ⟨ke, te⟩ := e
    simp only [mapSet]
    split_ifs with h1 h2 h3 h3 <;> simp_all [mapGet]

theorem mapGet_foldl_loadRecord (rs : List FileRecord) (store : KVMap) (k : String)
    (hop : ∀ r ∈ rs, r.Operation = "set" ∨ r.Operation = "del") :
    mapGet (rs.foldl loadRecord store) k
      = match lastRecord rs k with
        | some r => some (tupleOf r)
        | none => mapGet store k := by
  induction rs using List.reverseRecOn with
  | nil => simp [lastRecord]
  | append_singleton rs r ih =>
    have hr : r.Operation = "set" ∨ r.Operation = "del" := hop r (by simp)
    have hrs : ∀ x ∈ rs, x.Operation = "set" ∨ x.Operation = "del" :=
      fun x hx => hop x (by simp [hx])
    have ih' := ih hrs
    have hl : lastRecord (rs ++ [r]) k = if r.Key = k then some r else lastRecord rs k := by
      simp only [lastRecord, List.reverse_append, List.reverse_cons, List.reverse_nil,
        List.nil_append, List.singleton_append, List.find?_cons]
      by_cases hk : r.Key = k <;> simp [hk]
    rw [List.foldl_append, List.foldl_cons, List.foldl_nil, hl]
    have hload : loadRecord (rs.foldl loadRecord store) r
        = mapSet (rs.foldl loadRecord store) r.Key (tupleOf r) := by
      rcases hr with hs | hd
      · simp [loadRecord, tupleOf, hs]
      · simp [loadRecord, tupleOf, hd]
    rw [hload, mapGet_mapSet]
    by_cases hk : r.Key = k
    · simp [hk]
    · have hk' : ¬ k = r.Key := fun h => hk h.symm
      simp only [hk, hk', if_false]
      exact ih'

theorem mapGet_isSome_of_mem (m : KVMap) (e : String × Tuple) (he : e ∈ m) :
    (mapGet m e.1).isSome = true := by
  induction m with
  | nil => cases he
  | cons x m ih =>
    simp only [mapGet]
    by_cases h : e.1 = x.1
    · simp [h]
    · simp only [h, if_false]
      rcases List.mem_cons.mp he with rfl | h'
      · exact absurd rfl h
      · exact ih h'

theorem lastRecord_some_mem (rs : List FileRecord) (k : String) (r : FileRecord)
    (h : lastRecord rs k = some r) : r ∈ rs ∧ r.Key = k := by
  unfold lastRecord at h
  have h1 := List.mem_of_find?_eq_some h
  have h2 := List.find?_some h
  exact ⟨by simpa using h1, by simpa using h2⟩

/-- C10: for every WAL holding records `rs`, each with operation set or del, `Load` on an
empty memtable ends without error with a memtable that maps every key to the operation and
value of the last record for that key (value "" for del), holds no key that does not occur
in the WAL, and is empty when the WAL is empty. -/
theorem C10_Load_last_writer_wins (rs : List FileRecord) (pos : Nat)
    (hfit : ∀ x ∈ rs, fitsInt64 x)
    (hop : ∀ r ∈ rs, r.Operation = "set" ∨ r.Operation = "del") :
    ∃ store : KVMap,
      PersMem.Load ⟨[], ⟨encodeRecords rs, pos⟩⟩
          = some (.ok (), ⟨store, ⟨encodeRecords rs, (encodeRecords rs).length⟩⟩)
        ∧ (∀ k, mapGet store k = (lastRecord rs k).map tupleOf)
        ∧ (∀ e ∈ store, ∃ r ∈ rs, r.Key = e.1)
        ∧ (rs = [] → store = []) := by
  have hget : ∀ k, mapGet (rs.foldl loadRecord []) k = (lastRecord rs k).map tupleOf := by
    intro k
    rw [mapGet_foldl_loadRecord rs [] k hop]
    cases lastRecord rs k <;> simp [mapGet]
  refine ⟨rs.foldl loadRecord [], Load_records rs [] pos hfit, hget, ?_, ?_⟩
  · intro e he
    have h1 := mapGet_isSome_of_mem _ e he
    rw [hget] at h1
    cases hl : lastRecord rs e.1 with
    | none => rw [hl] at h1; simp at h1
    | some r => exact ⟨r, (lastRecord_some_mem rs e.1 r hl).1, (lastRecord_some_mem rs e.1 r hl).2⟩
  · rintro rfl
    rfl

theorem C10_Load_last_writer_wins_witness :
    ∃ store : KVMap,
      PersMem.Load ⟨[], ⟨encodeRecords [⟨"set", "a", "1"⟩, ⟨"set", "b", "2"⟩, ⟨"del", "a", ""⟩], 7⟩⟩
          = some (.ok (), ⟨store,
              ⟨encodeRecords [⟨"set", "a", "1"⟩, ⟨"set", "b", "2"⟩, ⟨"del", "a", ""⟩],
                (encodeRecords [⟨"set", "a", "1"⟩, ⟨"set", "b", "2"⟩, ⟨"del", "a", ""⟩]).length⟩⟩)
        ∧ (∀ k, mapGet store k
            = (lastRecord [⟨"set", "a", "1"⟩, ⟨"set", "b", "2"⟩, ⟨"del", "a", ""⟩] k).map tupleOf)
        ∧ (∀ e ∈ store, ∃ r ∈ [(⟨"set", "a", "1"⟩ : FileRecord), ⟨"set", "b", "2"⟩, ⟨"del", "a", ""⟩],
            r.Key = e.1)
        ∧ (([⟨"set", "a", "1"⟩, ⟨"set", "b", "2"⟩, ⟨"del", "a", ""⟩] : List FileRecord) = []
            → store = []) :=
  C10_Load_last_writer_wins [⟨"set", "a", "1"⟩, ⟨"set", "b", "2"⟩, ⟨"del", "a", ""⟩] 7
    (by decide) (by decide)

/-- C8 as amended: a well-formed payload is decoded whatever its operation string is, and
`ReadRecord` returns the record unchanged; when the operation is neither "set" nor "del",
`Load` skips the record: it ends without error and leaves the memtable as it was. -/
theorem C8_unknown_operation_skipped (r : FileRecord) (store : KVMap) (pos : Nat)
    (hr : fitsInt64 r) (h1 : r.Operation ≠ "set") (h2 : r.Operation ≠ "del") :
    (WALFile.ReadRecord ⟨encodeRecord r, 0⟩).1 = .ok r
      ∧ PersMem.Load ⟨store, ⟨encodeRecord r, pos⟩⟩
        = some (.ok (), ⟨store, ⟨encodeRecord r, (encodeRecord r).length⟩⟩) := by
  constructor
  · have := ReadRecord_at_record [] [] r hr
    simp only [List.nil_append, List.append_nil, List.length_nil] at this
    rw [this]
  · have := Load_records [r] store pos (by simpa using hr)
    simpa [encodeRecords, loadRecord, h1, h2] using this

theorem C8_unknown_operation_skipped_witness :
    (WALFile.ReadRecord ⟨encodeRecord ⟨"put", "k", "v"⟩, 0⟩).1 = .ok ⟨"put", "k", "v"⟩
      ∧ PersMem.Load ⟨[("k", ⟨"set", "old"⟩)], ⟨encodeRecord ⟨"put", "k", "v"⟩, 3⟩⟩
        = some (.ok (), ⟨[("k", ⟨"set", "old"⟩)],
            ⟨encodeRecord ⟨"put", "k", "v"⟩, (encodeRecord ⟨"put", "k", "v"⟩).length⟩⟩) :=
  C8_unknown_operation_skipped ⟨"put", "k", "v"⟩ [("k", ⟨"set", "old"⟩)] 3
    (by decide) (by decide) (by decide)

/-! ## The order on keys -/

theorem bytesLt_irrefl (a : List Nat) : bytesLt a a = false := by
  induction a with
  | nil => rfl
  | cons x xs ih => simp [bytesLt, ih]

theorem bytesLt_asymm (a : List Nat) : ∀ b, bytesLt a b = true → bytesLt b a = false := by
  induction a with
  | nil => intro b _; cases b <;> rfl
  | cons x xs ih =>
    intro b h
    cases b with
    | nil => simp [bytesLt] at h
    | cons y ys =>
      simp only [bytesLt] at h ⊢
      by_cases h1 : x < y
      · have : ¬ y < x := by omega
        have : ¬ y = x := by omega
        simp [*]
      · by_cases h2 : x = y
        · subst h2
          simp only [lt_self_iff_false, if_false, if_true] at h ⊢
          exact ih ys h
        · simp [h1, h2] at h

theorem bytesLt_trans (a : List Nat) : ∀ b c, bytesLt a b = true → bytesLt b c = true →
    bytesLt a c = true := by
  induction a with
  | nil =>
    intro b c h1 h2
    cases b with
    | nil => simp [bytesLt] at h1
    | cons y ys =>
      cases c with
      | nil => simp [bytesLt] at h2
      | cons z zs => rfl
  | cons x xs ih =>
    intro b c h1 h2
    cases b with
    | nil => simp [bytesLt] at h1
    | cons y ys =>
      cases c with
      | nil => simp [bytesLt] at h2
      | cons z zs =>
        simp only [bytesLt] at h1 h2 ⊢
        by_cases hxy : x < y
        · by_cases hyz : y < z
          · have : x < z := by omega
            simp [this]
          · by_cases hyz' : y = z
            · subst hyz'; simp [hxy]
            · simp [hyz, hyz'] at h2
        · by_cases hxy' : x = y
          · subst hxy'
            simp only [lt_self_iff_false, if_false, if_true] at h1
            by_cases hyz : x < z
            · simp [hyz]
            · by_cases hyz' : x = z
              · subst hyz'
                simp only [lt_self_iff_false, if_false, if_true] at h2 ⊢
                exact ih ys zs h1 h2
              · simp [hyz, hyz'] at h2
          · simp [hxy, hxy'] at h1

theorem bytesLt_total (a : List Nat) : ∀ b, a ≠ b → bytesLt a b = true ∨ bytesLt b a = true := by
  induction a with
  | nil =>
    intro b h
    cases b with
    | nil => exact absurd rfl h
    | cons y ys => exact Or.inl rfl
  | cons x xs ih =>
    intro b h
    cases b with
    | nil => exact Or.inr rfl
    | cons y ys =>
      simp only [bytesLt]
      by_cases h1 : x < y
      · simp [h1]
      · by_cases h2 : x = y
        · subst h2
          have hne : xs ≠ ys := fun e => h (by rw [e])
          simpa using ih ys hne
        · have : y < x := by omega
          simp [this]

theorem decodeRune_utf8Encode_char (c : Char) (rest : List Nat) :
    decodeRune (utf8Encode c.toNat ++ rest) = (c.toNat, (utf8Encode c.toNat).length) := by
  have hv : c.toNat < 0xD800 ∨ (0xDFFF < c.toNat ∧ c.toNat < 0x110000) := c.valid
  by_cases h : c.toNat < 0x80
  · simp [utf8Encode, h, decodeRune]
  · exact decodeRune_utf8Encode c.toNat rest (by omega) hv

theorem utf8Encode_cancel (c c' : Char) (r r' : List Nat)
    (h : utf8Encode c.toNat ++ r = utf8Encode c'.toNat ++ r') : c = c' ∧ r = r' := by
  have h1 := decodeRune_utf8Encode_char c r
  have h2 := decodeRune_utf8Encode_char c' r'
  rw [h, h2] at h1
  have hn : c'.toNat = c.toNat := congrArg Prod.fst h1
  have hc : c = c' := by
    rw [← Char.ofNat_toNat c, ← Char.ofNat_toNat c', hn]
  subst hc
  exact ⟨rfl, List.append_cancel_left h⟩

theorem utf8Bytes_injective (a b : String) (h : utf8Bytes a = utf8Bytes b) : a = b := by
  have key : ∀ (xs ys : List Char),
      (xs.map fun c => utf8Encode c.toNat).flatten = (ys.map fun c => utf8Encode c.toNat).flatten
        → xs = ys := by
    intro xs
    induction xs with
    | nil =>
      intro ys hy
      cases ys with
      | nil => rfl
      | cons y ys =>
        exfalso
        simp only [List.map_nil, List.flatten_nil, List.map_cons, List.flatten_cons] at hy
        have hl := congrArg List.length hy
        have : 1 ≤ (utf8Encode y.toNat).length := by
          unfold utf8Encode; split_ifs <;> simp
        simp only [List.length_nil, List.length_append] at hl
        omega
    | cons x xs ih =>
      intro ys hy
      cases ys with
      | nil =>
        exfalso
        simp only [List.map_nil, List.flatten_nil, List.map_cons, List.flatten_cons] at hy
        have hl := congrArg List.length hy
        have : 1 ≤ (utf8Encode x.toNat).length := by
          unfold utf8Encode; split_ifs <;> simp
        simp only [List.length_nil, List.length_append] at hl
        omega
      | cons y ys =>
        simp only [List.map_cons, List.flatten_cons] at hy
        obtain ⟨h1, h2⟩ := utf8Encode_cancel x y _ _ hy
        rw [h1, ih ys h2]
  have := key a.toList b.toList h
  exact String.ext this

theorem strLt_irrefl (a : String) : strLt a a = false := bytesLt_irrefl _

theorem strLt_asymm (a b : String) (h : strLt a b = true) : strLt b a = false :=
  bytesLt_asymm _ _ h

theorem strLt_trans (a b c : String) (h1 : strLt a b = true) (h2 : strLt b c = true) :
    strLt a c = true := bytesLt_trans _ _ _ h1 h2

theorem strLt_total (a b : String) (h : a ≠ b) : strLt a b = true ∨ strLt b a = true :=
  bytesLt_total _ _ (fun e => h (utf8Bytes_injective a b e))

theorem strLt_ne (a b : String) (h : strLt a b = true) : a ≠ b := by
  rintro rfl
  rw [strLt_irrefl] at h
  exact Bool.false_ne_true h

/-! ## The ordered map -/

theorem mem_mapSet (m : KVMap) (k : String) (t : Tuple) (e : String × Tuple)
    (h : e ∈ mapSet m k t) : e = (k, t) ∨ e ∈ m := by
  induction m with
  | nil => simp [mapSet] at h; exact Or.inl h
  | cons x m ih =>
    obtain ⟨kx, tx⟩ := x
    simp only [mapSet] at h
    split_ifs at h with h1 h2
    · rcases List.mem_cons.mp h with h | h
      · exact Or.inl h
      · exact Or.inr h
    · rcases List.mem_cons.mp h with h | h
      · exact Or.inl h
      · exact Or.inr (List.mem_cons_of_mem _ h)
    · rcases List.mem_cons.mp h with h | h
      · exact Or.inr (by rw [h]; exact List.mem_cons_self _ _)
      · rcases ih h with h | h
        · exact Or.inl h
        · exact Or.inr (List.mem_cons_of_mem _ h)

theorem length_mapSet_le (m : KVMap) (k : String) (t : Tuple) :
    (mapSet m k t).length ≤ m.length + 1 := by
  induction m with
  | nil => simp [mapSet]
  | cons x m ih =>
    obtain ⟨kx, tx⟩ := x
    simp only [mapSet]
    split_ifs <;> simp only [List.length_cons] <;> omega

theorem sorted_mapSet (m : KVMap) (k : String) (t : Tuple) (h : SortedMap m) :
    SortedMap (mapSet m k t) := by
  unfold SortedMap at h ⊢
  induction m with
  | nil => simp [mapSet]
  | cons x m ih =>
    obtain ⟨kx, tx⟩ := x
    have hx := List.pairwise_cons.mp h
    simp only [mapSet]
    split_ifs with h1 h2
    · refine List.pairwise_cons.mpr ⟨?_, h⟩
      intro e he
      rcases List.mem_cons.mp he with rfl | he
      · exact h1
      · exact strLt_trans _ _ _ h1 (hx.1 e he)
    · subst h2
      exact List.pairwise_cons.mpr ⟨hx.1, hx.2⟩
    · refine List.pairwise_cons.mpr ⟨?_, ih hx.2⟩
      intro e he
      rcases mem_mapSet m k t e he with rfl | he
      · rcases strLt_total k kx h2 with h3 | h3
        · exact absurd h3 h1
        · exact h3
      · exact hx.1 e he

theorem mapSet_append_last (m : KVMap) (k : String) (t : Tuple)
    (h : ∀ e ∈ m, strLt e.1 k = true) : mapSet m k t = m ++ [(k, t)] := by
  induction m with
  | nil => rfl
  | cons x m ih =>
    obtain ⟨kx, tx⟩ := x
    have hx : strLt kx k = true := h (kx, tx) (List.mem_cons_self _ _)
    have h1 : strLt k kx = false := strLt_asymm _ _ hx
    have h2 : ¬ (k = kx) := fun e => strLt_ne _ _ hx e.symm
    simp only [mapSet, h1, h2, if_false, List.cons_append, Bool.false_eq_true]
    rw [ih (fun e he => h e (List.mem_cons_of_mem _ he))]

/-- Inserting the entries of a map in key order one after the other, as `LoadToMem` does
with the records of a flushed segment, rebuilds the map. -/
theorem foldl_mapSet_sorted (m : KVMap) (h : SortedMap m) :
    ∀ pre : KVMap, (∀ a ∈ pre, ∀ b ∈ m, strLt a.1 b.1 = true) →
      m.foldl (fun acc e => mapSet acc e.1 e.2) pre = pre ++ m := by
  unfold SortedMap at h
  induction m with
  | nil => intro pre _; simp
  | cons x m ih =>
    intro pre hp
    have hx := List.pairwise_cons.mp h
    rw [List.foldl_cons, mapSet_append_last pre x.1 x.2
      (fun a ha => hp a ha x (List.mem_cons_self _ _))]
    rw [ih hx.2 (pre ++ [(x.1, x.2)])]
    · simp
    · intro a ha b hb
      rcases List.mem_append.mp ha with ha | ha
      · exact hp a ha b (List.mem_cons_of_mem _ hb)
      · have : a = x := by simpa using ha
        subst this
        exact hx.1 b hb

/-! ## Reading back a segment -/

theorem length_leBytes (k v : Nat) : (leBytes k v).length = k := by
  induction k generalizing v with
  | zero => rfl
  | succ k ih => simp [leBytes, ih]

theorem leValue_leBytes8 (v : Nat) (h : v < 2 ^ 64) : leValue (leBytes 8 v) = v := by
  simp only [leBytes, leValue]
  omega

theorem readU64LE_mid (pre rest : List Nat) (v : Nat) (h : v < 2 ^ 64) :
    readU64LE (pre ++ leBytes 8 v ++ rest) pre.length = (.ok v, pre.length + 8) := by
  have r := readFull_mid pre (leBytes 8 v) rest
  rw [length_leBytes] at r
  simp only [readU64LE, r, leValue_leBytes8 v h]

theorem readHeader_segment (n : Nat) (rest : List Nat) (h : n < 2 ^ 64) :
    readHeader (leBytes 8 magicNumber ++ leBytes 8 sysVers ++ leBytes 8 n ++ rest)
      = .ok (n, 24) := by
  have r1 := readU64LE_mid [] (leBytes 8 sysVers ++ leBytes 8 n ++ rest) magicNumber (by decide)
  have r2 := readU64LE_mid (leBytes 8 magicNumber) (leBytes 8 n ++ rest) sysVers (by decide)
  have r3 := readU64LE_mid (leBytes 8 magicNumber ++ leBytes 8 sysVers) rest n h
  simp only [List.nil_append, List.length_nil, List.length_append, length_leBytes,
    List.append_assoc] at r1 r2 r3
  simp only [readHeader, List.append_assoc, r1, r2, r3, ne_eq, not_true_eq_false, if_false]

theorem loadRecords_records (rs : List FileRecord) :
    ∀ (pre junk : List Nat) (mp : KVMap), (∀ x ∈ rs, fitsInt64 x) →
      loadRecords rs.length (pre ++ encodeRecords rs ++ junk) pre.length mp
        = (.ok (), rs.foldl (fun acc r => mapSet acc r.Key ⟨r.Operation, r.Value⟩) mp) := by
  induction rs with
  | nil => intro pre junk mp _; rfl
  | cons r rs ih =>
    intro pre junk mp h
    have hr : fitsInt64 r := h r (List.mem_cons_self _ _)
    have hrs : ∀ x ∈ rs, fitsInt64 x := fun x hx => h x (List.mem_cons_of_mem _ hx)
    have e : pre ++ encodeRecords (r :: rs) ++ junk
        = pre ++ encodeRecord r ++ (encodeRecords rs ++ junk) := by
      rw [encodeRecords_cons]; simp only [List.append_assoc]
    have e2 : pre ++ encodeRecord r ++ (encodeRecords rs ++ junk)
        = (pre ++ encodeRecord r) ++ encodeRecords rs ++ junk := by
      simp only [List.append_assoc]
    rw [e, List.length_cons, loadRecords, readRecordAt_encodeRecord pre _ r hr]
    simp only [List.foldl_cons]
    rw [e2, ← List.length_append]
    exact ih (pre ++ encodeRecord r) junk _ hrs

theorem LoadToMem_of_header (mp : KVMap) (content : List Nat) (n p : Nat)
    (h : readHeader content = .ok (n, p)) :
    LoadToMem mp content = loadRecords n content p mp := by
  unfold LoadToMem
  rw [h]

/-- `LoadToMem` on a well-formed segment, possibly followed by stale bytes, inserts the
records in file order and ends without error. -/
theorem LoadToMem_segmentOf (rs : List FileRecord) (junk : List Nat) (mp : KVMap)
    (hlen : rs.length < 2 ^ 64) (hfit : ∀ x ∈ rs, fitsInt64 x) :
    LoadToMem mp (segmentOf rs ++ junk)
      = (.ok (), rs.foldl (fun acc r => mapSet acc r.Key ⟨r.Operation, r.Value⟩) mp) := by
  have hh := readHeader_segment rs.length (encodeRecords rs ++ junk) hlen
  have e : segmentOf rs ++ junk
      = leBytes 8 magicNumber ++ leBytes 8 sysVers ++ leBytes 8 rs.length
          ++ (encodeRecords rs ++ junk) := by
    simp only [segmentOf, List.append_assoc]
  have e2 : segmentOf rs ++ junk
      = (leBytes 8 magicNumber ++ leBytes 8 sysVers ++ leBytes 8 rs.length)
          ++ encodeRecords rs ++ junk := by
    simp only [segmentOf, List.append_assoc]
  have hl : (leBytes 8 magicNumber ++ leBytes 8 sysVers ++ leBytes 8 rs.length).length = 24 := by
    simp only [List.length_append, length_leBytes]
  have hr := loadRecords_records rs
    (leBytes 8 magicNumber ++ leBytes 8 sysVers ++ leBytes 8 rs.length) junk mp hfit
  rw [hl, ← e2] at hr
  rw [← e] at hh
  rw [LoadToMem_of_header mp _ _ _ hh]
  exact hr

theorem segmentBytes_eq (store : KVMap) :
    segmentBytes sysVers store = segmentOf (store.map entryRecord) := by
  simp only [segmentBytes, segmentOf, List.length_map]
  rfl

/-- The segment that `FlushToSST` writes for a memtable in key order loads back as that
memtable. -/
theorem LoadToMem_segmentBytes (store : KVMap) (junk : List Nat) (hs : SortedMap store)
    (hlen : store.length < 2 ^ 64) (hfit : ∀ e ∈ store, fitsInt64 (entryRecord e)) :
    LoadToMem [] (segmentBytes sysVers store ++ junk) = (.ok (), store) := by
  rw [segmentBytes_eq, LoadToMem_segmentOf _ junk [] (by simpa using hlen)
    (by intro x hx; obtain ⟨e, he, rfl⟩ := List.mem_map.mp hx; exact hfit e he)]
  rw [List.foldl_map]
  have := foldl_mapSet_sorted store hs [] (by intro a ha; cases ha)
  simpa [entryRecord] using this

/-! ## The directory -/

theorem dirGet_dirSet_same (d : Dir) (f : FileName) (c : List Nat) :
    dirGet (dirSet d f c) f = some c := by
  induction d with
  | nil => simp [dirSet, dirGet]
  | cons x d ih =>
    obtain ⟨g, c'⟩ := x
    simp only [dirSet]
    split_ifs with h
    · simp [dirGet]
    · simp [dirGet, h, ih]

theorem dirRename_dirSet (d : Dir) (f g : FileName) (c : List Nat) :
    ∃ d', dirRename (dirSet d f c) f g = .ok d' ∧ dirGet d' g = some c := by
  refine ⟨dirSet ((dirSet d f c).filter fun e => e.1 ≠ f) g c, ?_, dirGet_dirSet_same _ g c⟩
  simp only [dirRename, dirGet_dirSet_same]

theorem openCreate_of_dirGet (d : Dir) (f : FileName) (c : List Nat) (h : dirGet d f = some c) :
    openCreate d f = (c, d) := by
  simp only [openCreate, h]

/-! ## Lookups in the cache -/

theorem searchMem_append (a b : List KVMap) (k : String) :
    searchMem (a ++ b) k = match searchMem a k with
      | some r => some r
      | none => searchMem b k := by
  induction a with
  | nil => rfl
  | cons mp a ih =>
    simp only [List.cons_append, searchMem]
    cases mapGet mp k with
    | some val => simp only; split_ifs <;> rfl
    | none => exact ih

theorem searchMem_reverse (m : List KVMap) (k : String) :
    searchMem m.reverse k = (cacheGet m k).map decision := by
  induction m with
  | nil => rfl
  | cons mp m ih =>
    rw [List.reverse_cons, searchMem_append, ih, cacheGet]
    cases cacheGet m k with
    | some t => rfl
    | none =>
      simp only [Option.map_none', searchMem]
      cases mapGet mp k with
      | some val => simp only [Option.map_some', decision]; split_ifs <;> rfl
      | none => rfl

theorem cacheGet_append_singleton (m : List KVMap) (ss : KVMap) (k : String) :
    cacheGet (m ++ [ss]) k = match mapGet ss k with
      | some t => some t
      | none => cacheGet m k := by
  induction m with
  | nil =>
    simp only [List.nil_append, cacheGet]
    cases mapGet ss k <;> rfl
  | cons mp m ih =>
    rw [List.cons_append, cacheGet, ih, cacheGet]
    cases mapGet ss k <;> rfl

theorem cacheGet_of_empty (m : List KVMap) (k : String) (h : ∀ j, m.getD j [] = []) :
    cacheGet m k = none := by
  induction m with
  | nil => rfl
  | cons mp m ih =>
    have h0 : mp = [] := by simpa using h 0
    have hm : ∀ j, m.getD j [] = [] := fun j => by simpa using h (j + 1)
    simp only [cacheGet, ih hm, h0, mapGet]

theorem cacheGet_set (m : List KVMap) (ss : KVMap) (k : String) :
    ∀ c : Nat, c < m.length → (∀ j, c ≤ j → m.getD j [] = []) →
      cacheGet (m.set c ss) k = match mapGet ss k with
        | some t => some t
        | none => cacheGet m k := by
  induction m with
  | nil => intro c hc; simp at hc
  | cons mp m ih =>
    intro c hc h
    cases c with
    | zero =>
      have hm : ∀ j, m.getD j [] = [] := fun j => by simpa using h (j + 1) (by omega)
      have h0 : mp = [] := by simpa using h 0 (by omega)
      simp only [List.set_cons_zero, cacheGet, cacheGet_of_empty m k hm, h0, mapGet]
      cases mapGet ss k <;> rfl
    | succ c =>
      have hm : ∀ j, c ≤ j → m.getD j [] = [] :=
        fun j hj => by simpa using h (j + 1) (by omega)
      simp only [List.set_cons_succ, cacheGet,
        ih c (by simpa using hc) hm]
      cases mapGet ss k with
      | some t => rfl
      | none => rfl

theorem cacheGet_flushSlots (m : mySSTManager) (ss : KVMap) (k : String)
    (h : ∀ j, m.sstCount ≤ j → m.memSST.getD j [] = []) :
    cacheGet (flushSlots m ss) k = match mapGet ss k with
      | some t => some t
      | none => cacheGet m.memSST k := by
  unfold flushSlots
  split_ifs with hc
  · exact cacheGet_set m.memSST ss k m.sstCount (by omega) h
  · exact cacheGet_append_singleton m.memSST ss k

theorem getD_flushSlots (m : mySSTManager) (ss : KVMap)
    (h : ∀ j, m.sstCount ≤ j → m.memSST.getD j [] = []) :
    ∀ j, m.sstCount + 1 ≤ j → (flushSlots m ss).getD j [] = [] := by
  intro j hj
  unfold flushSlots
  split_ifs with hc
  · rw [List.getD_eq_getElem?_getD, List.getElem?_set_ne (by omega),
      ← List.getD_eq_getElem?_getD]
    exact h j (by omega)
  · rw [List.getD_eq_getElem?_getD, List.getElem?_eq_none (by simp; omega)]
    rfl

/-! ## Flush -/

theorem Update_of (kv : MyKvStore) (content : List Nat) (d : Dir) (ss : KVMap)
    (ho : openCreate kv.dir (.sst (kv.sstM.sstCount - 1)) = (content, d))
    (hl : LoadToMem [] content = (.ok (), ss)) :
    kv.Update = (.ok (), { kv with
      dir := d
      sstM := { kv.sstM with memSST :=
        (if kv.sstM.sstCount ≤ kv.sstM.memSST.length then
          (kv.sstM.memSST.set (kv.sstM.sstCount - 1) ss)
        else (kv.sstM.memSST ++ [ss])) } }) := by
  unfold MyKvStore.Update
  rw [ho]
  simp only
  rw [hl]
  simp only
  split_ifs <;> rfl

theorem FlushToSST_of (kv : MyKvStore) (d2 : Dir)
    (hr : dirRename (dirSet (openCreate kv.dir (.tmp kv.sstM.sstCount)).2
        (.tmp kv.sstM.sstCount)
        (overwrite (openCreate kv.dir (.tmp kv.sstM.sstCount)).1
          (segmentBytes kv.sysVersion kv.memDB.store)))
      (.tmp kv.sstM.sstCount) (.sst kv.sstM.sstCount) = .ok d2) :
    kv.FlushToSST = MyKvStore.Update { kv with
      dir := d2
      sstM := { kv.sstM with sstCount := kv.sstM.sstCount + 1 }
      memDB := kv.memDB.Clear } := by
  unfold MyKvStore.FlushToSST
  simp only [hr]

/-- The engine after a successful flush: one more segment, the old memtable in the cache
slot of the new segment, empty memtable and WAL. -/
theorem FlushToSST_spec (kv : MyKvStore) (hv : kv.sysVersion = sysVers)
    (hs : SortedMap kv.memDB.store)
    (hf : ∀ e ∈ kv.memDB.store, fitsInt64 (entryRecord e))
    (hsz : kv.memDB.store.length < 2 ^ 64) :
    ∃ d, kv.FlushToSST = (.ok (), { kv with
      dir := d
      sstM := { kv.sstM with sstCount := kv.sstM.sstCount + 1
                             memSST := flushSlots kv.sstM kv.memDB.store }
      memDB := kv.memDB.Clear }) := by
  obtain ⟨d2, hr, hg⟩ := dirRename_dirSet (openCreate kv.dir (.tmp kv.sstM.sstCount)).2
    (.tmp kv.sstM.sstCount) (.sst kv.sstM.sstCount)
    (overwrite (openCreate kv.dir (.tmp kv.sstM.sstCount)).1
      (segmentBytes kv.sysVersion kv.memDB.store))
  refine ⟨d2, ?_⟩
  have hload := LoadToMem_segmentBytes kv.memDB.store
    ((openCreate kv.dir (.tmp kv.sstM.sstCount)).1.drop
      (segmentBytes kv.sysVersion kv.memDB.store).length) hs hsz hf
  rw [← hv] at hload
  have ho := openCreate_of_dirGet d2 (.sst kv.sstM.sstCount) _ hg
  rw [FlushToSST_of kv d2 hr]
  have hu := Update_of { kv with
      dir := d2
      sstM := { kv.sstM with sstCount := kv.sstM.sstCount + 1 }
      memDB := kv.memDB.Clear } _ d2 kv.memDB.store ho hload
  rw [hu]
  simp only [flushSlots, Nat.add_sub_cancel]

/-! ## `Get`, `Set` and `Del` on well-formed engines -/

theorem Get_of_topGet (kv : MyKvStore) (k : String) (t : Tuple) (h : kv.topGet k = some t) :
    (kv.Get k).1 = decision t := by
  unfold MyKvStore.topGet at h
  unfold MyKvStore.Get PersMem.GetM
  cases hm : mapGet kv.memDB.store k with
  | some T =>
    rw [hm] at h
    have : T = t := by simpa using h
    subst this
    simp only [decision]
    split_ifs <;> rfl
  | none =>
    rw [hm] at h
    simp only at h
    have hs : searchMem kv.sstM.memSST.reverse k = some (decision t) := by
      rw [searchMem_reverse, h]; rfl
    simp only [Search, hs]

theorem Get_state (kv : MyKvStore) (k : String) :
    (kv.Get k).2 = { kv with dir := (kv.Get k).2.dir } := by
  unfold MyKvStore.Get PersMem.GetM
  cases mapGet kv.memDB.store k with
  | some T => simp only; split_ifs <;> rfl
  | none => rfl

theorem WF_dir (kv : MyKvStore) (d : Dir) (h : WF kv) : WF { kv with dir := d } :=
  ⟨h.version, h.sorted, h.fits, h.size, h.threshold, h.slots⟩

theorem topGet_dir (kv : MyKvStore) (d : Dir) (k : String) :
    MyKvStore.topGet { kv with dir := d } k = kv.topGet k := rfl

/-- The flush check on an engine whose memtable may be one entry over the bound of a
well-formed engine: it ends without error in a well-formed engine, and what the memtable
and the cache together hold for a key is unchanged. -/
theorem CheckIfFlush_spec (kv : MyKvStore) (hv : kv.sysVersion = sysVers)
    (hs : SortedMap kv.memDB.store)
    (hf : ∀ e ∈ kv.memDB.store, fitsInt64 (entryRecord e))
    (hsz : kv.memDB.store.length < 2 ^ 64)
    (ht : kv.sstM.loadThreshold + 1 < 2 ^ 64)
    (hsl : ∀ j, kv.sstM.sstCount ≤ j → kv.sstM.memSST.getD j [] = []) :
    kv.CheckIfFlush.1 = .ok () ∧ WF kv.CheckIfFlush.2
      ∧ ∀ k, kv.CheckIfFlush.2.topGet k = kv.topGet k := by
  unfold MyKvStore.CheckIfFlush
  by_cases hgt : kv.memDB.store.length > kv.sstM.loadThreshold
  · obtain ⟨d, he⟩ := FlushToSST_spec kv hv hs hf hsz
    rw [if_pos hgt, he]
    refine ⟨rfl, ⟨hv, List.Pairwise.nil, ?_, ?_, ht, ?_⟩, ?_⟩
    · intro e he'; cases he'
    · show 0 + 1 < 2 ^ 64
      omega
    · exact getD_flushSlots kv.sstM kv.memDB.store hsl
    · intro k
      show MyKvStore.topGet _ k = _
      unfold MyKvStore.topGet
      simp only [PersMem.Clear, mapGet]
      exact cacheGet_flushSlots kv.sstM kv.memDB.store k hsl
  · rw [if_neg hgt]
    have hsz' : kv.memDB.store.length + 1 < 2 ^ 64 := by omega
    exact ⟨rfl, ⟨hv, hs, hf, hsz', ht, hsl⟩, fun _ => rfl⟩

theorem Set_of_CheckIfFlush (kv : MyKvStore) (k v : String)
    (h : (MyKvStore.CheckIfFlush { kv with memDB := kv.memDB.SetM k v }).1 = .ok ()) :
    kv.Set k v = (.ok (), (MyKvStore.CheckIfFlush { kv with memDB := kv.memDB.SetM k v }).2) := by
  unfold MyKvStore.Set
  generalize MyKvStore.CheckIfFlush { kv with memDB := kv.memDB.SetM k v } = r at h
  obtain ⟨o, s⟩ := r
  cases o with
  | ok a => rfl
  | err e => rfl
  | panic m => cases h

/-- `Set` on a well-formed engine returns without error, leaves a well-formed engine, and
afterwards the memtable and the cache together hold `(set, v)` for the key and what they
held before for every other key. -/
theorem Set_spec (kv : MyKvStore) (hwf : WF kv) (k v : String)
    (hfit : fitsInt64 ⟨"set", k, v⟩) :
    (kv.Set k v).1 = .ok () ∧ WF (kv.Set k v).2
      ∧ ∀ k', (kv.Set k v).2.topGet k' = if k' = k then some ⟨"set", v⟩ else kv.topGet k' := by
  have hc := CheckIfFlush_spec { kv with memDB := kv.memDB.SetM k v } hwf.version
    (sorted_mapSet _ _ _ hwf.sorted)
    (by
      intro e he
      rcases mem_mapSet _ _ _ e he with rfl | he
      · exact hfit
      · exact hwf.fits e he)
    (by
      have := length_mapSet_le kv.memDB.store k ⟨"set", v⟩
      have := hwf.size
      show (mapSet kv.memDB.store k ⟨"set", v⟩).length < 2 ^ 64
      omega)
    hwf.threshold hwf.slots
  rw [Set_of_CheckIfFlush kv k v hc.1]
  refine ⟨rfl, hc.2.1, ?_⟩
  intro k'
  rw [hc.2.2 k']
  show (match mapGet (mapSet kv.memDB.store k ⟨"set", v⟩) k' with
        | some t => some t
        | none => cacheGet kv.sstM.memSST k') = _
  rw [mapGet_mapSet]
  by_cases hk : k' = k
  · simp only [hk, if_true]
  · simp only [hk, if_false]
    rfl

theorem Del_of_err (kv : MyKvStore) (k : String) (e : GoError) (h : (kv.Get k).1 = .err e)
    (hc : (kv.Get k).2.CheckIfFlush.1 = .ok ()) :
    kv.Del k = (.err e, (kv.Get k).2.CheckIfFlush.2) := by
  unfold MyKvStore.Del
  generalize kv.Get k = r at h hc
  obtain ⟨o, s⟩ := r
  simp only at h
  subst h
  simp only
  generalize s.CheckIfFlush = r2 at hc
  obtain ⟨o2, s2⟩ := r2
  cases o2 with
  | ok a => rfl
  | err e => rfl
  | panic m => cases hc

theorem Del_of_ok (kv : MyKvStore) (k v : String) (h : (kv.Get k).1 = .ok v)
    (hc : (MyKvStore.CheckIfFlush
      { (kv.Get k).2 with memDB := (kv.Get k).2.memDB.DelM1 k }).1 = .ok ()) :
    kv.Del k = (.ok v, (MyKvStore.CheckIfFlush
      { (kv.Get k).2 with memDB := (kv.Get k).2.memDB.DelM1 k }).2) := by
  unfold MyKvStore.Del
  generalize kv.Get k = r at h hc
  obtain ⟨o, s⟩ := r
  simp only at h
  subst h
  simp only
  generalize MyKvStore.CheckIfFlush { s with memDB := s.memDB.DelM1 k } = r2 at hc
  obtain ⟨o2, s2⟩ := r2
  cases o2 with
  | ok a => rfl
  | err e => rfl
  | panic m => cases hc

theorem Del_of_panic (kv : MyKvStore) (k m : String) (h : (kv.Get k).1 = .panic m) :
    kv.Del k = (.panic m, (kv.Get k).2) := by
  unfold MyKvStore.Del
  generalize kv.Get k = r at h
  obtain ⟨o, s⟩ := r
  simp only at h
  subst h
  rfl

/-- `Del` on a well-formed engine whose `Get` finds a value: it returns that value, leaves
a well-formed engine, and afterwards the memtable and the cache together hold the
tombstone for the key and what they held before for every other key. -/
theorem Del_spec_ok (kv : MyKvStore) (hwf : WF kv) (k v : String)
    (hfit : fitsInt64 ⟨"del", k, ""⟩) (hget : (kv.Get k).1 = .ok v) :
    (kv.Del k).1 = .ok v ∧ WF (kv.Del k).2
      ∧ ∀ k', (kv.Del k).2.topGet k' = if k' = k then some ⟨"del", ""⟩ else kv.topGet k' := by
  have hst := Get_state kv k
  have hwf' : WF (kv.Get k).2 := by rw [hst]; exact WF_dir kv _ hwf
  have hc := CheckIfFlush_spec { (kv.Get k).2 with memDB := (kv.Get k).2.memDB.DelM1 k }
    hwf'.version (sorted_mapSet _ _ _ hwf'.sorted)
    (by
      intro e he
      rcases mem_mapSet _ _ _ e he with rfl | he
      · exact hfit
      · exact hwf'.fits e he)
    (by
      have := length_mapSet_le (kv.Get k).2.memDB.store k ⟨"del", ""⟩
      have := hwf'.size
      show (mapSet (kv.Get k).2.memDB.store k ⟨"del", ""⟩).length < 2 ^ 64
      omega)
    hwf'.threshold hwf'.slots
  rw [Del_of_ok kv k v hget hc.1]
  refine ⟨rfl, hc.2.1, ?_⟩
  intro k'
  rw [hc.2.2 k']
  show (match mapGet (mapSet (kv.Get k).2.memDB.store k ⟨"del", ""⟩) k' with
        | some t => some t
        | none => cacheGet (kv.Get k).2.sstM.memSST k') = _
  rw [mapGet_mapSet]
  by_cases hk : k' = k
  · simp only [hk, if_true]
  · simp only [hk, if_false]
    have : (kv.Get k).2.topGet k' = kv.topGet k' := by rw [hst]; rfl
    exact this

/-- `Del` on a well-formed engine whose `Get` fails or panics: the engine stays well-formed
and what the memtable and the cache together hold for any key is unchanged. -/
theorem Del_spec_not_ok (kv : MyKvStore) (hwf : WF kv) (k : String)
    (hget : ∀ v, (kv.Get k).1 ≠ .ok v) :
    WF (kv.Del k).2 ∧ ∀ k', (kv.Del k).2.topGet k' = kv.topGet k' := by
  have hst := Get_state kv k
  have hwf' : WF (kv.Get k).2 := by rw [hst]; exact WF_dir kv _ hwf
  have htop : ∀ k', (kv.Get k).2.topGet k' = kv.topGet k' := by
    intro k'; rw [hst]; rfl
  cases hr : (kv.Get k).1 with
  | ok v => exact absurd hr (hget v)
  | panic m =>
    rw [Del_of_panic kv k m hr]
    exact ⟨hwf', htop⟩
  | err e =>
    have hc := CheckIfFlush_spec (kv.Get k).2 hwf'.version hwf'.sorted hwf'.fits
      (by have := hwf'.size; omega) hwf'.threshold hwf'.slots
    rw [Del_of_err kv k e hr hc.1]
    exact ⟨hc.2.1, fun k' => by rw [hc.2.2 k', htop k']⟩

theorem decision_ne_ok_of_del (t : Tuple) (h : t.operation = "del") (v : String) :
    decision t ≠ .ok v := by
  simp [decision, h]

/-- One mutation that is about another key, or that is a `Del` of the key while the key is
deleted, keeps the engine well-formed and keeps what the memtable and the cache together
hold for the key. -/
theorem step_keeps (kv : MyKvStore) (hwf : WF kv) (k : String) (t : Tuple)
    (htop : kv.topGet k = some t) (op : Op) (hfit : fitsInt64 op.record)
    (hop : op.key ≠ k ∨ (op = .del k ∧ t.operation = "del")) :
    WF (kv.step op) ∧ (kv.step op).topGet k = some t := by
  cases op with
  | set k' v' =>
    have hk : k' ≠ k := by
      rcases hop with h | h
      · exact h
      · cases h.1
    have hs := Set_spec kv hwf k' v' hfit
    refine ⟨hs.2.1, ?_⟩
    show (kv.Set k' v').2.topGet k = some t
    rw [hs.2.2 k, if_neg (fun e => hk e.symm), htop]
  | del k' =>
    show WF (kv.Del k').2 ∧ (kv.Del k').2.topGet k = some t
    by_cases hok : ∃ v, (kv.Get k').1 = .ok v
    · obtain ⟨v, hv⟩ := hok
      have hk : k' ≠ k := by
        rcases hop with h | h
        · exact h
        · intro e
          subst e
          rw [Get_of_topGet kv k' t htop] at hv
          exact decision_ne_ok_of_del t h.2 v hv
      have hd := Del_spec_ok kv hwf k' v hfit hv
      refine ⟨hd.2.1, ?_⟩
      rw [hd.2.2 k, if_neg (fun e => hk e.symm), htop]
    · have hd := Del_spec_not_ok kv hwf k' (fun v hv => hok ⟨v, hv⟩)
      exact ⟨hd.1, by rw [hd.2 k, htop]⟩

theorem run_keeps (ops : List Op) (k : String) (t : Tuple) :
    ∀ kv : MyKvStore, WF kv → kv.topGet k = some t →
      (∀ op ∈ ops, fitsInt64 op.record ∧ (op.key ≠ k ∨ (op = .del k ∧ t.operation = "del"))) →
      WF (kv.run ops) ∧ (kv.run ops).topGet k = some t := by
  induction ops with
  | nil => intro kv hwf htop _; exact ⟨hwf, htop⟩
  | cons op ops ih =>
    intro kv hwf htop h
    have h0 := h op (List.mem_cons_self _ _)
    have hs := step_keeps kv hwf k t htop op h0.1 h0.2
    exact ih (kv.step op) hs.1 hs.2 (fun o ho => h o (List.mem_cons_of_mem _ ho))

/-- A new engine is well-formed, whatever the directory and the WAL file hold. -/
theorem WF_NewKeyValueStore (cfg : Config) (d : Dir) (walContent : List Nat)
    (ht : cfg.treshold + 1 < 2 ^ 64) : WF (NewKeyValueStore cfg d walContent) := by
  refine ⟨rfl, List.Pairwise.nil, ?_, ?_, ht, ?_⟩
  · intro e he; cases he
  · show 0 + 1 < 2 ^ 64
    omega
  · intro j _
    show (List.replicate cfg.defLoad ([] : KVMap)).getD j [] = []
    rw [List.getD_eq_getElem?_getD, List.getElem?_replicate]
    split_ifs <;> rfl

/-! ## Claims about `Set`, `Del` and `Get` -/

/-- C2: on every well-formed engine, `Set(k, v)` returns without error and `Get(k)` then
returns `v`, whether or not that `Set` flushed the memtable, and it still returns `v` after
any further `Set` and `Del` calls on other keys, with the flushes they trigger. -/
theorem C2_set_then_get (kv : MyKvStore) (hwf : WF kv) (k v : String) (ops : List Op)
    (hfit : fitsInt64 ⟨"set", k, v⟩)
    (hops : ∀ op ∈ ops, fitsInt64 op.record ∧ op.key ≠ k) :
    (kv.Set k v).1 = .ok () ∧ (((kv.Set k v).2.run ops).Get k).1 = .ok v := by
  have hs := Set_spec kv hwf k v hfit
  have htop : (kv.Set k v).2.topGet k = some ⟨"set", v⟩ := by
    rw [hs.2.2 k, if_pos rfl]
  have hr := run_keeps ops k ⟨"set", v⟩ (kv.Set k v).2 hs.2.1 htop
    (fun op ho => ⟨(hops op ho).1, Or.inl (hops op ho).2⟩)
  refine ⟨hs.1, ?_⟩
  rw [Get_of_topGet _ k _ hr.2]
  rfl

theorem C2_set_then_get_witness :
    WF (NewKeyValueStore ⟨4, 0, 1⟩ [] [])
      ∧ ((NewKeyValueStore ⟨4, 0, 1⟩ [] []).Set "a" "1").1 = .ok ()
      ∧ ((((NewKeyValueStore ⟨4, 0, 1⟩ [] []).Set "a" "1").2.run
          [.set "b" "2", .del "b", .set "c" "3"]).Get "a").1 = .ok "1" :=
  ⟨WF_NewKeyValueStore ⟨4, 0, 1⟩ [] [] (by decide),
    C2_set_then_get (NewKeyValueStore ⟨4, 0, 1⟩ [] [])
      (WF_NewKeyValueStore ⟨4, 0, 1⟩ [] [] (by decide)) "a" "1"
      [.set "b" "2", .del "b", .set "c" "3"] (by decide) (by decide)⟩

/-- C3: on every well-formed engine on which `Get(k)` returns a value `v`, `Del(k)` returns
`v` without error, and `Get(k)` then returns the error "Key Deleted", which differs from
"Key Not Found", also after further `Set` and `Del` calls on other keys and `Del` calls on
`k`, with the flushes they trigger. -/
theorem C3_del_then_get (kv : MyKvStore) (hwf : WF kv) (k v : String) (ops : List Op)
    (hget : (kv.Get k).1 = .ok v) (hfit : fitsInt64 ⟨"del", k, ""⟩)
    (hops : ∀ op ∈ ops, fitsInt64 op.record ∧ (op.key ≠ k ∨ op = .del k)) :
    (kv.Del k).1 = .ok v
      ∧ (((kv.Del k).2.run ops).Get k).1 = .err (.errorsNew "Key Deleted")
      ∧ GoError.errorsNew "Key Deleted" ≠ GoError.errorsNew "Key Not Found" := by
  have hd := Del_spec_ok kv hwf k v hfit hget
  have htop : (kv.Del k).2.topGet k = some ⟨"del", ""⟩ := by
    rw [hd.2.2 k, if_pos rfl]
  have hr := run_keeps ops k ⟨"del", ""⟩ (kv.Del k).2 hd.2.1 htop
    (fun op ho => ⟨(hops op ho).1, (hops op ho).2.imp id (fun h => ⟨h, rfl⟩)⟩)
  refine ⟨hd.1, ?_, by decide⟩
  rw [Get_of_topGet _ k _ hr.2]
  rfl

set_option maxRecDepth 100000 in
theorem C3_del_then_get_witness :
    (((NewKeyValueStore ⟨4, 0, 1⟩ [] []).Set "a" "1").2.Del "a").1 = .ok "1"
      ∧ (((((NewKeyValueStore ⟨4, 0, 1⟩ [] []).Set "a" "1").2.Del "a").2.run
          [.set "b" "2", .del "a", .del "b"]).Get "a").1 = .err (.errorsNew "Key Deleted")
      ∧ GoError.errorsNew "Key Deleted" ≠ GoError.errorsNew "Key Not Found" :=
  C3_del_then_get ((NewKeyValueStore ⟨4, 0, 1⟩ [] []).Set "a" "1").2
    (Set_spec (NewKeyValueStore ⟨4, 0, 1⟩ [] [])
      (WF_NewKeyValueStore ⟨4, 0, 1⟩ [] [] (by decide)) "a" "1" (by decide)).2.1
    "a" "1" [.set "b" "2", .del "a", .del "b"] (by decide) (by decide) (by decide)

/-! ## Scanning segments on disk -/

theorem searchRecords_records (rs : List FileRecord) (k : String) :
    ∀ (pre junk : List Nat), (∀ x ∈ rs, fitsInt64 x) → KeysAscending rs →
      searchRecords rs.length (pre ++ encodeRecords rs ++ junk) pre.length k
        = match rs.find? (fun r => r.Key = k) with
          | some r => decision ⟨r.Operation, r.Value⟩
          | none => .err (.errorsNew "Key Not Found") := by
  induction rs with
  | nil => intro pre junk _ _; rfl
  | cons r rs ih =>
    intro pre junk h hs
    have hr : fitsInt64 r := h r (List.mem_cons_self _ _)
    have hrs : ∀ x ∈ rs, fitsInt64 x := fun x hx => h x (List.mem_cons_of_mem _ hx)
    have hp := List.pairwise_cons.mp hs
    have e : pre ++ encodeRecords (r :: rs) ++ junk
        = pre ++ encodeRecord r ++ (encodeRecords rs ++ junk) := by
      rw [encodeRecords_cons]; simp only [List.append_assoc]
    have e2 : pre ++ encodeRecord r ++ (encodeRecords rs ++ junk)
        = (pre ++ encodeRecord r) ++ encodeRecords rs ++ junk := by
      simp only [List.append_assoc]
    have ih' := ih (pre ++ encodeRecord r) junk hrs hp.2
    rw [← e2, List.length_append] at ih'
    rw [e, List.length_cons, searchRecords, readRecordAt_encodeRecord pre _ r hr]
    simp only [List.find?_cons]
    by_cases hk : r.Key = k
    · simp only [hk, if_true, decide_True, decision]
    · simp only [hk, if_false, decide_False]
      by_cases hlt : strLt k r.Key = true
      · have hnone : rs.find? (fun r => r.Key = k) = none := by
          rw [List.find?_eq_none]
          intro x hx hxk
          have hxk' : x.Key = k := by simpa using hxk
          have := hp.1 x hx
          rw [hxk', hlt] at this
          exact Bool.noConfusion this
        simp only [hlt, if_true, hnone]
      · simp only [hlt, if_false]
        exact ih'

theorem dirGet_dirSet_ne (d : Dir) (f g : FileName) (c : List Nat) (h : g ≠ f) :
    dirGet (dirSet d f c) g = dirGet d g := by
  induction d with
  | nil => simp [dirSet, dirGet, h]
  | cons x d ih =>
    obtain ⟨x1, x2⟩ := x
    simp only [dirSet]
    split_ifs with hf
    · subst hf
      simp [dirGet, h]
    · simp only [dirGet, ih]

theorem SearchInSST_of_header (d : Dir) (k : String) (i n p : Nat) (content : List Nat)
    (hc : dirGet d (.sst i) = some content) (hh : readHeader content = .ok (n, p)) :
    SearchInSST d k i = (searchRecords n content p k, d) := by
  unfold SearchInSST
  rw [openCreate_of_dirGet d _ content hc]
  simp only
  rw [hh]

theorem SearchInSST_missing (d : Dir) (k : String) (i : Nat) (hc : dirGet d (.sst i) = none) :
    SearchInSST d k i = (.err .EOF, dirSet d (.sst i) []) := by
  unfold SearchInSST openCreate
  rw [hc]
  rfl

/-- `SearchInSST` on a tier: the decision of the first record with the key, "Key Not Found"
when there is none; an error other than "Key Deleted" when the file is missing. Files with
other names are left as they are. -/
theorem SearchInSST_tier (d : Dir) (k : String) (i : Nat) (rs : List FileRecord)
    (h : HoldsSegment d i rs) :
    ∃ d', (∀ f, f ≠ .sst i → dirGet d' f = dirGet d f) ∧
      ((∃ r, rs.find? (fun r => r.Key = k) = some r
          ∧ SearchInSST d k i = (decision ⟨r.Operation, r.Value⟩, d'))
        ∨ (rs.find? (fun r => r.Key = k) = none
          ∧ ∃ e, SearchInSST d k i = (.err e, d') ∧ e.Error ≠ "Key Deleted")) := by
  rcases h with ⟨hc, hlen, hfit, hs⟩ | ⟨hc, rfl⟩
  · refine ⟨d, fun _ _ => rfl, ?_⟩
    have hh : readHeader (segmentOf rs) = .ok (rs.length, 24) := by
      have := readHeader_segment rs.length (encodeRecords rs) hlen
      exact this
    have hl : (leBytes 8 magicNumber ++ leBytes 8 sysVers ++ leBytes 8 rs.length).length = 24 := by
      simp only [List.length_append, length_leBytes]
    have hsr := searchRecords_records rs k
      (leBytes 8 magicNumber ++ leBytes 8 sysVers ++ leBytes 8 rs.length) [] hfit hs
    rw [hl, List.append_nil] at hsr
    have hsr' : searchRecords rs.length (segmentOf rs) 24 k
        = match rs.find? (fun r => r.Key = k) with
          | some r => decision ⟨r.Operation, r.Value⟩
          | none => .err (.errorsNew "Key Not Found") := hsr
    rw [SearchInSST_of_header d k i rs.length 24 (segmentOf rs) hc hh, hsr']
    cases hf : rs.find? (fun r => r.Key = k) with
    | some r => exact Or.inl ⟨r, rfl, rfl⟩
    | none => exact Or.inr ⟨rfl, _, rfl, by decide⟩
  · refine ⟨dirSet d (.sst i) [], fun f hf => dirGet_dirSet_ne d _ f [] hf, Or.inr ⟨rfl, ?_⟩⟩
    exact ⟨.EOF, SearchInSST_missing d k i hc, by decide⟩

theorem decision_cases (t : Tuple) :
    (decision t = .err (.errorsNew "Key Deleted")) ∨ (∃ v, decision t = .ok v) := by
  unfold decision
  split_ifs
  · exact Or.inl rfl
  · exact Or.inr ⟨_, rfl⟩

theorem searchDiskFrom_tiers (segs : Nat → List FileRecord) (k : String) :
    ∀ (i : Nat) (d : Dir), i ≤ 10000000 → (∀ j, j ≤ i → HoldsSegment d j (segs j)) →
      (searchDiskFrom d k i).1 = match diskGet segs (i + 1) k with
        | some r => decision ⟨r.Operation, r.Value⟩
        | none => .err (.errorsNew "Key Not Found") := by
  intro i
  induction i with
  | zero =>
    intro d _ h
    obtain ⟨d', _, hres⟩ := SearchInSST_tier d k 0 (segs 0) (h 0 (Nat.le_refl _))
    rcases hres with ⟨r, hf, hsr⟩ | ⟨hf, e, hsr, hne⟩
    · simp only [searchDiskFrom, hsr, diskGet, hf]
      rcases decision_cases ⟨r.Operation, r.Value⟩ with hd | ⟨v, hd⟩
      · rw [hd]; rfl
      · rw [hd]
    · simp only [searchDiskFrom, hsr, diskGet, hf, hne, if_false]
  | succ i ih =>
    intro d hi h
    obtain ⟨d', hd', hres⟩ := SearchInSST_tier d k (i + 1) (segs (i + 1)) (h (i + 1) (Nat.le_refl _))
    have hgt : ¬ (i + 1 > 10000000) := by omega
    rcases hres with ⟨r, hf, hsr⟩ | ⟨hf, e, hsr, hne⟩
    · rw [searchDiskFrom, if_neg hgt, hsr, diskGet, hf]
      rcases decision_cases ⟨r.Operation, r.Value⟩ with hd | ⟨v, hd⟩
      · simp only [hd, GoError.Error, if_true]
      · simp only [hd]
    · rw [searchDiskFrom, if_neg hgt, hsr, diskGet, hf]
      simp only [hne, if_false]
      refine ih d' (by omega) ?_
      intro j hj
      have hne' : FileName.sst j ≠ FileName.sst (i + 1) := by
        intro e; cases e; omega
      rcases h j (by omega) with ⟨hc, rest⟩ | ⟨hc, hnil⟩
      · exact Or.inl ⟨by rw [hd' _ hne', hc], rest⟩
      · exact Or.inr ⟨by rw [hd' _ hne', hc], hnil⟩

theorem Get_eq_tierGet (kv : MyKvStore) (segs : Nat → List FileRecord) (k : String)
    (hdisk : ∀ i, i < kv.sstM.loadIdx → HoldsSegment kv.dir i (segs i))
    (hidx : kv.sstM.loadIdx ≤ 10000001) :
    (kv.Get k).1 = tierGet kv segs k := by
  unfold tierGet
  cases hm : mapGet kv.memDB.store k with
  | some t =>
    have : kv.topGet k = some t := by unfold MyKvStore.topGet; rw [hm]
    exact Get_of_topGet kv k t this
  | none =>
    cases hc : cacheGet kv.sstM.memSST k with
    | some t =>
      have : kv.topGet k = some t := by unfold MyKvStore.topGet; rw [hm]; exact hc
      exact Get_of_topGet kv k t this
    | none =>
      have hs : searchMem kv.sstM.memSST.reverse k = none := by
        rw [searchMem_reverse, hc]; rfl
      unfold MyKvStore.Get PersMem.GetM
      rw [hm]
      simp only [Search, hs, SearchInDisk]
      cases hl : kv.sstM.loadIdx with
      | zero => simp only [if_true, diskGet]
      | succ n =>
        have hn : ¬ (n + 1 = 0) := by omega
        simp only [hn, if_false, Nat.add_sub_cancel]
        exact searchDiskFrom_tiers segs k n kv.dir (by omega)
          (fun j hj => hdisk j (by omega))

theorem Start_empty (cfg : Config) :
    (NewKeyValueStore cfg [] []).Start cfg
      = some (.ok (), { NewKeyValueStore cfg [] [] with
          memDB := { store := [], wal := ⟨[], 0⟩ } }) := by
  have h0 : ¬ (0 > cfg.mergeThreshold) := by omega
  simp only [MyKvStore.Start, NewKeyValueStore, NewSSTManager, CheckAndClean, List.filter_nil,
    List.length_nil, SSTCompaction, compactLoop, h0, if_false, PersMem.Load, PersMem.LoadLoop,
    WALFile.SeekStart, WALFile.SeekEnd, WALFile.ReadRecord, readRecordAt, readFull,
    LoadALL, Nat.zero_sub, loadAllFrom, Nat.zero_add]
  rfl

/-- C5: `Get` returns the decision of the first tier that holds a record for the key, in
the order memtable, cache slots from the highest down, on-disk segments from `loadIdx - 1`
down to 0 (each a well-formed segment in key order, or missing): "Key Deleted" for a
tombstone, the value otherwise, and "Key Not Found" when no tier holds the key. In
particular a new engine over an empty directory and an empty WAL, before and after `Start`,
answers "Key Not Found" for every key. -/
theorem C5_get_tier_order (kv : MyKvStore) (segs : Nat → List FileRecord) (k : String)
    (hdisk : ∀ i, i < kv.sstM.loadIdx → HoldsSegment kv.dir i (segs i))
    (hidx : kv.sstM.loadIdx ≤ 10000001) :
    (kv.Get k).1 = tierGet kv segs k
      ∧ (∀ (cfg : Config) (key : String),
          ((NewKeyValueStore cfg [] []).Get key).1 = .err (.errorsNew "Key Not Found")
          ∧ ∃ s, (NewKeyValueStore cfg [] []).Start cfg = some (.ok (), s)
              ∧ (s.Get key).1 = .err (.errorsNew "Key Not Found")) := by
  refine ⟨Get_eq_tierGet kv segs k hdisk hidx, ?_⟩
  intro cfg key
  have hempty : cacheGet (List.replicate cfg.defLoad ([] : KVMap)) key = none := by
    apply cacheGet_of_empty
    intro j
    rw [List.getD_eq_getElem?_getD, List.getElem?_replicate]
    split_ifs <;> rfl
  have hl : (NewKeyValueStore cfg [] []).sstM.loadIdx = 0 := by
    show 0 - cfg.defLoad = 0
    omega
  constructor
  · rw [Get_eq_tierGet (NewKeyValueStore cfg [] []) (fun _ => []) key
      (by intro i hi; rw [hl] at hi; omega) (by rw [hl]; omega)]
    unfold tierGet
    rw [hl]
    show (match cacheGet (List.replicate cfg.defLoad ([] : KVMap)) key with
      | some t => decision t
      | none => _) = _
    rw [hempty]
    rfl
  · refine ⟨_, Start_empty cfg, ?_⟩
    rw [Get_eq_tierGet _ (fun _ => []) key
      (by intro i hi; have : i < 0 - cfg.defLoad := hi; omega)
      (by show 0 - cfg.defLoad ≤ 10000001; omega)]
    unfold tierGet
    show (match cacheGet (List.replicate cfg.defLoad ([] : KVMap)) key with
      | some t => decision t
      | none => match diskGet (fun _ => []) (0 - cfg.defLoad) key with
        | some r => decision ⟨r.Operation, r.Value⟩
        | none => .err (.errorsNew "Key Not Found")) = _
    rw [hempty, Nat.zero_sub]
    rfl

set_option maxRecDepth 100000 in
theorem C5_get_tier_order_witness :
    (sampleEngine.Get "b").1 = tierGet sampleEngine sampleSegs "b"
      ∧ tierGet sampleEngine sampleSegs "b" = .ok "2"
      ∧ tierGet sampleEngine sampleSegs "a" = .ok "9"
      ∧ tierGet sampleEngine sampleSegs "zz" = .err (.errorsNew "Key Not Found") :=
  ⟨(C5_get_tier_order sampleEngine sampleSegs "b"
      (fun i hi => by
        have h0 : i = 0 := by
          have : i < 1 := hi
          omega
        subst h0
        exact Or.inl ⟨rfl, by decide, by decide, by unfold KeysAscending; decide⟩)
      (by decide)).1,
    by decide, by decide, by decide⟩

set_option maxRecDepth 1000000 in
/-- C1, the code at the failing input. With flush threshold 1 and merge threshold 1, the
calls Set(k, old), Set(a, 1), Set(k, new), Set(b, 2) leave two segments and `Get(k)` returns
"new"; after a restart on the same files, whose `Start` merges the two segments and loads
the merged one, `Get(k)` returns "old", while a scan of the merged file finds "new". With
the constants of the source, starting on a directory of eleven segments of which the two
oldest hold the key, `Get(k)` after `Start` returns the value of the older segment. -/
theorem C1_compaction_returns_older_value :
    (((NewKeyValueStore smallConfig [] []).run
        [.set "k" "old", .set "a" "1", .set "k" "new", .set "b" "2"]).Get "k").1 = .ok "new"
      ∧ (((NewKeyValueStore smallConfig [] []).run
          [.set "k" "old", .set "a" "1", .set "k" "new", .set "b" "2"]).restart smallConfig).map
            (fun r => (r.1, (r.2.Get "k").1, (SearchInSST r.2.dir "k" 0).1))
          = some (.ok (), .ok "old", .ok "new")
      ∧ ((NewKeyValueStore sourceConfig elevenSegments []).Start sourceConfig).map
            (fun r => (r.1, r.2.sstM.sstCount, (r.2.Get "k").1))
          = some (.ok (), 6, .ok "old") := by
  refine ⟨by rfl, by rfl, by rfl⟩

/-! ## The engine after `Start` is well-formed -/

theorem sorted_loadRecord (store : KVMap) (r : FileRecord) (h : SortedMap store) :
    SortedMap (loadRecord store r) := by
  unfold loadRecord
  split_ifs
  · exact sorted_mapSet _ _ _ h
  · exact sorted_mapSet _ _ _ h
  · exact h

theorem LoadLoop_sorted (fuel : Nat) :
    ∀ (s : PersMem) (r : Outcome Unit × PersMem), SortedMap s.store →
      PersMem.LoadLoop fuel s = some r → SortedMap r.2.store := by
  induction fuel with
  | zero => intro s r _ h; cases h
  | succ fuel ih =>
    intro s r hs h
    unfold PersMem.LoadLoop at h
    generalize s.wal.ReadRecord = rr at h
    obtain ⟨o, w⟩ := rr
    cases o with
    | ok rec => exact ih _ r (sorted_loadRecord _ _ hs) h
    | err e =>
      simp only at h
      split_ifs at h <;> (cases h; exact hs)
    | panic m =>
      cases h
      exact hs

theorem loadAllFrom_slots (count : Nat) :
    ∀ (i : Nat) (m : mySSTManager) (d : Dir), m.loadIdx ≤ i →
      (loadAllFrom count i m d).2.1.sstCount = m.sstCount
        ∧ (loadAllFrom count i m d).2.1.loadThreshold = m.loadThreshold
        ∧ ∀ j, i - m.loadIdx + count ≤ j →
            (loadAllFrom count i m d).2.1.memSST.getD j [] = m.memSST.getD j [] := by
  induction count with
  | zero => intro i m d _; exact ⟨rfl, rfl, fun _ _ => rfl⟩
  | succ count ih =>
    intro i m d hi
    unfold loadAllFrom
    by_cases hlen : m.memSST.length ≤ i - m.loadIdx
    · rw [if_pos hlen]
      exact ⟨rfl, rfl, fun _ _ => rfl⟩
    · rw [if_neg hlen]
      generalize LoadToMem [] (openCreate d (.sst i)).1 = lr
      obtain ⟨o, mp⟩ := lr
      have hset : ∀ j, i - m.loadIdx + (count + 1) ≤ j →
          (m.memSST.set (i - m.loadIdx) mp).getD j [] = m.memSST.getD j [] := by
        intro j hj
        rw [List.getD_eq_getElem?_getD, List.getElem?_set_ne (by omega),
          ← List.getD_eq_getElem?_getD]
      have hrec := ih (i + 1) { m with memSST := m.memSST.set (i - m.loadIdx) mp }
        (openCreate d (.sst i)).2 (by show m.loadIdx ≤ i + 1; omega)
      cases o with
      | panic msg => exact ⟨rfl, rfl, hset⟩
      | ok a =>
        refine ⟨hrec.1, hrec.2.1, fun j hj => ?_⟩
        rw [hrec.2.2 j (by show i + 1 - m.loadIdx + count ≤ j; omega)]
        exact hset j hj
      | err e =>
        refine ⟨hrec.1, hrec.2.1, fun j hj => ?_⟩
        rw [hrec.2.2 j (by show i + 1 - m.loadIdx + count ≤ j; omega)]
        exact hset j hj

/-- The engine that `Start` returns for a new engine is well-formed, provided the replayed
memtable fits the integer types of Go. -/
theorem WF_Start (cfg : Config) (d : Dir) (walContent : List Nat) (s : MyKvStore)
    (o : Outcome Unit)
    (ht : cfg.treshold + 1 < 2 ^ 64)
    (h : (NewKeyValueStore cfg d walContent).Start cfg = some (o, s))
    (hfit : ∀ e ∈ s.memDB.store, fitsInt64 (entryRecord e))
    (hsz : s.memDB.store.length + 1 < 2 ^ 64) : WF s := by
  have hwf := WF_NewKeyValueStore cfg d walContent ht
  have hall : ∀ j, (NewKeyValueStore cfg d walContent).sstM.memSST.getD j [] = [] := by
    intro j
    show (List.replicate cfg.defLoad ([] : KVMap)).getD j [] = []
    rw [List.getD_eq_getElem?_getD, List.getElem?_replicate]
    split_ifs <;> rfl
  generalize NewKeyValueStore cfg d walContent = kv at h hwf hall
  unfold MyKvStore.Start at h
  generalize SSTCompaction cfg kv.dir = sc at h
  cases sc with
  | none => cases h
  | some r1 =>
    obtain ⟨o1, d1⟩ := r1
    cases o1 with
    | err e =>
      cases h
      exact ⟨hwf.version, hwf.sorted, hfit, hsz, hwf.threshold, hwf.slots⟩
    | panic m =>
      cases h
      exact ⟨hwf.version, hwf.sorted, hfit, hsz, hwf.threshold, hwf.slots⟩
    | ok a =>
      simp only at h
      have hload : ∀ r, kv.memDB.Load = some r → SortedMap r.2.store := by
        intro r hr
        unfold PersMem.Load at hr
        exact LoadLoop_sorted _ { kv.memDB with wal := kv.memDB.wal.SeekStart } r hwf.sorted hr
      have hslots := loadAllFrom_slots ((CheckAndClean d1).1 - kv.sstM.loadIdx) kv.sstM.loadIdx
        { kv.sstM with sstCount := (CheckAndClean d1).1 } (CheckAndClean d1).2 (Nat.le_refl _)
      have hfinal : ∀ j, (CheckAndClean d1).1 ≤ j →
          (LoadALL { kv.sstM with sstCount := (CheckAndClean d1).1 }
            (CheckAndClean d1).2).2.1.memSST.getD j [] = [] := by
        intro j hj
        have := hslots.2.2 j (by
          show kv.sstM.loadIdx - kv.sstM.loadIdx + ((CheckAndClean d1).1 - kv.sstM.loadIdx) ≤ j
          omega)
        unfold LoadALL
        rw [this]
        exact hall j
      have hcount : (LoadALL { kv.sstM with sstCount := (CheckAndClean d1).1 }
            (CheckAndClean d1).2).2.1.sstCount = (CheckAndClean d1).1 := hslots.1
      have hthr : (LoadALL { kv.sstM with sstCount := (CheckAndClean d1).1 }
            (CheckAndClean d1).2).2.1.loadThreshold = kv.sstM.loadThreshold := hslots.2.1
      generalize LoadALL { kv.sstM with sstCount := (CheckAndClean d1).1 }
            (CheckAndClean d1).2 = la at h hfinal hcount hthr
      obtain ⟨o2, mgr, d2⟩ := la
      generalize kv.memDB.Load = ld at h hload
      cases ld with
      | none => cases h
      | some r =>
        obtain ⟨o3, mem⟩ := r
        have hsorted : SortedMap mem.store := hload (o3, mem) rfl
        have key : ∀ (o' : Outcome Unit) (s' : MyKvStore),
            s' = { kv with sstM := mgr, dir := d2, memDB := mem } →
            (∀ e ∈ s'.memDB.store, fitsInt64 (entryRecord e)) →
            s'.memDB.store.length + 1 < 2 ^ 64 → WF s' := by
          intro o' s' hs' hf' hz'
          subst hs'
          refine ⟨hwf.version, hsorted, hf', hz', ?_, ?_⟩
          · show mgr.loadThreshold + 1 < 2 ^ 64
            rw [show mgr.loadThreshold = kv.sstM.loadThreshold from hthr]
            exact hwf.threshold
          · intro j hj
            have hj' : (CheckAndClean d1).1 ≤ j := by
              have : mgr.sstCount = (CheckAndClean d1).1 := hcount
              have hj2 : mgr.sstCount ≤ j := hj
              omega
            exact hfinal j hj'
        cases o3 with
        | panic m =>
          cases h
          exact ⟨hwf.version, hsorted, hfit, hsz, hwf.threshold, hwf.slots⟩
        | ok a3 =>
          cases o2 with
          | panic m => cases h; exact key (.panic m) _ rfl hfit hsz
          | ok a2 => cases h; exact key (.ok ()) _ rfl hfit hsz
          | err e2 => cases h; exact key (.ok ()) _ rfl hfit hsz
        | err e3 =>
          cases o2 with
          | panic m => cases h; exact key (.panic m) _ rfl hfit hsz
          | ok a2 => cases h; exact key (.ok ()) _ rfl hfit hsz
          | err e2 => cases h; exact key (.ok ()) _ rfl hfit hsz


/-! ## Claims about flushing a memtable to a segment -/

theorem Update_fields (kv : MyKvStore) :
    kv.Update.2.dir = (openCreate kv.dir (.sst (kv.sstM.sstCount - 1))).2
      ∧ kv.Update.2.sstM.sstCount = kv.sstM.sstCount
      ∧ kv.Update.2.memDB = kv.memDB := by
  unfold MyKvStore.Update
  dsimp only
  generalize LoadToMem [] (openCreate kv.dir (.sst (kv.sstM.sstCount - 1))).1 = r
  obtain ⟨o, ss⟩ := r
  cases o with
  | ok a =>
    dsimp only
    split_ifs <;> exact ⟨rfl, rfl, rfl⟩
  | err e => exact ⟨rfl, rfl, rfl⟩
  | panic m => exact ⟨rfl, rfl, rfl⟩

theorem dirGet_filter_ne (d : Dir) (f g : FileName) :
    dirGet (d.filter fun e => e.1 ≠ f) g = if g = f then none else dirGet d g := by
  induction d with
  | nil => simp [dirGet]
  | cons x d ih =>
    obtain ⟨x1, x2⟩ := x
    by_cases hx : x1 = f
    · subst hx
      rw [List.filter_cons_of_neg (by simp), ih]
      by_cases hg : g = x1
      · simp [hg]
      · simp [hg, dirGet]
    · rw [List.filter_cons_of_pos (by simpa using hx)]
      simp only [dirGet, ih]
      by_cases hg : g = x1
      · subst hg
        simp [hx]
      · simp [hg]

/-- What `FlushToSST` leaves behind, whether or not the reload of the new segment
succeeds: the file `SST{sstCount}.sst` with the bytes written (over whatever a stale
temporary file of that index held), no temporary file of that index, the counter
incremented, memtable and WAL cleared. -/
theorem FlushToSST_file (kv : MyKvStore) :
    dirGet kv.FlushToSST.2.dir (.sst kv.sstM.sstCount)
        = some (overwrite (openCreate kv.dir (.tmp kv.sstM.sstCount)).1
            (segmentBytes kv.sysVersion kv.memDB.store))
      ∧ dirGet kv.FlushToSST.2.dir (.tmp kv.sstM.sstCount) = none
      ∧ kv.FlushToSST.2.sstM.sstCount = kv.sstM.sstCount + 1
      ∧ kv.FlushToSST.2.memDB = kv.memDB.Clear := by
  obtain ⟨d2, hr, hg⟩ := dirRename_dirSet (openCreate kv.dir (.tmp kv.sstM.sstCount)).2
    (.tmp kv.sstM.sstCount) (.sst kv.sstM.sstCount)
    (overwrite (openCreate kv.dir (.tmp kv.sstM.sstCount)).1
      (segmentBytes kv.sysVersion kv.memDB.store))
  have hd2 : d2 = dirSet ((dirSet (openCreate kv.dir (.tmp kv.sstM.sstCount)).2
      (.tmp kv.sstM.sstCount) (overwrite (openCreate kv.dir (.tmp kv.sstM.sstCount)).1
        (segmentBytes kv.sysVersion kv.memDB.store))).filter
          fun e => e.1 ≠ FileName.tmp kv.sstM.sstCount)
      (.sst kv.sstM.sstCount) (overwrite (openCreate kv.dir (.tmp kv.sstM.sstCount)).1
        (segmentBytes kv.sysVersion kv.memDB.store)) := by
    have h2 := hr
    simp only [dirRename, dirGet_dirSet_same] at h2
    exact (Except.ok.inj h2).symm
  have hu := Update_fields { kv with
      dir := d2
      sstM := { kv.sstM with sstCount := kv.sstM.sstCount + 1 }
      memDB := kv.memDB.Clear }
  rw [FlushToSST_of kv d2 hr]
  have ho := openCreate_of_dirGet d2 (.sst kv.sstM.sstCount) _ hg
  have hdir : (MyKvStore.Update { kv with
      dir := d2
      sstM := { kv.sstM with sstCount := kv.sstM.sstCount + 1 }
      memDB := kv.memDB.Clear }).2.dir = d2 := by
    rw [hu.1]
    show (openCreate d2 (.sst (kv.sstM.sstCount + 1 - 1))).2 = d2
    rw [Nat.add_sub_cancel, ho]
  refine ⟨by rw [hdir]; exact hg, ?_, hu.2.1, hu.2.2⟩
  rw [hdir, hd2, dirGet_dirSet_ne _ _ _ _ (by intro h; cases h), dirGet_filter_ne, if_pos rfl]

theorem keysStrictlyAscending_map (store : KVMap) (hs : SortedMap store) :
    KeysStrictlyAscending (store.map entryRecord) := by
  unfold KeysStrictlyAscending
  rw [List.pairwise_map]
  exact hs

theorem overwrite_fresh (d : Dir) (f : FileName) (bs : List Nat) (h : dirGet d f = none) :
    overwrite (openCreate d f).1 bs = bs := by
  simp only [openCreate, h, overwrite, List.drop_nil, List.append_nil]

/-- C11: the segment written by `FlushToSST` from a memtable with `n` entries (in key
order, as the ordered map keeps them) consists of the header with count `n` followed by
exactly the records of the entries, one per entry in iteration order, tombstones included,
with strictly ascending keys; nothing follows them unless a stale temporary file of the
same index was there. When the version field is `sysVers` and the records fit, the file
loads back as the memtable. -/
theorem C11_flush_segment_records (kv : MyKvStore) (hs : SortedMap kv.memDB.store)
    (hsz : kv.memDB.store.length < 2 ^ 64) :
    ∃ junk, dirGet kv.FlushToSST.2.dir (.sst kv.sstM.sstCount)
        = some (leBytes 8 magicNumber ++ leBytes 8 kv.sysVersion
            ++ leBytes 8 kv.memDB.store.length
            ++ encodeRecords (kv.memDB.store.map entryRecord) ++ junk)
      ∧ (dirGet kv.dir (.tmp kv.sstM.sstCount) = none → junk = [])
      ∧ leValue (leBytes 8 kv.memDB.store.length) = kv.memDB.store.length
      ∧ (kv.memDB.store.map entryRecord).length = kv.memDB.store.length
      ∧ (∀ e ∈ kv.memDB.store, entryRecord e ∈ kv.memDB.store.map entryRecord)
      ∧ KeysStrictlyAscending (kv.memDB.store.map entryRecord)
      ∧ (kv.sysVersion = sysVers → (∀ e ∈ kv.memDB.store, fitsInt64 (entryRecord e)) →
          LoadToMem [] (leBytes 8 magicNumber ++ leBytes 8 kv.sysVersion
            ++ leBytes 8 kv.memDB.store.length
            ++ encodeRecords (kv.memDB.store.map entryRecord) ++ junk)
            = (.ok (), kv.memDB.store)) := by
  refine ⟨(openCreate kv.dir (.tmp kv.sstM.sstCount)).1.drop
    (segmentBytes kv.sysVersion kv.memDB.store).length, ?_, ?_, leValue_leBytes8 _ hsz,
    List.length_map _ _, fun e he => List.mem_map_of_mem _ he,
    keysStrictlyAscending_map _ hs, ?_⟩
  · rw [(FlushToSST_file kv).1]
    rfl
  · intro h
    simp only [openCreate, h, List.drop_nil]
  · intro hv hf
    have := LoadToMem_segmentBytes kv.memDB.store
      ((openCreate kv.dir (.tmp kv.sstM.sstCount)).1.drop
        (segmentBytes kv.sysVersion kv.memDB.store).length) hs hsz hf
    rw [← hv] at this
    exact this

set_option maxRecDepth 100000 in
theorem C11_flush_segment_records_witness :
    ∃ junk, dirGet tombstoneEngine.FlushToSST.2.dir (.sst 2)
        = some (leBytes 8 magicNumber ++ leBytes 8 sysVers ++ leBytes 8 3
            ++ encodeRecords [⟨"del", "a", ""⟩, ⟨"set", "b", "2"⟩, ⟨"set", "c", "3"⟩] ++ junk)
      ∧ (dirGet tombstoneEngine.dir (.tmp 2) = none → junk = [])
      ∧ leValue (leBytes 8 3) = 3
      ∧ ([("a", (⟨"del", ""⟩ : Tuple)), ("b", ⟨"set", "2"⟩), ("c", ⟨"set", "3"⟩)].map
          entryRecord).length = 3
      ∧ (∀ e ∈ [("a", (⟨"del", ""⟩ : Tuple)), ("b", ⟨"set", "2"⟩), ("c", ⟨"set", "3"⟩)],
          entryRecord e ∈ [("a", (⟨"del", ""⟩ : Tuple)), ("b", ⟨"set", "2"⟩),
            ("c", ⟨"set", "3"⟩)].map entryRecord)
      ∧ KeysStrictlyAscending ([("a", (⟨"del", ""⟩ : Tuple)), ("b", ⟨"set", "2"⟩),
          ("c", ⟨"set", "3"⟩)].map entryRecord)
      ∧ (sysVers = sysVers
          → (∀ e ∈ [("a", (⟨"del", ""⟩ : Tuple)), ("b", ⟨"set", "2"⟩), ("c", ⟨"set", "3"⟩)],
              fitsInt64 (entryRecord e))
          → LoadToMem [] (leBytes 8 magicNumber ++ leBytes 8 sysVers ++ leBytes 8 3
              ++ encodeRecords [⟨"del", "a", ""⟩, ⟨"set", "b", "2"⟩, ⟨"set", "c", "3"⟩] ++ junk)
            = (.ok (), [("a", ⟨"del", ""⟩), ("b", ⟨"set", "2"⟩), ("c", ⟨"set", "3"⟩)])) :=
  C11_flush_segment_records tombstoneEngine (by unfold SortedMap; decide) (by decide)

/-- C12: with no stale temporary file of the same index, the bytes of the segment written
by `FlushToSST` for a memtable with `n` entries are exactly the 8 bytes EF CD AB 90 78 56
34 12 (the magic number in little-endian), the 8 little-endian bytes of the version, the 8
little-endian bytes of `n`, and then, for each entry in key order, the 8-byte big-endian
length of its JSON text followed by that text; `WriteRecord` appends the same
length-prefixed encoding of its record to the WAL. -/
theorem C12_segment_bytes (kv : MyKvStore) (w : WALFile) (r : FileRecord)
    (hnew : dirGet kv.dir (.tmp kv.sstM.sstCount) = none) :
    dirGet kv.FlushToSST.2.dir (.sst kv.sstM.sstCount)
        = some ([0xEF, 0xCD, 0xAB, 0x90, 0x78, 0x56, 0x34, 0x12]
            ++ leBytes 8 kv.sysVersion ++ leBytes 8 kv.memDB.store.length
            ++ (kv.memDB.store.map fun e =>
                beBytes 8 (jsonMarshal ⟨e.2.operation, e.1, e.2.value⟩).length
                  ++ jsonMarshal ⟨e.2.operation, e.1, e.2.value⟩).flatten)
      ∧ (w.WriteRecord r).content
        = w.content ++ (beBytes 8 (jsonMarshal r).length ++ jsonMarshal r)
      ∧ leBytes 8 0x0102030405060708 = [8, 7, 6, 5, 4, 3, 2, 1]
      ∧ beBytes 8 0x0102030405060708 = [1, 2, 3, 4, 5, 6, 7, 8] := by
  refine ⟨?_, ?_, by decide, by decide⟩
  · rw [(FlushToSST_file kv).1, overwrite_fresh _ _ _ hnew]
    have hm : leBytes 8 magicNumber = [0xEF, 0xCD, 0xAB, 0x90, 0x78, 0x56, 0x34, 0x12] := by
      decide
    simp only [segmentBytes, encodeRecords, encodeRecord, List.map_map, hm]
    rfl
  · rw [WriteRecord_eq]
    rfl

set_option maxRecDepth 100000 in
theorem C12_segment_bytes_witness :
    dirGet sampleEngine.FlushToSST.2.dir (.sst 2)
        = some ([0xEF, 0xCD, 0xAB, 0x90, 0x78, 0x56, 0x34, 0x12]
            ++ leBytes 8 sysVers ++ leBytes 8 1
            ++ ([("c", (⟨"set", "3"⟩ : Tuple))].map fun e =>
                beBytes 8 (jsonMarshal ⟨e.2.operation, e.1, e.2.value⟩).length
                  ++ jsonMarshal ⟨e.2.operation, e.1, e.2.value⟩).flatten)
      ∧ (WALFile.WriteRecord ⟨[7], 0⟩ ⟨"set", "k", "v"⟩).content
        = [7] ++ (beBytes 8 (jsonMarshal ⟨"set", "k", "v"⟩).length ++ jsonMarshal ⟨"set", "k", "v"⟩)
      ∧ leBytes 8 0x0102030405060708 = [8, 7, 6, 5, 4, 3, 2, 1]
      ∧ beBytes 8 0x0102030405060708 = [1, 2, 3, 4, 5, 6, 7, 8] :=
  C12_segment_bytes sampleEngine ⟨[7], 0⟩ ⟨"set", "k", "v"⟩ (by decide)

theorem Set_state (kv : MyKvStore) (k v : String) :
    (kv.Set k v).2 = (MyKvStore.CheckIfFlush { kv with memDB := kv.memDB.SetM k v }).2 := by
  unfold MyKvStore.Set
  generalize MyKvStore.CheckIfFlush { kv with memDB := kv.memDB.SetM k v } = r
  obtain ⟨o, s⟩ := r
  cases o <;> rfl

theorem Del_state_ok (kv : MyKvStore) (k s : String) (h : (kv.Get k).1 = .ok s) :
    (kv.Del k).2 = (MyKvStore.CheckIfFlush
      { (kv.Get k).2 with memDB := (kv.Get k).2.memDB.DelM1 k }).2 := by
  unfold MyKvStore.Del
  generalize kv.Get k = r at h
  obtain ⟨o, st⟩ := r
  simp only at h
  subst h
  dsimp only
  generalize MyKvStore.CheckIfFlush { st with memDB := st.memDB.DelM1 k } = r2
  obtain ⟨o2, s2⟩ := r2
  cases o2 <;> rfl

theorem Del_state_err (kv : MyKvStore) (k : String) (e : GoError) (h : (kv.Get k).1 = .err e) :
    (kv.Del k).2 = (kv.Get k).2.CheckIfFlush.2 := by
  unfold MyKvStore.Del
  generalize kv.Get k = r at h
  obtain ⟨o, st⟩ := r
  simp only at h
  subst h
  dsimp only
  generalize st.CheckIfFlush = r2
  obtain ⟨o2, s2⟩ := r2
  cases o2 <;> rfl

/-- C13: `CheckIfFlush` flushes exactly when the memtable holds more than `loadThreshold`
entries. With at most that many it returns without error and changes nothing. With more,
the file `SST{sstCount}.sst` holds the written segment afterwards, `sstCount` has grown by
one and memtable and WAL are empty. `Set` ends with this check after `SetM`, and `Del` ends
with it on both of its return paths. -/
theorem C13_flush_threshold (kv : MyKvStore) :
    (kv.memDB.store.length ≤ kv.sstM.loadThreshold → kv.CheckIfFlush = (.ok (), kv))
      ∧ (kv.memDB.store.length > kv.sstM.loadThreshold →
          dirGet kv.CheckIfFlush.2.dir (.sst kv.sstM.sstCount)
              = some (overwrite (openCreate kv.dir (.tmp kv.sstM.sstCount)).1
                  (segmentBytes kv.sysVersion kv.memDB.store))
            ∧ kv.CheckIfFlush.2.sstM.sstCount = kv.sstM.sstCount + 1
            ∧ kv.CheckIfFlush.2.memDB = ⟨[], ⟨[], 0⟩⟩)
      ∧ (∀ k v, (kv.Set k v).2
          = (MyKvStore.CheckIfFlush { kv with memDB := kv.memDB.SetM k v }).2)
      ∧ (∀ k s, (kv.Get k).1 = .ok s → (kv.Del k).2
          = (MyKvStore.CheckIfFlush
              { (kv.Get k).2 with memDB := (kv.Get k).2.memDB.DelM1 k }).2)
      ∧ (∀ k e, (kv.Get k).1 = .err e → (kv.Del k).2 = (kv.Get k).2.CheckIfFlush.2) := by
  refine ⟨?_, ?_, Set_state kv, Del_state_ok kv, Del_state_err kv⟩
  · intro h
    unfold MyKvStore.CheckIfFlush
    rw [if_neg (by omega)]
  · intro h
    unfold MyKvStore.CheckIfFlush
    rw [if_pos h]
    have hf := FlushToSST_file kv
    exact ⟨hf.1, hf.2.2.1, hf.2.2.2⟩

set_option maxRecDepth 100000 in
theorem C13_flush_threshold_witness :
    atThresholdEngine.CheckIfFlush = (.ok (), atThresholdEngine)
      ∧ (dirGet overThresholdEngine.CheckIfFlush.2.dir (.sst 2)
              = some (overwrite (openCreate overThresholdEngine.dir (.tmp 2)).1
                  (segmentBytes sysVers [("c", ⟨"set", "3"⟩)]))
            ∧ overThresholdEngine.CheckIfFlush.2.sstM.sstCount = 3
            ∧ overThresholdEngine.CheckIfFlush.2.memDB = ⟨[], ⟨[], 0⟩⟩) :=
  ⟨(C13_flush_threshold atThresholdEngine).1 (by decide),
    (C13_flush_threshold overThresholdEngine).2.1 (by decide)⟩

/-- C14: after `Clear`, the reset step of a flush, the memtable is empty and `GetM` fails
for every key; the WAL has length zero with the handle at its start, and reading from the
start, also after closing and reopening the file, returns `io.EOF` together with the empty
record. -/
theorem C14_clear_resets (s : PersMem) (kv : MyKvStore) (key : String) :
    s.Clear.store = []
      ∧ s.Clear.GetM key = .err (.errorsNew "Key Not found In MemDB")
      ∧ s.Clear.wal = ⟨[], 0⟩
      ∧ s.Clear.wal.SeekStart.ReadRecord.1 = .err .EOF
      ∧ returnedRecord s.Clear.wal.SeekStart.ReadRecord.1 = ⟨"", "", ""⟩
      ∧ s.Clear.wal.reopen.SeekStart.ReadRecord.1 = .err .EOF
      ∧ returnedRecord s.Clear.wal.reopen.SeekStart.ReadRecord.1 = ⟨"", "", ""⟩
      ∧ kv.FlushToSST.2.memDB = kv.memDB.Clear := by
  refine ⟨rfl, rfl, rfl, rfl, rfl, rfl, rfl, (FlushToSST_file kv).2.2.2⟩

/-! ## Claims about reading segments -/

theorem readFull_start (content : List Nat) (n : Nat) (hn : n ≠ 0) (h : n ≤ content.length) :
    readFull content 0 n = (.ok (content.take n), n) := by
  have h1 : ¬ (content.length = 0) := by omega
  have h2 : ¬ (content.length < n) := by omega
  simp only [readFull, hn, if_false, List.drop_zero, h1, h2, Nat.zero_add]

theorem readFull_at (content : List Nat) (p n : Nat) (hn : n ≠ 0) (h : p + n ≤ content.length) :
    readFull content p n = (.ok ((content.drop p).take n), p + n) := by
  have h1 : ¬ (content.length - p = 0) := by omega
  have h2 : ¬ (content.length - p < n) := by omega
  simp only [readFull, hn, if_false, List.length_drop, h1, h2]

theorem readHeader_bad_magic (content : List Nat) (h8 : 8 ≤ content.length)
    (hm : leValue (content.take 8) ≠ magicNumber) :
    readHeader content = .panic "Invalid SST file" := by
  have r := readFull_start content 8 (by decide) h8
  simp only [readHeader, readU64LE, r, ne_eq, hm, not_false_eq_true, if_true]

theorem readHeader_bad_version (content : List Nat) (h16 : 16 ≤ content.length)
    (hm : leValue (content.take 8) = magicNumber)
    (hv : leValue ((content.drop 8).take 8) ≠ sysVers) :
    readHeader content = .panic "Non Compatible SST file (Check the system version)" := by
  have r := readFull_start content 8 (by decide) (by omega)
  have r2 := readFull_at content 8 8 (by decide) (by omega)
  simp only [readHeader, readU64LE, r, ne_eq, hm, not_true_eq_false, if_false, r2, hv,
    not_false_eq_true, if_true]

theorem LoadToMem_of_panic (mp : KVMap) (content : List Nat) (m : String)
    (h : readHeader content = .panic m) : LoadToMem mp content = (.panic m, mp) := by
  unfold LoadToMem
  rw [h]

theorem SearchInSST_of_panic (d : Dir) (k : String) (i : Nat) (content : List Nat) (m : String)
    (hc : dirGet d (.sst i) = some content) (h : readHeader content = .panic m) :
    SearchInSST d k i = (.panic m, d) := by
  unfold SearchInSST
  rw [openCreate_of_dirGet d _ content hc]
  dsimp only
  rw [h]

/-- C15: for a segment file whose first 8 bytes, read little-endian, differ from the magic
number, `LoadToMem` and `SearchInSST` both panic with "Invalid SST file", and for one whose
magic number matches but whose next 8 bytes differ from `sysVers` both panic with the
incompatible-version message; no record is read (the map stays as it was) and no value,
"deleted" or "missing" is returned. -/
theorem C15_header_validation (d : Dir) (i : Nat) (content : List Nat) (mp : KVMap)
    (k : String) (hc : dirGet d (.sst i) = some content) (h8 : 8 ≤ content.length) :
    (leValue (content.take 8) ≠ magicNumber →
        LoadToMem mp content = (.panic "Invalid SST file", mp)
          ∧ SearchInSST d k i = (.panic "Invalid SST file", d))
      ∧ (16 ≤ content.length → leValue (content.take 8) = magicNumber →
          leValue ((content.drop 8).take 8) ≠ sysVers →
        LoadToMem mp content
            = (.panic "Non Compatible SST file (Check the system version)", mp)
          ∧ SearchInSST d k i
            = (.panic "Non Compatible SST file (Check the system version)", d)) := by
  constructor
  · intro hm
    have h := readHeader_bad_magic content h8 hm
    exact ⟨LoadToMem_of_panic mp content _ h, SearchInSST_of_panic d k i content _ hc h⟩
  · intro h16 hm hv
    have h := readHeader_bad_version content h16 hm hv
    exact ⟨LoadToMem_of_panic mp content _ h, SearchInSST_of_panic d k i content _ hc h⟩

set_option maxRecDepth 100000 in
theorem C15_header_validation_witness :
    (LoadToMem [] (leBytes 8 7 ++ leBytes 8 sysVers ++ leBytes 8 0)
          = (.panic "Invalid SST file", [])
        ∧ SearchInSST [(.sst 0, leBytes 8 7 ++ leBytes 8 sysVers ++ leBytes 8 0)] "k" 0
          = (.panic "Invalid SST file",
              [(.sst 0, leBytes 8 7 ++ leBytes 8 sysVers ++ leBytes 8 0)]))
      ∧ (LoadToMem [] (leBytes 8 magicNumber ++ leBytes 8 7 ++ leBytes 8 0)
            = (.panic "Non Compatible SST file (Check the system version)", [])
          ∧ SearchInSST [(.sst 0, leBytes 8 magicNumber ++ leBytes 8 7 ++ leBytes 8 0)] "k" 0
            = (.panic "Non Compatible SST file (Check the system version)",
                [(.sst 0, leBytes 8 magicNumber ++ leBytes 8 7 ++ leBytes 8 0)])) :=
  ⟨(C15_header_validation [(.sst 0, leBytes 8 7 ++ leBytes 8 sysVers ++ leBytes 8 0)] 0
      (leBytes 8 7 ++ leBytes 8 sysVers ++ leBytes 8 0) [] "k" (by decide) (by decide)).1
      (by decide),
    (C15_header_validation [(.sst 0, leBytes 8 magicNumber ++ leBytes 8 7 ++ leBytes 8 0)] 0
      (leBytes 8 magicNumber ++ leBytes 8 7 ++ leBytes 8 0) [] "k" (by decide) (by decide)).2
      (by decide) (by decide) (by decide)⟩

/-- C16: on a well-formed segment whose record keys are in non-decreasing order,
`SearchInSST`, which stops at the first record with a greater key, returns for every key
what the scan of all records returns. -/
theorem C16_search_equals_full_scan (d : Dir) (i : Nat) (rs : List FileRecord) (k : String)
    (hc : dirGet d (.sst i) = some (segmentOf rs)) (hlen : rs.length < 2 ^ 64)
    (hfit : ∀ r ∈ rs, fitsInt64 r) (hs : KeysAscending rs) :
    SearchInSST d k i = (scanAll rs k, d) := by
  have hh : readHeader (segmentOf rs) = .ok (rs.length, 24) :=
    readHeader_segment rs.length (encodeRecords rs) hlen
  have hl : (leBytes 8 magicNumber ++ leBytes 8 sysVers ++ leBytes 8 rs.length).length = 24 := by
    simp only [List.length_append, length_leBytes]
  have hsr := searchRecords_records rs k
    (leBytes 8 magicNumber ++ leBytes 8 sysVers ++ leBytes 8 rs.length) [] hfit hs
  rw [hl, List.append_nil] at hsr
  have hsr' : searchRecords rs.length (segmentOf rs) 24 k = scanAll rs k := by
    unfold scanAll
    rw [show searchRecords rs.length (segmentOf rs) 24 k = _ from hsr]
    cases rs.find? (fun r => r.Key = k) <;> rfl
  rw [SearchInSST_of_header d k i rs.length 24 (segmentOf rs) hc hh, hsr']

set_option maxRecDepth 100000 in
theorem C16_search_equals_full_scan_witness :
    SearchInSST sampleEngine.dir "a" 0 = (scanAll (sampleSegs 0) "a", sampleEngine.dir)
      ∧ scanAll (sampleSegs 0) "a" = .err (.errorsNew "Key Deleted")
      ∧ scanAll (sampleSegs 0) "aa" = .err (.errorsNew "Key Not Found")
      ∧ scanAll (sampleSegs 0) "b" = .ok "2" :=
  ⟨C16_search_equals_full_scan sampleEngine.dir 0 (sampleSegs 0) "a" (by rfl) (by decide)
      (by decide) (by unfold KeysAscending; decide),
    by decide, by decide, by decide⟩

/-! ## Merging two segments -/

theorem mergeRecs_nil_left (bs : List FileRecord) : mergeRecs [] bs = bs := rfl

theorem mergeRecs_nil_right (as : List FileRecord) : mergeRecs as [] = as := by
  cases as <;> rfl

theorem mergeRecs_cons_cons (a b : FileRecord) (as bs : List FileRecord) :
    mergeRecs (a :: as) (b :: bs)
      = if strLt a.Key b.Key then a :: mergeRecs as (b :: bs)
        else b :: mergeRecs (a :: as) bs := rfl

theorem length_mergeRecs (as : List FileRecord) :
    ∀ bs, (mergeRecs as bs).length = as.length + bs.length := by
  induction as with
  | nil => intro bs; simp [mergeRecs_nil_left]
  | cons a as iha =>
    intro bs
    induction bs with
    | nil => simp [mergeRecs_nil_right]
    | cons b bs ihb =>
      rw [mergeRecs_cons_cons]
      split_ifs
      · simp only [List.length_cons, iha]
        omega
      · simp only [List.length_cons, ihb]
        omega

theorem perm_mergeRecs (as : List FileRecord) :
    ∀ bs, (mergeRecs as bs).Perm (as ++ bs) := by
  induction as with
  | nil => intro bs; exact List.Perm.refl _
  | cons a as iha =>
    intro bs
    induction bs with
    | nil => rw [mergeRecs_nil_right, List.append_nil]
    | cons b bs ihb =>
      rw [mergeRecs_cons_cons]
      split_ifs
      · exact List.Perm.cons a (iha (b :: bs))
      · have h1 : (b :: mergeRecs (a :: as) bs).Perm (b :: (a :: as ++ bs)) :=
          List.Perm.cons b ihb
        exact h1.trans (List.perm_middle.symm)

theorem strLe_trans (x y z : String) (h1 : strLt y x = false) (h2 : strLt z y = false) :
    strLt z x = false := by
  cases h : strLt z x with
  | false => rfl
  | true =>
    exfalso
    by_cases hxy : y = x
    · subst hxy
      rw [h] at h2
      exact Bool.noConfusion h2
    · rcases strLt_total y x hxy with h3 | h3
      · rw [h3] at h1
        exact Bool.noConfusion h1
      · have := strLt_trans z x y h h3
        rw [this] at h2
        exact Bool.noConfusion h2

theorem mem_mergeRecs (as bs : List FileRecord) (x : FileRecord) (h : x ∈ mergeRecs as bs) :
    x ∈ as ∨ x ∈ bs := by
  have := (perm_mergeRecs as bs).mem_iff.mp h
  exact List.mem_append.mp this

theorem keysAscending_mergeRecs (as : List FileRecord) :
    ∀ bs, KeysAscending as → KeysAscending bs → KeysAscending (mergeRecs as bs) := by
  unfold KeysAscending
  induction as with
  | nil => intro bs _ hb; exact hb
  | cons a as iha =>
    intro bs
    induction bs with
    | nil => intro ha _; rw [mergeRecs_nil_right]; exact ha
    | cons b bs ihb =>
      intro ha hb
      have ha' := List.pairwise_cons.mp ha
      have hb' := List.pairwise_cons.mp hb
      rw [mergeRecs_cons_cons]
      split_ifs with hlt
      · refine List.pairwise_cons.mpr ⟨?_, iha (b :: bs) ha'.2 hb⟩
        intro x hx
        rcases mem_mergeRecs as (b :: bs) x hx with hx | hx
        · exact ha'.1 x hx
        · have hab : strLt b.Key a.Key = false := strLt_asymm _ _ hlt
          rcases List.mem_cons.mp hx with rfl | hx
          · exact hab
          · exact strLe_trans _ _ _ hab (hb'.1 x hx)
      · have hba : strLt a.Key b.Key = false := by
          cases h : strLt a.Key b.Key with
          | false => rfl
          | true => exact absurd h hlt
        refine List.pairwise_cons.mpr ⟨?_, ihb ha hb'.2⟩
        intro x hx
        rcases mem_mergeRecs (a :: as) bs x hx with hx | hx
        · rcases List.mem_cons.mp hx with rfl | hx
          · exact hba
          · exact strLe_trans _ _ _ hba (ha'.1 x hx)
        · exact hb'.1 x hx

theorem readFull_record (content pre tail : List Nat) (r : FileRecord)
    (h : content = pre ++ encodeRecord r ++ tail) :
    readFull content pre.length 8 = (.ok (beBytes 8 (jsonMarshal r).length), pre.length + 8)
      ∧ readFull content (pre.length + 8) (jsonMarshal r).length
        = (.ok (jsonMarshal r), (pre ++ encodeRecord r).length) := by
  subst h
  have r1 := readFull_mid pre (beBytes 8 (jsonMarshal r).length) (jsonMarshal r ++ tail)
  rw [length_beBytes] at r1
  have r2 := readFull_mid (pre ++ beBytes 8 (jsonMarshal r).length) (jsonMarshal r) tail
  rw [List.length_append, length_beBytes] at r2
  have e1 : pre ++ encodeRecord r ++ tail
      = pre ++ beBytes 8 (jsonMarshal r).length ++ (jsonMarshal r ++ tail) := by
    simp [encodeRecord]
  have e2 : pre ++ encodeRecord r ++ tail
      = (pre ++ beBytes 8 (jsonMarshal r).length) ++ jsonMarshal r ++ tail := by
    simp [encodeRecord]
  constructor
  · rw [e1]; exact r1
  · rw [e2, r2]
    simp only [List.length_append, length_encodeRecord, length_beBytes]
    congr 1
    omega

theorem readPayload_record (c : Cursor) (pre tail : List Nat) (r : FileRecord)
    (h : c.content = pre ++ encodeRecord r ++ tail) (hr : fitsInt64 r) :
    c.readPayload (pre.length + 8) (jsonMarshal r).length
      = .ok { c with pos := (pre ++ encodeRecord r).length, length := (jsonMarshal r).length,
                     data := jsonMarshal r, record := r } := by
  have h2 := (readFull_record c.content pre tail r h).2
  unfold fitsInt64 at hr
  unfold Cursor.readPayload
  rw [if_neg (by omega), h2]
  dsimp only
  rw [jsonUnmarshal_jsonMarshal]

theorem readRaw_record (c : Cursor) (pre tail : List Nat) (r : FileRecord)
    (h : c.content = pre ++ encodeRecord r ++ tail) (hr : fitsInt64 r) :
    c.readRaw (pre.length + 8) (jsonMarshal r).length
      = .ok { c with pos := (pre ++ encodeRecord r).length, length := (jsonMarshal r).length,
                     data := jsonMarshal r } := by
  have h2 := (readFull_record c.content pre tail r h).2
  unfold fitsInt64 at hr
  unfold Cursor.readRaw
  rw [if_neg (by omega), h2]

theorem advance_next (c : Cursor) (cur r : FileRecord) (rest : List FileRecord)
    (h : c.Active cur (r :: rest)) :
    ∃ c', c.advance = .ok c' ∧ c'.Active r rest ∧ c'.n = c.n ∧ c'.content = c.content := by
  obtain ⟨pre, hc, hp⟩ := h.unread
  have hr : fitsInt64 r := h.fitsRest r (List.mem_cons_self _ _)
  have hc' : c.content = pre ++ encodeRecord r ++ encodeRecords rest := by
    rw [hc, encodeRecords_cons, List.append_assoc]
  have h1 := (readFull_record c.content pre _ r hc').1
  have h2 := readPayload_record c pre _ r hc' hr
  have hb : beValue (beBytes 8 (jsonMarshal r).length) = (jsonMarshal r).length := by
    unfold fitsInt64 at hr
    exact beValue_beBytes8 _ (by omega)
  refine ⟨{ c with pos := (pre ++ encodeRecord r).length, length := (jsonMarshal r).length,
                   data := jsonMarshal r, record := r, f := c.f + 1 }, ?_, ?_, rfl, rfl⟩
  · unfold Cursor.advance
    rw [hp, h1]
    dsimp only
    rw [hb, h2]
    rfl
  · refine ⟨⟨pre ++ encodeRecord r, hc', rfl⟩, rfl, rfl, rfl, ?_, hr,
      fun x hx => h.fitsRest x (List.mem_cons_of_mem _ hx)⟩
    have := h.count
    simp only [List.length_cons] at this
    show c.f + 1 + rest.length + 1 = c.n
    omega

theorem advance_last (c : Cursor) (cur : FileRecord) (h : c.Active cur []) :
    ∃ c', c.advance = .ok c' ∧ c'.f = c'.n ∧ c'.n = c.n ∧ c'.content = c.content := by
  obtain ⟨pre, hc, hp⟩ := h.unread
  have hend : c.pos = c.content.length := by
    rw [hp, hc]; simp [encodeRecords]
  refine ⟨{ c with pos := c.content.length, f := c.f + 1 }, ?_, ?_, rfl, rfl⟩
  · unfold Cursor.advance
    rw [hend, readFull_end c.content 8 (by decide)]
    rfl
  · have := h.count
    simp only [List.length_nil] at this
    show c.f + 1 = c.n
    omega

theorem drainLoop_done (fuel : Nat) (c : Cursor) (out : List Nat) (h : c.f = c.n) :
    drainLoop (fuel + 1) c out = some (.ok (), out) := by
  unfold drainLoop
  rw [if_neg (by omega)]

/-- A drain loop copies the look-ahead record and all unread records, in file order. -/
theorem drainLoop_pending (rest : List FileRecord) :
    ∀ (cur : FileRecord) (c : Cursor) (out : List Nat) (fuel : Nat),
      c.Pending cur rest → rest.length + 1 ≤ fuel →
      drainLoop fuel c out = some (.ok (), out ++ encodeRecords (cur :: rest)) := by
  induction rest with
  | nil =>
    intro cur c out fuel h hf
    obtain ⟨f, rfl⟩ : ∃ f, fuel = f + 1 := ⟨fuel - 1, by omega⟩
    obtain ⟨pre, hc, hp⟩ := h.unread
    have hend : c.pos = c.content.length := by
      rw [hp, hc]; simp [encodeRecords]
    unfold drainLoop
    rw [if_pos h.count, hend, readFull_end c.content 8 (by decide)]
    dsimp only
    rw [if_pos (by decide), h.length, h.data]
    simp [encodeRecords, encodeRecord]
  | cons r rest ih =>
    intro cur c out fuel h hf
    obtain ⟨f, rfl⟩ : ∃ f, fuel = f + 1 := ⟨fuel - 1, by omega⟩
    obtain ⟨pre, hc, hp⟩ := h.unread
    have hr : fitsInt64 r := h.fitsRest r (List.mem_cons_self _ _)
    have hc' : c.content = pre ++ encodeRecord r ++ encodeRecords rest := by
      rw [hc, encodeRecords_cons, List.append_assoc]
    have h1 := (readFull_record c.content pre _ r hc').1
    have h2 := readRaw_record c pre _ r hc' hr
    have hb : beValue (beBytes 8 (jsonMarshal r).length) = (jsonMarshal r).length := by
      unfold fitsInt64 at hr
      exact beValue_beBytes8 _ (by omega)
    have hrec := ih r
      ⟨c.content, (pre ++ encodeRecord r).length, (jsonMarshal r).length, jsonMarshal r,
        c.record, c.f, c.n⟩
      (out ++ beBytes 8 c.length ++ c.data) f
      ⟨⟨pre ++ encodeRecord r, hc', rfl⟩, rfl, rfl, h.count,
        fun x hx => h.fitsRest x (List.mem_cons_of_mem _ hx)⟩
      (by simp only [List.length_cons] at hf; omega)
    unfold drainLoop
    rw [if_pos h.count, hp, h1]
    dsimp only
    rw [hb, h2]
    dsimp only
    rw [hrec, h.length, h.data]
    simp [encodeRecords, encodeRecord]

theorem Cursor.Active.toPending {c : Cursor} {cur : FileRecord} {rest : List FileRecord}
    (h : c.Active cur rest) : c.Pending cur rest :=
  ⟨h.unread, h.length, h.data, by have := h.count; omega, h.fitsRest⟩

theorem mergeLoop_done_left (fuel : Nat) (c1 c2 : Cursor) (out : List Nat) (h : c1.f = c1.n) :
    mergeLoop (fuel + 1) c1 c2 out = some (.ok (c1, c2), out) := by
  unfold mergeLoop
  rw [if_neg (by omega)]

theorem mergeLoop_done_right (fuel : Nat) (c1 c2 : Cursor) (out : List Nat) (h : c2.f = c2.n) :
    mergeLoop (fuel + 1) c1 c2 out = some (.ok (c1, c2), out) := by
  unfold mergeLoop
  rw [if_neg (by omega)]

theorem mergeLoop_step_left (fuel : Nat) (c1 c2 c1' : Cursor) (out : List Nat)
    (h1 : c1.f < c1.n) (h2 : c2.f < c2.n) (hlt : strLt c1.record.Key c2.record.Key = true)
    (ha : c1.advance = .ok c1') :
    mergeLoop (fuel + 1) c1 c2 out
      = mergeLoop fuel c1' c2 (out ++ beBytes 8 c1.length ++ c1.data) := by
  rw [mergeLoop, if_pos ⟨h1, h2⟩, if_pos hlt, ha]

theorem mergeLoop_step_right (fuel : Nat) (c1 c2 c2' : Cursor) (out : List Nat)
    (h1 : c1.f < c1.n) (h2 : c2.f < c2.n) (hlt : ¬ strLt c1.record.Key c2.record.Key = true)
    (ha : c2.advance = .ok c2') :
    mergeLoop (fuel + 1) c1 c2 out
      = mergeLoop fuel c1 c2' (out ++ beBytes 8 c2.length ++ c2.data) := by
  rw [mergeLoop, if_pos ⟨h1, h2⟩, if_neg hlt, ha]

theorem out_record (out : List Nat) (c : Cursor) (cur : FileRecord) (rest : List FileRecord)
    (m : List FileRecord) (h : c.Active cur rest) :
    out ++ beBytes 8 c.length ++ c.data ++ encodeRecords m = out ++ encodeRecords (cur :: m) := by
  rw [h.length, h.data, encodeRecords_cons]
  simp [encodeRecord]

/-- The main loop of `MergeSST` on two inputs with look-ahead records: it ends with one
input used up and the other pending, and what it has written, followed by the pending
record and the unread records of that input, is the merge of the two inputs. -/
theorem mergeLoop_active (n : Nat) :
    ∀ (rest1 rest2 : List FileRecord), rest1.length + rest2.length = n →
    ∀ (cur1 cur2 : FileRecord) (c1 c2 : Cursor) (out : List Nat) (fuel : Nat),
      c1.Active cur1 rest1 → c2.Active cur2 rest2 → n + 2 ≤ fuel →
      ∃ c1' c2' out', mergeLoop fuel c1 c2 out = some (.ok (c1', c2'), out')
        ∧ c1'.content = c1.content ∧ c2'.content = c2.content
        ∧ ((c1'.f = c1'.n ∧ ∃ cur rest, c2'.Pending cur rest
              ∧ out' ++ encodeRecords (cur :: rest)
                = out ++ encodeRecords (mergeRecs (cur1 :: rest1) (cur2 :: rest2)))
          ∨ (c2'.f = c2'.n ∧ ∃ cur rest, c1'.Pending cur rest
              ∧ out' ++ encodeRecords (cur :: rest)
                = out ++ encodeRecords (mergeRecs (cur1 :: rest1) (cur2 :: rest2)))) := by
  induction n with
  | zero =>
    intro rest1 rest2 hn cur1 cur2 c1 c2 out fuel h1 h2 hf
    have e1 : rest1 = [] := List.length_eq_zero.mp (by omega)
    have e2 : rest2 = [] := List.length_eq_zero.mp (by omega)
    subst e1 e2
    obtain ⟨f, rfl⟩ : ∃ f, fuel = f + 2 := ⟨fuel - 2, by omega⟩
    have hc1 : c1.f < c1.n := by have := h1.count; omega
    have hc2 : c2.f < c2.n := by have := h2.count; omega
    by_cases hlt : strLt c1.record.Key c2.record.Key = true
    · obtain ⟨c1', ha, hdone, _, hcont⟩ := advance_last c1 cur1 h1
      refine ⟨c1', c2, out ++ beBytes 8 c1.length ++ c1.data, ?_, hcont, rfl, Or.inl ⟨hdone, cur2, [], h2.toPending, ?_⟩⟩
      · rw [mergeLoop_step_left (f + 1) c1 c2 c1' out hc1 hc2 hlt ha,
          mergeLoop_done_left f c1' c2 _ hdone]
      · rw [out_record out c1 cur1 [] _ h1, mergeRecs_cons_cons, ← h1.record, ← h2.record,
          if_pos hlt, mergeRecs_nil_left]
    · obtain ⟨c2', ha, hdone, _, hcont⟩ := advance_last c2 cur2 h2
      refine ⟨c1, c2', out ++ beBytes 8 c2.length ++ c2.data, ?_, rfl, hcont, Or.inr ⟨hdone, cur1, [], h1.toPending, ?_⟩⟩
      · rw [mergeLoop_step_right (f + 1) c1 c2 c2' out hc1 hc2 hlt ha,
          mergeLoop_done_right f c1 c2' _ hdone]
      · rw [out_record out c2 cur2 [] _ h2, mergeRecs_cons_cons, ← h1.record, ← h2.record,
          if_neg hlt, mergeRecs_nil_right]
  | succ n ih =>
    intro rest1 rest2 hn cur1 cur2 c1 c2 out fuel h1 h2 hf
    obtain ⟨f, rfl⟩ : ∃ f, fuel = f + 2 := ⟨fuel - 2, by omega⟩
    have hc1 : c1.f < c1.n := by have := h1.count; omega
    have hc2 : c2.f < c2.n := by have := h2.count; omega
    by_cases hlt : strLt c1.record.Key c2.record.Key = true
    · cases rest1 with
      | nil =>
        obtain ⟨c1', ha, hdone, _, hcont⟩ := advance_last c1 cur1 h1
        refine ⟨c1', c2, out ++ beBytes 8 c1.length ++ c1.data, ?_, hcont, rfl, Or.inl ⟨hdone, cur2, rest2, h2.toPending, ?_⟩⟩
        · rw [mergeLoop_step_left (f + 1) c1 c2 c1' out hc1 hc2 hlt ha,
            mergeLoop_done_left f c1' c2 _ hdone]
        · rw [out_record out c1 cur1 [] _ h1, mergeRecs_cons_cons, ← h1.record, ← h2.record,
            if_pos hlt, mergeRecs_nil_left]
      | cons r rest1' =>
        obtain ⟨c1', ha, hact, _, hcont⟩ := advance_next c1 cur1 r rest1' h1
        obtain ⟨d1, d2, out', hm, hk1, hk2, hres⟩ := ih rest1' rest2
          (by simp only [List.length_cons] at hn; omega) r cur2 c1' c2
          (out ++ beBytes 8 c1.length ++ c1.data) (f + 1) hact h2 (by omega)
        refine ⟨d1, d2, out', ?_, hk1.trans hcont, hk2, ?_⟩
        · rw [mergeLoop_step_left (f + 1) c1 c2 c1' out hc1 hc2 hlt ha, hm]
        · have hmr : mergeRecs (cur1 :: r :: rest1') (cur2 :: rest2)
              = cur1 :: mergeRecs (r :: rest1') (cur2 :: rest2) := by
            rw [mergeRecs_cons_cons, ← h1.record, ← h2.record, if_pos hlt]
          rw [hmr, ← out_record out c1 cur1 (r :: rest1') _ h1]
          exact hres
    · cases rest2 with
      | nil =>
        obtain ⟨c2', ha, hdone, _, hcont⟩ := advance_last c2 cur2 h2
        refine ⟨c1, c2', out ++ beBytes 8 c2.length ++ c2.data, ?_, rfl, hcont, Or.inr ⟨hdone, cur1, rest1, h1.toPending, ?_⟩⟩
        · rw [mergeLoop_step_right (f + 1) c1 c2 c2' out hc1 hc2 hlt ha,
            mergeLoop_done_right f c1 c2' _ hdone]
        · rw [out_record out c2 cur2 [] _ h2, mergeRecs_cons_cons, ← h1.record, ← h2.record,
            if_neg hlt, mergeRecs_nil_right]
      | cons r rest2' =>
        obtain ⟨c2', ha, hact, _, hcont⟩ := advance_next c2 cur2 r rest2' h2
        obtain ⟨d1, d2, out', hm, hk1, hk2, hres⟩ := ih rest1 rest2'
          (by simp only [List.length_cons] at hn; omega) cur1 r c1 c2'
          (out ++ beBytes 8 c2.length ++ c2.data) (f + 1) h1 hact (by omega)
        refine ⟨d1, d2, out', ?_, hk1, hk2.trans hcont, ?_⟩
        · rw [mergeLoop_step_right (f + 1) c1 c2 c2' out hc1 hc2 hlt ha, hm]
        · have hmr : mergeRecs (cur1 :: rest1) (cur2 :: r :: rest2')
              = cur2 :: mergeRecs (cur1 :: rest1) (r :: rest2') := by
            rw [mergeRecs_cons_cons, ← h1.record, ← h2.record, if_neg hlt]
          rw [hmr, ← out_record out c2 cur2 (r :: rest2') _ h2]
          exact hres

theorem readU64LE_segment (rs : List FileRecord) (hlen : rs.length < 2 ^ 64) :
    readU64LE (segmentOf rs) 0 = (.ok magicNumber, 8)
      ∧ readU64LE (segmentOf rs) 8 = (.ok sysVers, 16)
      ∧ readU64LE (segmentOf rs) 16 = (.ok rs.length, 24) := by
  have r1 := readU64LE_mid [] (leBytes 8 sysVers ++ leBytes 8 rs.length ++ encodeRecords rs)
    magicNumber (by decide)
  have r2 := readU64LE_mid (leBytes 8 magicNumber) (leBytes 8 rs.length ++ encodeRecords rs)
    sysVers (by decide)
  have r3 := readU64LE_mid (leBytes 8 magicNumber ++ leBytes 8 sysVers) (encodeRecords rs)
    rs.length hlen
  simp only [List.nil_append, List.length_nil, List.length_append, length_leBytes,
    List.append_assoc] at r1 r2 r3
  simp only [segmentOf, List.append_assoc]
  exact ⟨r1, r2, r3⟩

theorem readHeaders_of (c1 c2 : List Nat) (v1 v2 n1 n2 : Nat)
    (m1 : readU64LE c1 0 = (.ok magicNumber, 8)) (m2 : readU64LE c2 0 = (.ok magicNumber, 8))
    (s1 : readU64LE c1 8 = (.ok v1, 16)) (s2 : readU64LE c2 8 = (.ok v2, 16))
    (hv : v1 = sysVers) (hv2 : v2 = sysVers)
    (k1 : readU64LE c1 16 = (.ok n1, 24)) (k2 : readU64LE c2 16 = (.ok n2, 24)) :
    readHeaders c1 c2 = .ok (sysVers, n1, n2) := by
  subst hv hv2
  unfold readHeaders
  rw [m1, m2]
  dsimp only
  rw [if_neg (by simp), s1, s2]
  dsimp only
  rw [if_neg (by simp), k1, k2]

theorem firstCursor_segment (r : FileRecord) (rest : List FileRecord) (n : Nat)
    (hn : (r :: rest).length = n) (hfit : ∀ x ∈ r :: rest, fitsInt64 x) :
    ∃ k, firstCursor (segmentOf (r :: rest)) n = .ok k ∧ k.Active r rest
      ∧ k.content = segmentOf (r :: rest) := by
  have hr : fitsInt64 r := hfit r (List.mem_cons_self _ _)
  have hl : (leBytes 8 magicNumber ++ leBytes 8 sysVers ++ leBytes 8 (r :: rest).length).length
      = 24 := by
    simp only [List.length_append, length_leBytes]
  have hc : segmentOf (r :: rest)
      = (leBytes 8 magicNumber ++ leBytes 8 sysVers ++ leBytes 8 (r :: rest).length)
          ++ encodeRecord r ++ encodeRecords rest := by
    simp only [segmentOf, encodeRecords_cons, List.append_assoc]
  have h1 := (readFull_record _ _ _ r hc).1
  rw [hl] at h1
  have h2 := readPayload_record ⟨segmentOf (r :: rest), 24 + 8, 0, [], FileRecord.zero, 0, n⟩
    _ _ r hc hr
  rw [hl] at h2
  have hb : beValue (beBytes 8 (jsonMarshal r).length) = (jsonMarshal r).length := by
    unfold fitsInt64 at hr
    exact beValue_beBytes8 _ (by omega)
  refine ⟨⟨segmentOf (r :: rest),
    ((leBytes 8 magicNumber ++ leBytes 8 sysVers ++ leBytes 8 (r :: rest).length)
      ++ encodeRecord r).length, (jsonMarshal r).length, jsonMarshal r, r, 0, n⟩, ?_, ?_, rfl⟩
  · unfold firstCursor
    rw [h1]
    dsimp only
    rw [hb]
    exact h2
  · refine ⟨⟨_, hc, rfl⟩, rfl, rfl, rfl, ?_, hr,
      fun x hx => hfit x (List.mem_cons_of_mem _ hx)⟩
    show 0 + rest.length + 1 = n
    rw [← hn, List.length_cons]
    omega

theorem mergeBytes_of (c1 c2 : List Nat) (v n1 n2 : Nat) (k1 k2 k1' k2' : Cursor)
    (out out1 out2 : List Nat)
    (hh : readHeaders c1 c2 = .ok (v, n1, n2))
    (hf1 : firstCursor c1 n1 = .ok k1) (hf2 : firstCursor c2 n2 = .ok k2)
    (hm : mergeLoop (n1 + n2 + 1) k1 k2
        (leBytes 8 magicNumber ++ leBytes 8 v ++ leBytes 8 ((n1 + n2) % 2 ^ 64))
      = some (.ok (k1', k2'), out))
    (hd1 : drainLoop (c1.length + 2) k1' out = some (.ok (), out1))
    (hd2 : drainLoop (c2.length + 2) k2' out1 = some (.ok (), out2)) :
    mergeBytes c1 c2 = some (.ok (), out2) := by
  unfold mergeBytes
  rw [hh]
  dsimp only
  rw [hf1]
  dsimp only
  rw [hf2]
  dsimp only
  rw [hm]
  dsimp only
  rw [hd1]
  dsimp only
  rw [hd2]

theorem pending_length_le {c : Cursor} {cur : FileRecord} {rest : List FileRecord}
    (h : c.Pending cur rest) : rest.length ≤ c.content.length := by
  obtain ⟨pre, hc, _⟩ := h.unread
  have := length_le_encodeRecords rest
  rw [hc, List.length_append]
  omega

/-- The copying part of `MergeSST` on two well-formed, non-empty segments writes a
well-formed segment that holds the merge of their records. -/
theorem mergeBytes_segments (rs1 rs2 : List FileRecord) (h1 : rs1 ≠ []) (h2 : rs2 ≠ [])
    (hf1 : ∀ x ∈ rs1, fitsInt64 x) (hf2 : ∀ x ∈ rs2, fitsInt64 x)
    (hlen : rs1.length + rs2.length < 2 ^ 64) :
    mergeBytes (segmentOf rs1) (segmentOf rs2)
      = some (.ok (), segmentOf (mergeRecs rs1 rs2)) := by
  obtain ⟨r1, rest1, rfl⟩ := List.exists_cons_of_ne_nil h1
  obtain ⟨r2, rest2, rfl⟩ := List.exists_cons_of_ne_nil h2
  have hu1 := readU64LE_segment (r1 :: rest1) (by omega)
  have hu2 := readU64LE_segment (r2 :: rest2) (by omega)
  have hh := readHeaders_of _ _ sysVers sysVers _ _ hu1.1 hu2.1 hu1.2.1 hu2.2.1 rfl rfl
    hu1.2.2 hu2.2.2
  obtain ⟨k1, hk1, ha1, hc1⟩ := firstCursor_segment r1 rest1 _ rfl hf1
  obtain ⟨k2, hk2, ha2, hc2⟩ := firstCursor_segment r2 rest2 _ rfl hf2
  obtain ⟨k1', k2', out', hm, hk1', hk2', hres⟩ := mergeLoop_active _ rest1 rest2 rfl r1 r2 k1 k2
    (leBytes 8 magicNumber ++ leBytes 8 sysVers
      ++ leBytes 8 (((r1 :: rest1).length + (r2 :: rest2).length) % 2 ^ 64))
    ((r1 :: rest1).length + (r2 :: rest2).length + 1) ha1 ha2
    (by simp only [List.length_cons]; omega)
  have hfin : leBytes 8 magicNumber ++ leBytes 8 sysVers
      ++ leBytes 8 (((r1 :: rest1).length + (r2 :: rest2).length) % 2 ^ 64)
      ++ encodeRecords (mergeRecs (r1 :: rest1) (r2 :: rest2))
      = segmentOf (mergeRecs (r1 :: rest1) (r2 :: rest2)) := by
    rw [segmentOf, length_mergeRecs, Nat.mod_eq_of_lt hlen]
  rcases hres with ⟨hdone, cur, rest, hp, heq⟩ | ⟨hdone, cur, rest, hp, heq⟩
  · have hd1 := drainLoop_done ((segmentOf (r1 :: rest1)).length + 1) k1' out' hdone
    have hd2 := drainLoop_pending rest cur k2' out' ((segmentOf (r2 :: rest2)).length + 2) hp
      (by have := pending_length_le hp; rw [hk2', hc2] at this; omega)
    rw [heq, hfin] at hd2
    exact mergeBytes_of _ _ _ _ _ k1 k2 k1' k2' out' out' _ hh hk1 hk2 hm hd1 hd2
  · have hd1 := drainLoop_pending rest cur k1' out' ((segmentOf (r1 :: rest1)).length + 2) hp
      (by have := pending_length_le hp; rw [hk1', hc1] at this; omega)
    have hd2 := drainLoop_done ((segmentOf (r2 :: rest2)).length + 1) k2'
      (out' ++ encodeRecords (cur :: rest)) hdone
    rw [heq, hfin] at hd1 hd2
    exact mergeBytes_of _ _ _ _ _ k1 k2 k1' k2' out' _ _ hh hk1 hk2 hm hd1 hd2

/-! ## The directory after a merge -/

theorem dirGet_openCreate_same (d : Dir) (f : FileName) :
    dirGet (openCreate d f).2 f = some (openCreate d f).1 := by
  unfold openCreate
  cases h : dirGet d f with
  | some c => exact h
  | none => exact dirGet_dirSet_same d f []

theorem dirGet_openCreate_ne (d : Dir) (f g : FileName) (h : g ≠ f) :
    dirGet (openCreate d f).2 g = dirGet d g := by
  unfold openCreate
  cases dirGet d f with
  | some c => rfl
  | none => exact dirGet_dirSet_ne d f g [] h

theorem dirRemove_of_dirGet (d : Dir) (f : FileName) (c : List Nat) (h : dirGet d f = some c) :
    dirRemove d f = .ok (d.filter fun e => e.1 ≠ f) := by
  unfold dirRemove
  rw [h]

theorem dirRename_of_dirGet (d : Dir) (old new : FileName) (c : List Nat)
    (h : dirGet d old = some c) :
    dirRename d old new = .ok (dirSet (d.filter fun e => e.1 ≠ old) new c) := by
  unfold dirRename
  rw [h]

theorem dirRemove_ok (d d' : Dir) (f : FileName) (h : dirRemove d f = .ok d') :
    d' = d.filter fun e => e.1 ≠ f := by
  unfold dirRemove at h
  cases hg : dirGet d f with
  | none => rw [hg] at h; cases h
  | some c => rw [hg] at h; exact (Except.ok.inj h).symm

theorem dirRename_ok (d d' : Dir) (old new : FileName) (h : dirRename d old new = .ok d') :
    ∃ c, dirGet d old = some c ∧ d' = dirSet (d.filter fun e => e.1 ≠ old) new c := by
  unfold dirRename at h
  cases hg : dirGet d old with
  | none => rw [hg] at h; cases h
  | some c => rw [hg] at h; exact ⟨c, rfl, (Except.ok.inj h).symm⟩

theorem MergeSST_of_steps (d : Dir) (i j : Nat) (out : List Nat) (d4 d5 d6 : Dir)
    (hb : mergeBytes (openCreate d (.sst i)).1 (openCreate (openCreate d (.sst i)).2 (.sst j)).1
      = some (.ok (), out))
    (h4 : dirRemove (dirSet (openCreate (openCreate (openCreate d (.sst i)).2 (.sst j)).2
        (.tmp (i / 2))).2 (.tmp (i / 2))
        (overwrite (openCreate (openCreate (openCreate d (.sst i)).2 (.sst j)).2
          (.tmp (i / 2))).1 out)) (.sst j) = .ok d4)
    (h5 : dirRemove d4 (.sst i) = .ok d5)
    (h6 : dirRename d5 (.tmp (i / 2)) (.sst (i / 2)) = .ok d6) :
    MergeSST d i j = some (.ok (), d6) := by
  unfold MergeSST
  dsimp only
  rw [hb]
  dsimp only
  rw [h4]
  dsimp only
  rw [h5]
  dsimp only
  rw [h6]

/-- When the copying part of `MergeSST(i, j)` succeeds and `i` and `j` differ, the two
removals and the rename succeed and the directory is `mergedDir`. -/
theorem MergeSST_of_mergeBytes (d : Dir) (i j : Nat) (out : List Nat) (hij : i ≠ j)
    (hb : mergeBytes (openCreate d (.sst i)).1 (openCreate (openCreate d (.sst i)).2 (.sst j)).1
      = some (.ok (), out)) :
    MergeSST d i j = some (.ok (), mergedDir d i j out) := by
  have hne1 : FileName.sst j ≠ FileName.tmp (i / 2) := by intro h; cases h
  have hne2 : FileName.sst i ≠ FileName.tmp (i / 2) := by intro h; cases h
  have hne3 : FileName.sst i ≠ FileName.sst j := by intro h; cases h; exact hij rfl
  have g4 : dirGet (dirSet (openCreate (openCreate (openCreate d (.sst i)).2 (.sst j)).2
        (.tmp (i / 2))).2 (.tmp (i / 2))
        (overwrite (openCreate (openCreate (openCreate d (.sst i)).2 (.sst j)).2
          (.tmp (i / 2))).1 out)) (.sst j)
      = some (openCreate (openCreate d (.sst i)).2 (.sst j)).1 := by
    rw [dirGet_dirSet_ne _ _ _ _ hne1, dirGet_openCreate_ne _ _ _ hne1, dirGet_openCreate_same]
  have h4 := dirRemove_of_dirGet _ _ _ g4
  have g5 : dirGet ((dirSet (openCreate (openCreate (openCreate d (.sst i)).2 (.sst j)).2
        (.tmp (i / 2))).2 (.tmp (i / 2))
        (overwrite (openCreate (openCreate (openCreate d (.sst i)).2 (.sst j)).2
          (.tmp (i / 2))).1 out)).filter fun e => e.1 ≠ FileName.sst j) (.sst i)
      = some (openCreate d (.sst i)).1 := by
    rw [dirGet_filter_ne, if_neg hne3, dirGet_dirSet_ne _ _ _ _ hne2,
      dirGet_openCreate_ne _ _ _ hne2, dirGet_openCreate_ne _ _ _ hne3, dirGet_openCreate_same]
  have h5 := dirRemove_of_dirGet _ _ _ g5
  have g6 : dirGet (((dirSet (openCreate (openCreate (openCreate d (.sst i)).2 (.sst j)).2
        (.tmp (i / 2))).2 (.tmp (i / 2))
        (overwrite (openCreate (openCreate (openCreate d (.sst i)).2 (.sst j)).2
          (.tmp (i / 2))).1 out)).filter fun e => e.1 ≠ FileName.sst j).filter
            fun e => e.1 ≠ FileName.sst i) (.tmp (i / 2))
      = some (overwrite (openCreate (openCreate (openCreate d (.sst i)).2 (.sst j)).2
          (.tmp (i / 2))).1 out) := by
    rw [dirGet_filter_ne, if_neg (fun h => hne2 h.symm), dirGet_filter_ne,
      if_neg (fun h => hne1 h.symm), dirGet_dirSet_same]
  have h6 := dirRename_of_dirGet _ _ (.sst (i / 2)) _ g6
  exact MergeSST_of_steps d i j out _ _ _ hb h4 h5 h6

/-- A `MergeSST` that returns without error has copied without error and leaves the
directory `mergedDir`. -/
theorem MergeSST_ok (d d' : Dir) (i j : Nat) (h : MergeSST d i j = some (.ok (), d')) :
    ∃ out, mergeBytes (openCreate d (.sst i)).1 (openCreate (openCreate d (.sst i)).2 (.sst j)).1
        = some (.ok (), out) ∧ d' = mergedDir d i j out := by
  unfold MergeSST at h
  dsimp only at h
  generalize hb : mergeBytes (openCreate d (.sst i)).1
    (openCreate (openCreate d (.sst i)).2 (.sst j)).1 = mb at h
  cases mb with
  | none => cases h
  | some r =>
    obtain ⟨o, out⟩ := r
    cases o with
    | err e => cases h
    | panic m => cases h
    | ok a =>
      refine ⟨out, rfl, ?_⟩
      dsimp only at h
      generalize h4 : dirRemove _ (FileName.sst j) = r4 at h
      cases r4 with
      | error e => cases h
      | ok d4 =>
        dsimp only at h
        generalize h5 : dirRemove d4 (FileName.sst i) = r5 at h
        cases r5 with
        | error e => cases h
        | ok d5 =>
          dsimp only at h
          generalize h6 : dirRename d5 (FileName.tmp (i / 2)) (FileName.sst (i / 2)) = r6 at h
          cases r6 with
          | error e => cases h
          | ok d6 =>
            cases h
            have e4 := dirRemove_ok _ _ _ h4
            have e5 := dirRemove_ok _ _ _ h5
            obtain ⟨c, hc, e6⟩ := dirRename_ok _ _ _ _ h6
            subst e4 e5
            have hne1 : FileName.sst j ≠ FileName.tmp (i / 2) := by intro h; cases h
            have hne2 : FileName.sst i ≠ FileName.tmp (i / 2) := by intro h; cases h
            rw [dirGet_filter_ne, if_neg (fun h => hne2 h.symm), dirGet_filter_ne,
              if_neg (fun h => hne1 h.symm), dirGet_dirSet_same] at hc
            have hc' := Option.some.inj hc
            subst hc'
            exact e6

theorem dirGet_mergedDir (d : Dir) (i j : Nat) (out : List Nat) (g : FileName) :
    dirGet (mergedDir d i j out) g
      = if g = .sst (i / 2) then
          some (overwrite (openCreate (openCreate (openCreate d (.sst i)).2 (.sst j)).2
            (.tmp (i / 2))).1 out)
        else if g = .tmp (i / 2) ∨ g = .sst i ∨ g = .sst j then none
        else dirGet d g := by
  unfold mergedDir
  dsimp only
  by_cases h0 : g = .sst (i / 2)
  · rw [if_pos h0, h0, dirGet_dirSet_same]
  · rw [if_neg h0, dirGet_dirSet_ne _ _ _ _ h0, dirGet_filter_ne]
    by_cases h1 : g = .tmp (i / 2)
    · rw [if_pos h1, if_pos (Or.inl h1)]
    · rw [if_neg h1, dirGet_filter_ne]
      by_cases h2 : g = .sst i
      · rw [if_pos h2, if_pos (Or.inr (Or.inl h2))]
      · rw [if_neg h2, dirGet_filter_ne]
        by_cases h3 : g = .sst j
        · rw [if_pos h3, if_pos (Or.inr (Or.inr h3))]
        · rw [if_neg h3, if_neg (by tauto), dirGet_dirSet_ne _ _ _ _ h1,
            dirGet_openCreate_ne _ _ _ h1, dirGet_openCreate_ne _ _ _ h3,
            dirGet_openCreate_ne _ _ _ h2]

/-- `MergeSST` on two well-formed, non-empty segments of the directory: it returns without
error and `SST{i/2}.sst` then holds the merge of the records (followed by bytes of a stale
temporary file of that index, if there was a longer one). -/
theorem MergeSST_segments (d : Dir) (i j : Nat) (rs1 rs2 : List FileRecord) (hij : i ≠ j)
    (hc1 : dirGet d (.sst i) = some (segmentOf rs1))
    (hc2 : dirGet d (.sst j) = some (segmentOf rs2))
    (h1 : rs1 ≠ []) (h2 : rs2 ≠ [])
    (hf1 : ∀ x ∈ rs1, fitsInt64 x) (hf2 : ∀ x ∈ rs2, fitsInt64 x)
    (hlen : rs1.length + rs2.length < 2 ^ 64) :
    MergeSST d i j = some (.ok (), mergedDir d i j (segmentOf (mergeRecs rs1 rs2)))
      ∧ dirGet (mergedDir d i j (segmentOf (mergeRecs rs1 rs2))) (.sst (i / 2))
        = some (overwrite (openCreate d (.tmp (i / 2))).1 (segmentOf (mergeRecs rs1 rs2))) := by
  have o1 := openCreate_of_dirGet d (.sst i) _ hc1
  have o2 := openCreate_of_dirGet d (.sst j) _ hc2
  have hb : mergeBytes (openCreate d (.sst i)).1
      (openCreate (openCreate d (.sst i)).2 (.sst j)).1
      = some (.ok (), segmentOf (mergeRecs rs1 rs2)) := by
    rw [o1]
    dsimp only
    rw [o2]
    exact mergeBytes_segments rs1 rs2 h1 h2 hf1 hf2 hlen
  refine ⟨MergeSST_of_mergeBytes d i j _ hij hb, ?_⟩
  rw [dirGet_mergedDir, if_pos rfl, o1]
  dsimp only
  rw [o2]

/-- C17: for two well-formed, non-empty segments with record keys in non-decreasing order,
`MergeSST` returns without error and writes a well-formed segment whose records are a
permutation of the records of the two inputs taken together (none dropped, altered or
written twice) with keys in non-decreasing order; nothing follows the segment unless a
longer stale temporary file of the destination index was there. -/
theorem C17_merge_sorted_union (d : Dir) (i j : Nat) (rs1 rs2 : List FileRecord) (hij : i ≠ j)
    (hc1 : dirGet d (.sst i) = some (segmentOf rs1))
    (hc2 : dirGet d (.sst j) = some (segmentOf rs2))
    (h1 : rs1 ≠ []) (h2 : rs2 ≠ [])
    (hf1 : ∀ x ∈ rs1, fitsInt64 x) (hf2 : ∀ x ∈ rs2, fitsInt64 x)
    (hlen : rs1.length + rs2.length < 2 ^ 64)
    (hs1 : KeysAscending rs1) (hs2 : KeysAscending rs2) :
    ∃ d' merged junk, MergeSST d i j = some (.ok (), d')
      ∧ dirGet d' (.sst (i / 2)) = some (segmentOf merged ++ junk)
      ∧ (dirGet d (.tmp (i / 2)) = none → junk = [])
      ∧ KeysAscending merged
      ∧ merged.Perm (rs1 ++ rs2) := by
  have hm := MergeSST_segments d i j rs1 rs2 hij hc1 hc2 h1 h2 hf1 hf2 hlen
  refine ⟨_, mergeRecs rs1 rs2,
    (openCreate d (.tmp (i / 2))).1.drop (segmentOf (mergeRecs rs1 rs2)).length,
    hm.1, hm.2, ?_, keysAscending_mergeRecs rs1 rs2 hs1 hs2, perm_mergeRecs rs1 rs2⟩
  intro h
  simp only [openCreate, h, List.drop_nil]

set_option maxRecDepth 100000 in
theorem C17_merge_sorted_union_witness :
    ∃ d' merged junk, MergeSST sampleEngine.dir 0 1 = some (.ok (), d')
      ∧ dirGet d' (.sst (0 / 2)) = some (segmentOf merged ++ junk)
      ∧ (dirGet sampleEngine.dir (.tmp (0 / 2)) = none → junk = [])
      ∧ KeysAscending merged
      ∧ merged.Perm (sampleSegs 0 ++ sampleSegs 1) :=
  C17_merge_sorted_union sampleEngine.dir 0 1 (sampleSegs 0) (sampleSegs 1) (by decide)
    (by rfl) (by rfl) (by decide) (by decide) (by decide) (by decide) (by decide)
    (by unfold KeysAscending; decide) (by unfold KeysAscending; decide)

/-! ## The order of the file-system calls at the end of a merge -/

/-- A merge that returns without error went through a directory in which both inputs are
removed and the merged bytes are in the temporary file only; the directory scan of the next
start removes that file. -/
theorem MergeSST_dirStates (d d' : Dir) (i j : Nat) (h : MergeSST d i j = some (.ok (), d')) :
    ∃ d3 d4 d5, MergeSST.dirStates d i j = some [d3, d4, d5, d']
      ∧ dirGet d5 (.sst i) = none ∧ dirGet d5 (.sst j) = none
      ∧ dirGet d5 (.tmp (i / 2)) = dirGet d' (.sst (i / 2))
      ∧ dirGet (CheckAndClean d5).2 (.tmp (i / 2)) = none := by
  unfold MergeSST at h
  unfold MergeSST.dirStates
  dsimp only at h ⊢
  generalize mergeBytes (openCreate d (.sst i)).1
    (openCreate (openCreate d (.sst i)).2 (.sst j)).1 = mb at h ⊢
  generalize (openCreate (openCreate (openCreate d (.sst i)).2 (.sst j)).2 (.tmp (i / 2))) = o3
    at h ⊢
  cases mb with
  | none => cases h
  | some r =>
    obtain ⟨o, out⟩ := r
    cases o with
    | err e => cases h
    | panic m => cases h
    | ok u =>
      cases u
      dsimp only at h ⊢
      generalize dirSet o3.2 (.tmp (i / 2)) (overwrite o3.1 out) = d3 at h ⊢
      cases h4 : dirRemove d3 (.sst j) with
      | error e => rw [h4] at h; cases h
      | ok d4 =>
        rw [h4] at h
        dsimp only at h ⊢
        cases h5 : dirRemove d4 (.sst i) with
        | error e => rw [h5] at h; cases h
        | ok d5 =>
          rw [h5] at h
          dsimp only at h ⊢
          cases h6 : dirRename d5 (.tmp (i / 2)) (.sst (i / 2)) with
          | error e => rw [h6] at h; cases h
          | ok d6 =>
            rw [h6] at h
            dsimp only at h ⊢
            have hd : d6 = d' := by
              have := Option.some.inj h
              exact (Prod.mk.inj this).2
            subst hd
            have e4 := dirRemove_ok _ _ _ h4
            have e5 := dirRemove_ok _ _ _ h5
            obtain ⟨c, hc, e6⟩ := dirRename_ok _ _ _ _ h6
            refine ⟨d3, d4, d5, rfl, ?_, ?_, ?_, ?_⟩
            · rw [e5, dirGet_filter_ne, if_pos rfl]
            · rw [e5, dirGet_filter_ne, e4, dirGet_filter_ne, if_pos rfl]
              split_ifs <;> rfl
            · rw [hc, e6, dirGet_dirSet_same]
            · unfold CheckAndClean
              dsimp only
              generalize d5 = x
              induction x with
              | nil => rfl
              | cons a x ih =>
                by_cases ha : a.1.hasTmpExt = true
                · rw [List.filter_cons_of_neg (by simp [ha])]
                  exact ih
                · rw [List.filter_cons_of_pos (by simpa using ha)]
                  obtain ⟨a1, a2⟩ := a
                  have : FileName.tmp (i / 2) ≠ a1 := by
                    intro e
                    subst e
                    exact ha rfl
                  simp only [dirGet, if_neg this]
                  exact ih

set_option maxRecDepth 100000 in
/-- C18, the code at a directory of two segments: `MergeSST(0, 1)` returns without error
and its file-system calls go through these directories in order: both inputs and the
temporary file; after `os.Remove` of `SST1.sst`; after `os.Remove` of `SST0.sst`, where the
merged records are in `SST0.tmp` only; after the rename. The directory scan of a start made
at the third state deletes the temporary file and leaves no segment, so a key of the inputs
is not found after it, while a start on the two inputs finds it. -/
theorem C18_inputs_removed_before_rename :
    MergeSST sampleEngine.dir 0 1
        = some (.ok (), [(.sst 0, segmentOf (mergeRecs (sampleSegs 0) (sampleSegs 1)))])
      ∧ MergeSST.dirStates sampleEngine.dir 0 1
        = some [[(.sst 0, segmentOf (sampleSegs 0)), (.sst 1, segmentOf (sampleSegs 1)),
                  (.tmp 0, segmentOf (mergeRecs (sampleSegs 0) (sampleSegs 1)))],
                [(.sst 0, segmentOf (sampleSegs 0)),
                  (.tmp 0, segmentOf (mergeRecs (sampleSegs 0) (sampleSegs 1)))],
                [(.tmp 0, segmentOf (mergeRecs (sampleSegs 0) (sampleSegs 1)))],
                [(.sst 0, segmentOf (mergeRecs (sampleSegs 0) (sampleSegs 1)))]]
      ∧ CheckAndClean [(.tmp 0, segmentOf (mergeRecs (sampleSegs 0) (sampleSegs 1)))] = (0, [])
      ∧ ((NewKeyValueStore sourceConfig sampleEngine.dir []).Start sourceConfig).map
            (fun r => (r.1, (r.2.Get "b").1)) = some (.ok (), .ok "2")
      ∧ ((NewKeyValueStore sourceConfig
            [(.tmp 0, segmentOf (mergeRecs (sampleSegs 0) (sampleSegs 1)))] []).Start
              sourceConfig).map (fun r => (r.1, (r.2.Get "b").1))
          = some (.ok (), .err (.errorsNew "Key Not Found")) := by
  refine ⟨by rfl, by rfl, by rfl, by rfl, by rfl⟩

/-! ## Directories that hold exactly the segments below a count -/

theorem mem_names_iff (d : Dir) (f : FileName) : f ∈ d.map Prod.fst ↔ dirGet d f ≠ none := by
  induction d with
  | nil => simp [dirGet]
  | cons x d ih =>
    obtain ⟨g, c⟩ := x
    by_cases h : f = g
    · simp [dirGet, h]
    · simp only [List.map_cons, List.mem_cons, h, false_or, dirGet, if_false, ih]

theorem nodup_segmentNames (n : Nat) : ((List.range n).map FileName.sst).Nodup :=
  (List.nodup_range n).map fun _ _ h => FileName.sst.inj h

theorem exactlySegments_iff (d : Dir) (n : Nat) :
    ExactlySegments d n
      ↔ (d.map Prod.fst).Nodup ∧ ∀ f, dirGet d f ≠ none ↔ ∃ a, a < n ∧ f = FileName.sst a := by
  have hm : ∀ f, f ∈ (List.range n).map FileName.sst ↔ ∃ a, a < n ∧ f = FileName.sst a := by
    intro f
    simp only [List.mem_map, List.mem_range]
    constructor
    · rintro ⟨a, ha, rfl⟩
      exact ⟨a, ha, rfl⟩
    · rintro ⟨a, ha, rfl⟩
      exact ⟨a, ha, rfl⟩
  unfold ExactlySegments
  constructor
  · intro h
    refine ⟨h.nodup_iff.mpr (nodup_segmentNames n), fun f => ?_⟩
    rw [← mem_names_iff, h.mem_iff, hm]
  · rintro ⟨hn, hf⟩
    rw [List.perm_ext_iff_of_nodup hn (nodup_segmentNames n)]
    intro f
    rw [mem_names_iff, hf, hm]

theorem length_of_exactlySegments (d : Dir) (n : Nat) (h : ExactlySegments d n) :
    d.length = n := by
  have := h.length_eq
  simpa using this

theorem CheckAndClean_exact (d : Dir) (n : Nat) (h : ExactlySegments d n) :
    CheckAndClean d = (n, d) := by
  have hall : d.filter (fun e => !e.1.hasTmpExt) = d := by
    rw [List.filter_eq_self]
    intro e he
    have hmem : e.1 ∈ d.map Prod.fst := List.mem_map_of_mem Prod.fst he
    rw [h.mem_iff, List.mem_map] at hmem
    obtain ⟨a, _, ha⟩ := hmem
    rw [← ha]
    rfl
  unfold CheckAndClean
  rw [hall, length_of_exactlySegments d n h]

theorem names_dirSet (d : Dir) (f : FileName) (c : List Nat) :
    (dirSet d f c).map Prod.fst
      = if f ∈ d.map Prod.fst then d.map Prod.fst else d.map Prod.fst ++ [f] := by
  induction d with
  | nil => simp [dirSet]
  | cons x d ih =>
    obtain ⟨g, c'⟩ := x
    by_cases h : f = g
    · subst h
      simp [dirSet]
    · have hm : f ∈ g :: d.map Prod.fst ↔ f ∈ d.map Prod.fst := by simp [h]
      simp only [dirSet, if_neg h, List.map_cons]
      rw [ih]
      by_cases hf : f ∈ d.map Prod.fst
      · rw [if_pos hf, if_pos (hm.mpr hf)]
      · rw [if_neg hf, if_neg (fun x => hf (hm.mp x))]
        rfl

theorem nodup_dirSet (d : Dir) (f : FileName) (c : List Nat) (h : (d.map Prod.fst).Nodup) :
    ((dirSet d f c).map Prod.fst).Nodup := by
  rw [names_dirSet]
  split_ifs with hf
  · exact h
  · rw [List.nodup_append]
    refine ⟨h, List.nodup_singleton f, ?_⟩
    intro a ha hb
    rw [List.mem_singleton] at hb
    subst hb
    exact hf ha

theorem nodup_filter (d : Dir) (p : FileName × List Nat → Bool) (h : (d.map Prod.fst).Nodup) :
    ((d.filter p).map Prod.fst).Nodup :=
  List.Nodup.sublist (List.Sublist.map Prod.fst (List.filter_sublist d)) h

theorem nodup_openCreate (d : Dir) (f : FileName) (h : (d.map Prod.fst).Nodup) :
    ((openCreate d f).2.map Prod.fst).Nodup := by
  unfold openCreate
  cases dirGet d f with
  | some c => exact h
  | none => exact nodup_dirSet d f [] h

theorem nodup_mergedDir (d : Dir) (i j : Nat) (out : List Nat) (h : (d.map Prod.fst).Nodup) :
    ((mergedDir d i j out).map Prod.fst).Nodup := by
  unfold mergedDir
  dsimp only
  exact nodup_dirSet _ _ _ (nodup_filter _ _ (nodup_filter _ _ (nodup_filter _ _
    (nodup_dirSet _ _ _ (nodup_openCreate _ _ (nodup_openCreate _ _
      (nodup_openCreate _ _ h)))))))

theorem compactLoop_succ (cfg : Config) (fuel n : Nat) (d : Dir) :
    compactLoop cfg (fuel + 1) n d
      = if n > cfg.mergeThreshold then
          match compactPass n d with
          | none => none
          | some (.err e, d1) => some (.err e, d1)
          | some (.panic m, d1) => some (.panic m, d1)
          | some (.ok (), d2) => compactLoop cfg fuel (CheckAndClean d2).1 (CheckAndClean d2).2
        else some (.ok (), d) := by
  rw [compactLoop]
  unfold compactPass
  by_cases hn : n > cfg.mergeThreshold
  · rw [if_pos hn, if_pos hn]
    cases mergePairs (n + 1) n 0 d with
    | none => rfl
    | some r =>
      obtain ⟨o, d1⟩ := r
      cases o with
      | err e => rfl
      | panic m => rfl
      | ok u =>
        cases u
        dsimp only
        by_cases hodd : n % 2 = 1
        · rw [if_pos hodd, if_pos hodd]
          cases dirRename d1 (.sst (n - 1)) (.sst (n / 2)) with
          | error e => rfl
          | ok d2 => rfl
        · rw [if_neg hodd, if_neg hodd]
  · rw [if_neg hn, if_neg hn]

/-! ## One merge inside a pass -/

theorem dirGet_mergedDir_present (d : Dir) (i j : Nat) (out c1 c2 : List Nat) (g : FileName)
    (h1 : dirGet d (.sst i) = some c1) (h2 : dirGet d (.sst j) = some c2)
    (h3 : dirGet d (.tmp (i / 2)) = none) :
    dirGet (mergedDir d i j out) g
      = if g = .sst (i / 2) then some out
        else if g = .sst i ∨ g = .sst j then none else dirGet d g := by
  rw [dirGet_mergedDir, openCreate_of_dirGet d _ _ h1]
  dsimp only
  rw [openCreate_of_dirGet d _ _ h2]
  dsimp only
  rw [overwrite_fresh d _ out h3]
  by_cases h0 : g = .sst (i / 2)
  · rw [if_pos h0, if_pos h0]
  · rw [if_neg h0, if_neg h0]
    by_cases ht : g = .tmp (i / 2)
    · subst ht
      rw [if_pos (Or.inl rfl), h3]
      split_ifs <;> rfl
    · by_cases hij : g = .sst i ∨ g = .sst j
      · rw [if_pos (Or.inr hij), if_pos hij]
      · rw [if_neg hij, if_neg (by tauto)]

theorem MergeSST_present (d : Dir) (i j : Nat) (c1 c2 out : List Nat) (hij : i ≠ j)
    (h1 : dirGet d (.sst i) = some c1) (h2 : dirGet d (.sst j) = some c2)
    (hb : mergeBytes c1 c2 = some (.ok (), out)) :
    MergeSST d i j = some (.ok (), mergedDir d i j out) := by
  apply MergeSST_of_mergeBytes d i j out hij
  rw [openCreate_of_dirGet d _ _ h1]
  dsimp only
  rw [openCreate_of_dirGet d _ _ h2]
  exact hb

theorem MergeSST_ok_present (d d' : Dir) (i j : Nat) (c1 c2 : List Nat)
    (h1 : dirGet d (.sst i) = some c1) (h2 : dirGet d (.sst j) = some c2)
    (h : MergeSST d i j = some (.ok (), d')) :
    ∃ out, mergeBytes c1 c2 = some (.ok (), out) ∧ d' = mergedDir d i j out := by
  obtain ⟨out, hb, hd⟩ := MergeSST_ok d d' i j h
  rw [openCreate_of_dirGet d _ _ h1] at hb
  dsimp only at hb
  rw [openCreate_of_dirGet d _ _ h2] at hb
  exact ⟨out, hb, hd⟩

theorem MidPass.start {d : Dir} {n : Nat} (h : ExactlySegments d n) : MidPass d n 0 d := by
  rw [exactlySegments_iff] at h
  refine ⟨h.1, ?_, ?_, ?_⟩
  · intro f hf
    obtain ⟨a, ha, rfl⟩ := (h.2 f).mp hf
    exact ⟨a, rfl, Or.inr ⟨by omega, ha⟩⟩
  · intro a ha
    omega
  · intro a _ ha
    have := (h.2 (.sst a)).mpr ⟨a, ha, rfl⟩
    obtain ⟨c, hc⟩ := Option.ne_none_iff_exists'.mp this
    exact ⟨c, hc, hc⟩

theorem MidPass.present {d0 d : Dir} {n k : Nat} (h : MidPass d0 n k d) (a : Nat)
    (c : List Nat) (h1 : 2 * k ≤ a) (h2 : a < n) (hc : dirGet d0 (.sst a) = some c) :
    dirGet d (.sst a) = some c := by
  obtain ⟨c', e1, e2⟩ := h.rest a h1 h2
  rw [e1] at hc
  rw [e2, hc]

theorem MidPass.no_tmp {d0 d : Dir} {n k : Nat} (h : MidPass d0 n k d) (a : Nat) :
    dirGet d (.tmp a) = none := by
  by_contra hne
  obtain ⟨b, hb, _⟩ := h.names _ hne
  cases hb

theorem MidPass.step {d0 d : Dir} {n k : Nat} (h : MidPass d0 n k d) (hk : 2 * k + 1 < n)
    (c1 c2 out : List Nat) (h1 : dirGet d0 (.sst (2 * k)) = some c1)
    (h2 : dirGet d0 (.sst (2 * k + 1)) = some c2)
    (hb : mergeBytes c1 c2 = some (.ok (), out)) :
    MidPass d0 n (k + 1) (mergedDir d (2 * k) (2 * k + 1) out) := by
  have g1 := h.present (2 * k) c1 (le_refl _) (by omega) h1
  have g2 := h.present (2 * k + 1) c2 (by omega) hk h2
  have hdiv : 2 * k / 2 = k := by omega
  have g3 : dirGet d (.tmp (2 * k / 2)) = none := h.no_tmp _
  have key : ∀ g, dirGet (mergedDir d (2 * k) (2 * k + 1) out) g
      = if g = .sst k then some out
        else if g = .sst (2 * k) ∨ g = .sst (2 * k + 1) then none else dirGet d g := by
    intro g
    rw [dirGet_mergedDir_present d _ _ out c1 c2 g g1 g2 g3, hdiv]
  refine ⟨nodup_mergedDir _ _ _ _ h.nodup, ?_, ?_, ?_⟩
  · intro f hf
    rw [key] at hf
    by_cases f0 : f = .sst k
    · exact ⟨k, f0, Or.inl (by omega)⟩
    · rw [if_neg f0] at hf
      by_cases f1 : f = .sst (2 * k) ∨ f = .sst (2 * k + 1)
      · rw [if_pos f1] at hf
        exact absurd rfl hf
      · rw [if_neg f1] at hf
        obtain ⟨a, rfl, ha⟩ := h.names f hf
        have a1 : a ≠ 2 * k := fun e => f1 (Or.inl (by rw [e]))
        have a2 : a ≠ 2 * k + 1 := fun e => f1 (Or.inr (by rw [e]))
        exact ⟨a, rfl, by omega⟩
  · intro a ha
    by_cases hak : a = k
    · subst hak
      exact ⟨c1, c2, out, h1, h2, hb, by rw [key, if_pos rfl]⟩
    · obtain ⟨b1, b2, o, e1, e2, e3, e4⟩ := h.merged a (by omega)
      refine ⟨b1, b2, o, e1, e2, e3, ?_⟩
      have n0 : FileName.sst a ≠ .sst k := fun e => hak (FileName.sst.inj e)
      have n1 : ¬ (FileName.sst a = .sst (2 * k) ∨ FileName.sst a = .sst (2 * k + 1)) := by
        rintro (e | e)
        · have := FileName.sst.inj e
          omega
        · have := FileName.sst.inj e
          omega
      rw [key, if_neg n0, if_neg n1, e4]
  · intro a ha1 ha2
    obtain ⟨c, e1, e2⟩ := h.rest a (by omega) ha2
    refine ⟨c, e1, ?_⟩
    have n0 : FileName.sst a ≠ .sst k := fun e => by
      have := FileName.sst.inj e
      omega
    have n1 : ¬ (FileName.sst a = .sst (2 * k) ∨ FileName.sst a = .sst (2 * k + 1)) := by
      rintro (e | e)
      · have := FileName.sst.inj e
        omega
      · have := FileName.sst.inj e
        omega
    rw [key, if_neg n0, if_neg n1, e2]

/-! ## The inner loop of a pass -/

theorem mergePairs_ok (d0 : Dir) (n : Nat) :
    ∀ (fuel k : Nat) (d d' : Dir), MidPass d0 n k d → 2 * k ≤ n
      → mergePairs fuel n (2 * k) d = some (.ok (), d') → MidPass d0 n (n / 2) d' := by
  intro fuel
  induction fuel with
  | zero =>
    intro k d d' _ _ h
    rw [mergePairs] at h
    cases h
  | succ fuel ih =>
    intro k d d' hm hk h
    rw [mergePairs] at h
    by_cases hlt : 2 * k + 1 < n
    · rw [if_pos hlt] at h
      obtain ⟨c1, e1, g1⟩ := hm.rest (2 * k) (le_refl _) (by omega)
      obtain ⟨c2, e2, g2⟩ := hm.rest (2 * k + 1) (by omega) hlt
      cases hs : MergeSST d (2 * k) (2 * k + 1) with
      | none => rw [hs] at h; cases h
      | some r =>
        obtain ⟨o, d1⟩ := r
        rw [hs] at h
        cases o with
        | err e => cases h
        | panic m => cases h
        | ok u =>
          cases u
          obtain ⟨out, hb, hd⟩ := MergeSST_ok_present d d1 _ _ c1 c2 g1 g2 hs
          subst hd
          exact ih (k + 1) _ d' (hm.step hlt c1 c2 out e1 e2 hb) (by omega) h
    · rw [if_neg hlt] at h
      have hd : d = d' := (Prod.mk.inj (Option.some.inj h)).2
      have hkn : n / 2 = k := by omega
      rw [← hd, hkn]
      exact hm

theorem mergePairs_total (d0 : Dir) (n : Nat)
    (hall : ∀ a, 2 * a + 1 < n → ∃ c1 c2 out, dirGet d0 (.sst (2 * a)) = some c1
      ∧ dirGet d0 (.sst (2 * a + 1)) = some c2 ∧ mergeBytes c1 c2 = some (.ok (), out)) :
    ∀ (fuel k : Nat) (d : Dir), MidPass d0 n k d → 2 * k ≤ n → n / 2 + 1 ≤ fuel + k
      → ∃ d', mergePairs fuel n (2 * k) d = some (.ok (), d') := by
  intro fuel
  induction fuel with
  | zero =>
    intro k d _ hk hf
    omega
  | succ fuel ih =>
    intro k d hm hk hf
    rw [mergePairs]
    by_cases hlt : 2 * k + 1 < n
    · rw [if_pos hlt]
      obtain ⟨c1, c2, out, e1, e2, hb⟩ := hall k hlt
      have g1 := hm.present (2 * k) c1 (le_refl _) (by omega) e1
      have g2 := hm.present (2 * k + 1) c2 (by omega) hlt e2
      rw [MergeSST_present d _ _ c1 c2 out (by omega) g1 g2 hb]
      exact ih (k + 1) _ (hm.step hlt c1 c2 out e1 e2 hb) (by omega) (by omega)
    · rw [if_neg hlt]
      exact ⟨d, rfl⟩

/-! ## The end of a pass -/

theorem dirGet_renamed (d : Dir) (old new : FileName) (c : List Nat) (g : FileName) :
    dirGet (dirSet (d.filter fun e => e.1 ≠ old) new c) g
      = if g = new then some c else if g = old then none else dirGet d g := by
  by_cases h : g = new
  · rw [if_pos h, h, dirGet_dirSet_same]
  · rw [if_neg h, dirGet_dirSet_ne _ _ _ _ h, dirGet_filter_ne]

theorem MidPass.result_even {d0 d1 : Dir} {n : Nat} (h : MidPass d0 n (n / 2) d1)
    (he : n % 2 = 0) : PassResult d0 n d1 := by
  refine ⟨?_, ?_, ?_⟩
  · rw [exactlySegments_iff]
    refine ⟨h.nodup, fun f => ⟨fun hf => ?_, ?_⟩⟩
    · obtain ⟨a, rfl, ha⟩ := h.names f hf
      exact ⟨a, by omega, rfl⟩
    · rintro ⟨a, ha, rfl⟩
      obtain ⟨_, _, out, _, _, _, e⟩ := h.merged a (by omega)
      rw [e]
      exact Option.some_ne_none out
  · intro k hk
    exact h.merged k (by omega)
  · intro ho
    omega

theorem MidPass.result_odd {d0 d1 : Dir} {n : Nat} (h : MidPass d0 n (n / 2) d1)
    (ho : n % 2 = 1) :
    ∃ c, dirGet d1 (.sst (n - 1)) = some c
      ∧ PassResult d0 n (dirSet (d1.filter fun e => e.1 ≠ FileName.sst (n - 1))
          (.sst (n / 2)) c) := by
  obtain ⟨c, e0, e1⟩ := h.rest (n - 1) (by omega) (by omega)
  refine ⟨c, e1, ?_, ?_, ?_⟩
  · rw [exactlySegments_iff]
    refine ⟨nodup_dirSet _ _ _ (nodup_filter _ _ h.nodup), fun f => ⟨fun hf => ?_, ?_⟩⟩
    · rw [dirGet_renamed] at hf
      by_cases f0 : f = .sst (n / 2)
      · exact ⟨n / 2, by omega, f0⟩
      · rw [if_neg f0] at hf
        by_cases f1 : f = .sst (n - 1)
        · rw [if_pos f1] at hf
          exact absurd rfl hf
        · rw [if_neg f1] at hf
          obtain ⟨a, rfl, ha⟩ := h.names f hf
          have a1 : a ≠ n - 1 := fun e => f1 (by rw [e])
          exact ⟨a, by omega, rfl⟩
    · rintro ⟨a, ha, rfl⟩
      rw [dirGet_renamed]
      by_cases a0 : a = n / 2
      · rw [if_pos (by rw [a0])]
        exact Option.some_ne_none c
      · have n0 : FileName.sst a ≠ .sst (n / 2) := fun e => a0 (FileName.sst.inj e)
        have n1 : FileName.sst a ≠ .sst (n - 1) := fun e => by
          have := FileName.sst.inj e
          omega
        obtain ⟨_, _, out, _, _, _, e⟩ := h.merged a (by omega)
        rw [if_neg n0, if_neg n1, e]
        exact Option.some_ne_none out
  · intro k hk
    obtain ⟨b1, b2, out, e2, e3, e4, e5⟩ := h.merged k (by omega)
    refine ⟨b1, b2, out, e2, e3, e4, ?_⟩
    have n0 : FileName.sst k ≠ .sst (n / 2) := fun e => by
      have := FileName.sst.inj e
      omega
    have n1 : FileName.sst k ≠ .sst (n - 1) := fun e => by
      have := FileName.sst.inj e
      omega
    rw [dirGet_renamed, if_neg n0, if_neg n1, e5]
  · intro _
    rw [dirGet_renamed, if_pos rfl, e0]

theorem compactPass_of_mergePairs (n : Nat) (d d1 : Dir)
    (h : mergePairs (n + 1) n 0 d = some (.ok (), d1)) :
    compactPass n d
      = if n % 2 = 1 then
          match dirRename d1 (.sst (n - 1)) (.sst (n / 2)) with
          | .error e => some (.err e, d1)
          | .ok d2 => some (.ok (), d2)
        else some (.ok (), d1) := by
  unfold compactPass
  rw [h]

theorem mergePairs_of_compactPass (n : Nat) (d d2 : Dir)
    (h : compactPass n d = some (.ok (), d2)) :
    ∃ d1, mergePairs (n + 1) n 0 d = some (.ok (), d1) := by
  unfold compactPass at h
  cases hm : mergePairs (n + 1) n 0 d with
  | none => rw [hm] at h; cases h
  | some r =>
    obtain ⟨o, d1⟩ := r
    rw [hm] at h
    cases o with
    | err e => cases h
    | panic m => cases h
    | ok u =>
      cases u
      exact ⟨d1, rfl⟩

/-- A pass that starts on exactly the segments below `n` and returns without error leaves
exactly the segments below `(n + 1) / 2`, merged pairwise in index order. -/
theorem compactPass_ok (d d2 : Dir) (n : Nat) (h : ExactlySegments d n)
    (hc : compactPass n d = some (.ok (), d2)) : PassResult d n d2 := by
  obtain ⟨d1, hm⟩ := mergePairs_of_compactPass n d d2 hc
  have hmid := mergePairs_ok d n (n + 1) 0 d d1 (MidPass.start h) (by omega) hm
  rw [compactPass_of_mergePairs n d d1 hm] at hc
  by_cases ho : n % 2 = 1
  · rw [if_pos ho] at hc
    obtain ⟨c, e1, hr⟩ := hmid.result_odd ho
    rw [dirRename_of_dirGet d1 _ _ c e1] at hc
    have hd := (Prod.mk.inj (Option.some.inj hc)).2
    rw [← hd]
    exact hr
  · rw [if_neg ho] at hc
    have hd := (Prod.mk.inj (Option.some.inj hc)).2
    rw [← hd]
    exact hmid.result_even (by omega)

/-- A pass on exactly the segments below `n` returns without error when each merge of a
pair of its segments does. -/
theorem compactPass_total (d : Dir) (n : Nat) (h : ExactlySegments d n)
    (hall : ∀ a, 2 * a + 1 < n → ∃ c1 c2 out, dirGet d (.sst (2 * a)) = some c1
      ∧ dirGet d (.sst (2 * a + 1)) = some c2 ∧ mergeBytes c1 c2 = some (.ok (), out)) :
    ∃ d2, compactPass n d = some (.ok (), d2) := by
  obtain ⟨d1, hm⟩ := mergePairs_total d n hall (n + 1) 0 d (MidPass.start h) (by omega)
    (by omega)
  have hmid := mergePairs_ok d n (n + 1) 0 d d1 (MidPass.start h) (by omega) hm
  rw [compactPass_of_mergePairs n d d1 hm]
  by_cases ho : n % 2 = 1
  · rw [if_pos ho]
    obtain ⟨c, e1, _⟩ := hmid.result_odd ho
    rw [dirRename_of_dirGet d1 _ _ c e1]
    exact ⟨_, rfl⟩
  · rw [if_neg ho]
    exact ⟨_, rfl⟩

/-! ## The loop of compaction on a directory of contiguous segments -/

theorem compactLoop_stuck (cfg : Config) (h0 : cfg.mergeThreshold = 0) :
    ∀ (fuel : Nat) (d : Dir), ExactlySegments d 1 → compactLoop cfg fuel 1 d = none := by
  intro fuel
  induction fuel with
  | zero =>
    intro d _
    rfl
  | succ fuel ih =>
    intro d h
    obtain ⟨d2, hp⟩ := compactPass_total d 1 h (fun a ha => by omega)
    have pr := compactPass_ok d d2 1 h hp
    rw [compactLoop_succ, if_pos (by omega), hp]
    dsimp only
    rw [CheckAndClean_exact d2 _ pr.exact]
    exact ih d2 pr.exact

/-- On a directory of contiguous segments the result of the loop does not depend on the
bound on its number of passes, once the bound exceeds the segment count. -/
theorem compactLoop_fuel (cfg : Config) :
    ∀ (fuel n : Nat) (d : Dir) (r : Outcome Unit × Dir), ExactlySegments d n
      → compactLoop cfg fuel n d = some r
      → ∀ fuel', n + 1 ≤ fuel' → compactLoop cfg fuel' n d = some r := by
  intro fuel
  induction fuel with
  | zero =>
    intro n d r _ h
    rw [compactLoop] at h
    cases h
  | succ fuel ih =>
    intro n d r hE h fuel' hf
    obtain ⟨f', rfl⟩ : ∃ f', fuel' = f' + 1 := ⟨fuel' - 1, by omega⟩
    rw [compactLoop_succ] at h ⊢
    by_cases hn : n > cfg.mergeThreshold
    · rw [if_pos hn] at h ⊢
      cases hp : compactPass n d with
      | none => rw [hp] at h; cases h
      | some x =>
        obtain ⟨o, d2⟩ := x
        rw [hp] at h
        cases o with
        | err e => exact h
        | panic m => exact h
        | ok u =>
          cases u
          dsimp only at h ⊢
          have pr := compactPass_ok d d2 n hE hp
          rw [CheckAndClean_exact d2 _ pr.exact] at h ⊢
          dsimp only at h ⊢
          by_cases h1 : n = 1
          · subst h1
            rw [compactLoop_stuck cfg (by omega) fuel d2 pr.exact] at h
            cases h
          · exact ih _ d2 r pr.exact h f' (by omega)
    · rw [if_neg hn] at h ⊢
      exact h

theorem compactLoop_exact (cfg : Config) :
    ∀ (fuel n : Nat) (d d' : Dir), ExactlySegments d n
      → compactLoop cfg fuel n d = some (.ok (), d')
      → ∃ m, m ≤ cfg.mergeThreshold ∧ ExactlySegments d' m := by
  intro fuel
  induction fuel with
  | zero =>
    intro n d d' _ h
    rw [compactLoop] at h
    cases h
  | succ fuel ih =>
    intro n d d' hE h
    rw [compactLoop_succ] at h
    by_cases hn : n > cfg.mergeThreshold
    · rw [if_pos hn] at h
      cases hp : compactPass n d with
      | none => rw [hp] at h; cases h
      | some x =>
        obtain ⟨o, d2⟩ := x
        rw [hp] at h
        cases o with
        | err e => cases h
        | panic m => cases h
        | ok u =>
          cases u
          dsimp only at h
          have pr := compactPass_ok d d2 n hE hp
          rw [CheckAndClean_exact d2 _ pr.exact] at h
          exact ih _ d2 d' pr.exact h
    · rw [if_neg hn] at h
      have hd := (Prod.mk.inj (Option.some.inj h)).2
      rw [← hd]
      exact ⟨n, by omega, hE⟩

theorem SSTCompaction_exact (cfg : Config) (d : Dir) (n : Nat) (h : ExactlySegments d n) :
    SSTCompaction cfg d = compactLoop cfg (n + 1) n d := by
  unfold SSTCompaction
  rw [CheckAndClean_exact d n h]

theorem no_tmp_of_exactlySegments (d : Dir) (n : Nat) (h : ExactlySegments d n) :
    ∀ e ∈ d, e.1.hasTmpExt = false := by
  intro e he
  have hmem : e.1 ∈ d.map Prod.fst := List.mem_map_of_mem Prod.fst he
  rw [h.mem_iff, List.mem_map] at hmem
  obtain ⟨a, _, ha⟩ := hmem
  rw [← ha]
  rfl


/-! ## Compaction of well-formed segments -/

theorem sum_range_pairs (f : Nat → Nat) :
    ∀ m, ((List.range (2 * m)).map f).sum
      = ((List.range m).map fun k => f (2 * k) + f (2 * k + 1)).sum := by
  intro m
  induction m with
  | zero => rfl
  | succ m ih =>
    have e : 2 * (m + 1) = 2 * m + 1 + 1 := by omega
    rw [e, List.range_succ, List.range_succ, List.range_succ]
    simp only [List.map_append, List.sum_append, List.map_cons, List.map_nil, List.sum_cons,
      List.sum_nil, ih]
    omega

theorem le_sum_range (f : Nat → Nat) :
    ∀ n a, a < n → f a ≤ ((List.range n).map f).sum := by
  intro n
  induction n with
  | zero => intro a ha; omega
  | succ n ih =>
    intro a ha
    rw [List.range_succ]
    simp only [List.map_append, List.sum_append, List.map_cons, List.map_nil, List.sum_cons,
      List.sum_nil]
    by_cases h : a = n
    · subst h
      omega
    · have := ih a (by omega)
      omega

theorem sum_map_range_congr (f g : Nat → Nat) :
    ∀ n, (∀ a, a < n → f a = g a)
      → ((List.range n).map f).sum = ((List.range n).map g).sum := by
  intro n
  induction n with
  | zero => intro _; rfl
  | succ n ih =>
    intro h
    rw [List.range_succ]
    simp only [List.map_append, List.sum_append, List.map_cons, List.map_nil, List.sum_cons,
      List.sum_nil]
    rw [ih (fun a ha => h a (by omega)), h n (by omega)]

theorem length_passSegs (n : Nat) (segs : Nat → List FileRecord) (k : Nat) :
    (passSegs n segs k).length
      = if 2 * k + 1 < n then (segs (2 * k)).length + (segs (2 * k + 1)).length
        else (segs (2 * k)).length := by
  unfold passSegs
  split_ifs
  · exact length_mergeRecs _ _
  · rfl

theorem sum_passSegs (n : Nat) (segs : Nat → List FileRecord) :
    ((List.range ((n + 1) / 2)).map fun k => (passSegs n segs k).length).sum
      = ((List.range n).map fun a => (segs a).length).sum := by
  obtain ⟨m, hm⟩ : ∃ m, n = 2 * m ∨ n = 2 * m + 1 := ⟨n / 2, by omega⟩
  rcases hm with hm | hm
  · subst hm
    have e : (2 * m + 1) / 2 = m := by omega
    rw [e, sum_range_pairs (fun a => (segs a).length) m]
    apply sum_map_range_congr
    intro a ha
    rw [length_passSegs, if_pos (by omega)]
  · subst hm
    have e : (2 * m + 1 + 1) / 2 = m + 1 := by omega
    rw [e, List.range_succ, List.range_succ]
    simp only [List.map_append, List.sum_append, List.map_cons, List.map_nil, List.sum_cons,
      List.sum_nil]
    rw [sum_range_pairs (fun a => (segs a).length) m,
      sum_map_range_congr (fun k => (passSegs (2 * m + 1) segs k).length)
        (fun k => (segs (2 * k)).length + (segs (2 * k + 1)).length) m
        (fun a ha => by
          dsimp only
          rw [length_passSegs, if_pos (by omega)]),
      length_passSegs, if_neg (by omega)]

theorem HoldsSegments.pair_length {d : Dir} {n : Nat} {segs : Nat → List FileRecord}
    (h : HoldsSegments d n segs) (k : Nat) (hk : 2 * k + 1 < n) :
    (segs (2 * k)).length + (segs (2 * k + 1)).length < 2 ^ 64 := by
  have h1 := le_sum_range (fun k => (passSegs n segs k).length) ((n + 1) / 2) k (by omega)
  rw [sum_passSegs] at h1
  dsimp only at h1
  rw [length_passSegs, if_pos hk] at h1
  exact lt_of_le_of_lt h1 h.total

theorem length_segmentOf_nil : (segmentOf []).length = 24 := by
  simp only [segmentOf, List.length_append, length_leBytes]
  rfl

theorem firstCursor_header_only (n : Nat) : firstCursor (segmentOf []) n = .err .EOF := by
  have r := readFull_end (segmentOf []) 8 (by decide)
  rw [length_segmentOf_nil] at r
  unfold firstCursor
  rw [r]

theorem mergeBytes_of_first_err (c1 c2 : List Nat) (v n1 n2 : Nat) (e : GoError)
    (hh : readHeaders c1 c2 = .ok (v, n1, n2)) (hf1 : firstCursor c1 n1 = .err e) :
    mergeBytes c1 c2
      = some (.err e, leBytes 8 magicNumber ++ leBytes 8 v ++ leBytes 8 ((n1 + n2) % 2 ^ 64)) := by
  unfold mergeBytes
  rw [hh]
  dsimp only
  rw [hf1]

theorem mergeBytes_of_second_err (c1 c2 : List Nat) (v n1 n2 : Nat) (k1 : Cursor) (e : GoError)
    (hh : readHeaders c1 c2 = .ok (v, n1, n2)) (hf1 : firstCursor c1 n1 = .ok k1)
    (hf2 : firstCursor c2 n2 = .err e) :
    mergeBytes c1 c2
      = some (.err e, leBytes 8 magicNumber ++ leBytes 8 v ++ leBytes 8 ((n1 + n2) % 2 ^ 64)) := by
  unfold mergeBytes
  rw [hh]
  dsimp only
  rw [hf1]
  dsimp only
  rw [hf2]

/-- Merging with a segment that holds no record fails with `io.EOF` at the read of the
first record. -/
theorem mergeBytes_header_only (rs1 rs2 : List FileRecord)
    (hf1 : ∀ x ∈ rs1, fitsInt64 x) (hl1 : rs1.length < 2 ^ 64) (hl2 : rs2.length < 2 ^ 64)
    (h : rs1 = [] ∨ rs2 = []) :
    ∃ out, mergeBytes (segmentOf rs1) (segmentOf rs2) = some (.err .EOF, out) := by
  have hu1 := readU64LE_segment rs1 hl1
  have hu2 := readU64LE_segment rs2 hl2
  have hh := readHeaders_of _ _ sysVers sysVers _ _ hu1.1 hu2.1 hu1.2.1 hu2.2.1 rfl rfl
    hu1.2.2 hu2.2.2
  cases rs1 with
  | nil =>
    exact ⟨_, mergeBytes_of_first_err _ _ _ _ _ _ hh (firstCursor_header_only _)⟩
  | cons r1 rest1 =>
    obtain ⟨k1, hk1, _, _⟩ := firstCursor_segment r1 rest1 _ rfl hf1
    have h2 : rs2 = [] := by
      rcases h with h | h
      · cases h
      · exact h
    subst h2
    exact ⟨_, mergeBytes_of_second_err _ _ _ _ _ k1 _ hh hk1 (firstCursor_header_only _)⟩

theorem HoldsSegments.length_lt {d : Dir} {n : Nat} {segs : Nat → List FileRecord}
    (h : HoldsSegments d n segs) (a : Nat) (ha : a < n) : (segs a).length < 2 ^ 64 :=
  lt_of_le_of_lt (le_sum_range (fun a => (segs a).length) n a ha) h.total

theorem HoldsSegments.merge {d : Dir} {n : Nat} {segs : Nat → List FileRecord}
    (h : HoldsSegments d n segs) (k : Nat) (hk : 2 * k + 1 < n)
    (h1 : segs (2 * k) ≠ []) (h2 : segs (2 * k + 1) ≠ []) :
    mergeBytes (segmentOf (segs (2 * k))) (segmentOf (segs (2 * k + 1)))
      = some (.ok (), segmentOf (mergeRecs (segs (2 * k)) (segs (2 * k + 1)))) :=
  mergeBytes_segments _ _ h1 h2 (h.fits (2 * k) (by omega)) (h.fits (2 * k + 1) hk)
    (h.pair_length k hk)

theorem HoldsSegments.merge_returns {d : Dir} {n : Nat} {segs : Nat → List FileRecord}
    (h : HoldsSegments d n segs) (k : Nat) (hk : 2 * k + 1 < n) :
    ∃ x, mergeBytes (segmentOf (segs (2 * k))) (segmentOf (segs (2 * k + 1))) = some x := by
  by_cases h1 : segs (2 * k) = []
  · obtain ⟨out, e⟩ := mergeBytes_header_only _ _ (h.fits (2 * k) (by omega))
      (h.length_lt (2 * k) (by omega)) (h.length_lt (2 * k + 1) hk) (Or.inl h1)
    exact ⟨_, e⟩
  · by_cases h2 : segs (2 * k + 1) = []
    · obtain ⟨out, e⟩ := mergeBytes_header_only _ _ (h.fits (2 * k) (by omega))
        (h.length_lt (2 * k) (by omega)) (h.length_lt (2 * k + 1) hk) (Or.inr h2)
      exact ⟨_, e⟩
    · exact ⟨_, h.merge k hk h1 h2⟩

theorem HoldsSegments.merge_ok {d : Dir} {n : Nat} {segs : Nat → List FileRecord}
    (h : HoldsSegments d n segs) (k : Nat) (hk : 2 * k + 1 < n) (out : List Nat)
    (hb : mergeBytes (segmentOf (segs (2 * k))) (segmentOf (segs (2 * k + 1)))
      = some (.ok (), out)) :
    out = segmentOf (mergeRecs (segs (2 * k)) (segs (2 * k + 1))) := by
  by_cases h1 : segs (2 * k) = []
  · obtain ⟨o, e⟩ := mergeBytes_header_only _ _ (h.fits (2 * k) (by omega))
      (h.length_lt (2 * k) (by omega)) (h.length_lt (2 * k + 1) hk) (Or.inl h1)
    rw [e] at hb
    cases hb
  · by_cases h2 : segs (2 * k + 1) = []
    · obtain ⟨o, e⟩ := mergeBytes_header_only _ _ (h.fits (2 * k) (by omega))
        (h.length_lt (2 * k) (by omega)) (h.length_lt (2 * k + 1) hk) (Or.inr h2)
      rw [e] at hb
      cases hb
    · rw [h.merge k hk h1 h2] at hb
      exact ((Prod.mk.inj (Option.some.inj hb)).2).symm

/-- A pass over well-formed segments that returns without error leaves well-formed
segments, merged pairwise. -/
theorem HoldsSegments.of_pass {d d2 : Dir} {n : Nat} {segs : Nat → List FileRecord}
    (h : HoldsSegments d n segs) (hp : compactPass n d = some (.ok (), d2)) :
    HoldsSegments d2 ((n + 1) / 2) (passSegs n segs) := by
  have pr := compactPass_ok d d2 n h.exact hp
  refine ⟨pr.exact, ?_, ?_, ?_⟩
  · intro k hk
    by_cases hlt : 2 * k + 1 < n
    · obtain ⟨c1, c2, out, e1, e2, e3, e4⟩ := pr.merged k hlt
      rw [h.content _ (by omega)] at e1
      rw [h.content _ hlt] at e2
      rw [← Option.some.inj e1, ← Option.some.inj e2] at e3
      rw [e4, h.merge_ok k hlt out e3]
      unfold passSegs
      rw [if_pos hlt]
    · have e : n - 1 = 2 * k := by omega
      have e2 : n / 2 = k := by omega
      have ht := pr.tail (by omega)
      rw [e, e2, h.content _ (by omega)] at ht
      rw [ht]
      unfold passSegs
      rw [if_neg hlt]
  · intro k hk r hr
    unfold passSegs at hr
    by_cases hlt : 2 * k + 1 < n
    · rw [if_pos hlt] at hr
      rcases mem_mergeRecs _ _ r hr with hr | hr
      · exact h.fits _ (by omega) r hr
      · exact h.fits _ hlt r hr
    · rw [if_neg hlt] at hr
      exact h.fits _ (by omega) r hr
  · rw [sum_passSegs]
    exact h.total

theorem passSegs_nonempty (n : Nat) (segs : Nat → List FileRecord)
    (hne : ∀ a, a < n → segs a ≠ []) :
    ∀ k, k < (n + 1) / 2 → passSegs n segs k ≠ [] := by
  intro k hk
  unfold passSegs
  by_cases hlt : 2 * k + 1 < n
  · rw [if_pos hlt]
    intro hnil
    have hl := length_mergeRecs (segs (2 * k)) (segs (2 * k + 1))
    rw [hnil] at hl
    have := List.length_pos.mpr (hne (2 * k) (by omega))
    simp only [List.length_nil] at hl
    omega
  · rw [if_neg hlt]
    exact hne _ (by omega)

/-- A pass over well-formed segments that hold at least one record each returns without
error. -/
theorem HoldsSegments.pass_ok {d : Dir} {n : Nat} {segs : Nat → List FileRecord}
    (h : HoldsSegments d n segs) (hne : ∀ a, a < n → segs a ≠ []) :
    ∃ d2, compactPass n d = some (.ok (), d2) :=
  compactPass_total d n h.exact (fun a ha =>
    ⟨_, _, _, h.content _ (by omega), h.content _ ha,
      h.merge a ha (hne _ (by omega)) (hne _ ha)⟩)

/-! ## Every pass returns -/

theorem MergeSST_returns (d : Dir) (i j : Nat) (x : Outcome Unit × List Nat)
    (hb : mergeBytes (openCreate d (.sst i)).1 (openCreate (openCreate d (.sst i)).2 (.sst j)).1
      = some x) :
    ∃ y, MergeSST d i j = some y := by
  unfold MergeSST
  dsimp only
  rw [hb]
  obtain ⟨o, out⟩ := x
  cases o with
  | err e => exact ⟨_, rfl⟩
  | panic m => exact ⟨_, rfl⟩
  | ok u =>
    cases u
    dsimp only
    generalize dirSet (openCreate (openCreate (openCreate d (.sst i)).2 (.sst j)).2
        (.tmp (i / 2))).2 (.tmp (i / 2))
        (overwrite (openCreate (openCreate (openCreate d (.sst i)).2 (.sst j)).2
          (.tmp (i / 2))).1 out) = d3
    cases dirRemove d3 (.sst j) with
    | error e => exact ⟨_, rfl⟩
    | ok d4 =>
      dsimp only
      cases dirRemove d4 (.sst i) with
      | error e => exact ⟨_, rfl⟩
      | ok d5 =>
        dsimp only
        cases dirRename d5 (.tmp (i / 2)) (.sst (i / 2)) with
        | error e => exact ⟨_, rfl⟩
        | ok d6 => exact ⟨_, rfl⟩

theorem mergePairs_returns (d0 : Dir) (n : Nat)
    (hall : ∀ a, 2 * a + 1 < n → ∃ c1 c2 x, dirGet d0 (.sst (2 * a)) = some c1
      ∧ dirGet d0 (.sst (2 * a + 1)) = some c2 ∧ mergeBytes c1 c2 = some x) :
    ∀ (fuel k : Nat) (d : Dir), MidPass d0 n k d → 2 * k ≤ n → n / 2 + 1 ≤ fuel + k
      → ∃ y, mergePairs fuel n (2 * k) d = some y := by
  intro fuel
  induction fuel with
  | zero =>
    intro k d _ hk hf
    omega
  | succ fuel ih =>
    intro k d hm hk hf
    rw [mergePairs]
    by_cases hlt : 2 * k + 1 < n
    · rw [if_pos hlt]
      obtain ⟨c1, c2, x, e1, e2, hb⟩ := hall k hlt
      have g1 := hm.present (2 * k) c1 (le_refl _) (by omega) e1
      have g2 := hm.present (2 * k + 1) c2 (by omega) hlt e2
      have hb2 : mergeBytes (openCreate d (.sst (2 * k))).1
          (openCreate (openCreate d (.sst (2 * k))).2 (.sst (2 * k + 1))).1 = some x := by
        rw [openCreate_of_dirGet d _ _ g1]
        dsimp only
        rw [openCreate_of_dirGet d _ _ g2]
        exact hb
      obtain ⟨y, hy⟩ := MergeSST_returns d _ _ x hb2
      obtain ⟨o, d1⟩ := y
      cases o with
      | err e => rw [hy]; exact ⟨_, rfl⟩
      | panic m => rw [hy]; exact ⟨_, rfl⟩
      | ok u =>
        cases u
        obtain ⟨out, hbo, hd⟩ := MergeSST_ok_present d d1 _ _ c1 c2 g1 g2 hy
        rw [hy]
        dsimp only
        subst hd
        exact ih (k + 1) _ (hm.step hlt c1 c2 out e1 e2 hbo) (by omega) (by omega)
    · rw [if_neg hlt]
      exact ⟨_, rfl⟩

theorem compactPass_returns (d : Dir) (n : Nat) (h : ExactlySegments d n)
    (hall : ∀ a, 2 * a + 1 < n → ∃ c1 c2 x, dirGet d (.sst (2 * a)) = some c1
      ∧ dirGet d (.sst (2 * a + 1)) = some c2 ∧ mergeBytes c1 c2 = some x) :
    ∃ y, compactPass n d = some y := by
  obtain ⟨y, hm⟩ := mergePairs_returns d n hall (n + 1) 0 d (MidPass.start h) (by omega)
    (by omega)
  obtain ⟨o, d1⟩ := y
  cases o with
  | err e =>
    unfold compactPass
    rw [hm]
    exact ⟨_, rfl⟩
  | panic m =>
    unfold compactPass
    rw [hm]
    exact ⟨_, rfl⟩
  | ok u =>
    cases u
    have hmid := mergePairs_ok d n (n + 1) 0 d d1 (MidPass.start h) (by omega) hm
    rw [compactPass_of_mergePairs n d d1 hm]
    by_cases ho : n % 2 = 1
    · rw [if_pos ho]
      obtain ⟨c, e1, _⟩ := hmid.result_odd ho
      rw [dirRename_of_dirGet d1 _ _ c e1]
      exact ⟨_, rfl⟩
    · rw [if_neg ho]
      exact ⟨_, rfl⟩

theorem HoldsSegments.pass_returns {d : Dir} {n : Nat} {segs : Nat → List FileRecord}
    (h : HoldsSegments d n segs) : ∃ y, compactPass n d = some y :=
  compactPass_returns d n h.exact (fun a ha =>
    let ⟨x, hx⟩ := h.merge_returns a ha
    ⟨_, _, x, h.content _ (by omega), h.content _ ha, hx⟩)

/-- On well-formed segments, with a merge threshold of at least one, the loop returns, and
with the same result for every bound on its number of passes above the segment count; the
result is not an error when every segment holds at least one record. -/
theorem compactLoop_segments (cfg : Config) (hthr : 1 ≤ cfg.mergeThreshold) :
    ∀ (n : Nat) (d : Dir) (segs : Nat → List FileRecord), HoldsSegments d n segs
      → ∃ r, (∀ fuel, n + 1 ≤ fuel → compactLoop cfg fuel n d = some r)
        ∧ ((∀ a, a < n → segs a ≠ []) → r.1 = .ok ()) := by
  intro n
  induction n using Nat.strong_induction_on with
  | _ n ih =>
    intro d segs h
    by_cases hn : n > cfg.mergeThreshold
    · obtain ⟨y, hp⟩ := h.pass_returns
      obtain ⟨o, d2⟩ := y
      cases o with
      | err e =>
        refine ⟨(.err e, d2), ?_, ?_⟩
        · intro fuel hf
          obtain ⟨f, rfl⟩ : ∃ f, fuel = f + 1 := ⟨fuel - 1, by omega⟩
          rw [compactLoop_succ, if_pos hn, hp]
        · intro hne
          obtain ⟨d3, hp3⟩ := h.pass_ok hne
          rw [hp3] at hp
          cases hp
      | panic m =>
        refine ⟨(.panic m, d2), ?_, ?_⟩
        · intro fuel hf
          obtain ⟨f, rfl⟩ : ∃ f, fuel = f + 1 := ⟨fuel - 1, by omega⟩
          rw [compactLoop_succ, if_pos hn, hp]
        · intro hne
          obtain ⟨d3, hp3⟩ := h.pass_ok hne
          rw [hp3] at hp
          cases hp
      | ok u =>
        cases u
        have h2 := h.of_pass hp
        obtain ⟨r, hrun, hok⟩ := ih ((n + 1) / 2) (by omega) d2 _ h2
        refine ⟨r, ?_, ?_⟩
        · intro fuel hf
          obtain ⟨f, rfl⟩ : ∃ f, fuel = f + 1 := ⟨fuel - 1, by omega⟩
          rw [compactLoop_succ, if_pos hn, hp]
          dsimp only
          rw [CheckAndClean_exact d2 _ h2.exact]
          exact hrun f (by omega)
        · intro hne
          exact hok (passSegs_nonempty n segs hne)
    · refine ⟨(.ok (), d), ?_, fun _ => rfl⟩
      intro fuel hf
      obtain ⟨f, rfl⟩ : ∃ f, fuel = f + 1 := ⟨fuel - 1, by omega⟩
      rw [compactLoop_succ, if_neg hn]

/-- C19: on a directory that holds exactly `SST0.sst` .. `SST{n-1}.sst`, all well-formed
segments, and with a merge threshold of at least one (it is 10 in the source),
`SSTCompaction` returns. With `n` not above the threshold it returns the directory
unchanged: no merge and no rename. With `n` above the threshold, `(n + 1) / 2` is less than
`n`, and a pass that returns without error leaves exactly the segments below `(n + 1) / 2`,
again well-formed; the rest of the run is the compaction of that directory, so the same
holds for each later pass. When every segment holds at least one record, the pass and the
compaction return without error, and every segment after the pass holds at least one
record. -/
theorem C19_compaction_terminates (cfg : Config) (d : Dir) (n : Nat)
    (segs : Nat → List FileRecord) (hthr : 1 ≤ cfg.mergeThreshold)
    (h : HoldsSegments d n segs) :
    (∃ r, SSTCompaction cfg d = some r)
      ∧ (n ≤ cfg.mergeThreshold → SSTCompaction cfg d = some (.ok (), d))
      ∧ (cfg.mergeThreshold < n → (n + 1) / 2 < n
          ∧ ∀ d2, compactPass n d = some (.ok (), d2)
            → HoldsSegments d2 ((n + 1) / 2) (passSegs n segs)
              ∧ SSTCompaction cfg d = SSTCompaction cfg d2)
      ∧ ((∀ a, a < n → segs a ≠ [])
          → (∃ d', SSTCompaction cfg d = some (.ok (), d'))
            ∧ (∃ d2, compactPass n d = some (.ok (), d2))
            ∧ ∀ k, k < (n + 1) / 2 → passSegs n segs k ≠ []) := by
  obtain ⟨r, hrun, hok⟩ := compactLoop_segments cfg hthr n d segs h
  rw [SSTCompaction_exact cfg d n h.exact]
  refine ⟨⟨r, hrun _ (le_refl _)⟩, ?_, ?_, ?_⟩
  · intro hn
    rw [compactLoop_succ, if_neg (by omega)]
  · intro hn
    refine ⟨by omega, ?_⟩
    intro d2 hp
    have h2 := h.of_pass hp
    obtain ⟨r2, hrun2, _⟩ := compactLoop_segments cfg hthr _ d2 _ h2
    refine ⟨h2, ?_⟩
    rw [SSTCompaction_exact cfg d2 _ h2.exact, compactLoop_succ, if_pos hn, hp]
    dsimp only
    rw [CheckAndClean_exact d2 _ h2.exact, hrun2 n (by omega), hrun2 _ (le_refl _)]
  · intro hne
    refine ⟨?_, h.pass_ok hne, passSegs_nonempty n segs hne⟩
    obtain ⟨o, d'⟩ := r
    have := hok hne
    dsimp only at this
    subst this
    exact ⟨d', hrun _ (le_refl _)⟩

set_option maxRecDepth 100000 in
theorem C19_compaction_terminates_witness :
    (∃ r, SSTCompaction smallConfig threeSegments = some r)
      ∧ (3 ≤ smallConfig.mergeThreshold
          → SSTCompaction smallConfig threeSegments = some (.ok (), threeSegments))
      ∧ (smallConfig.mergeThreshold < 3 → (3 + 1) / 2 < 3
          ∧ ∀ d2, compactPass 3 threeSegments = some (.ok (), d2)
            → HoldsSegments d2 ((3 + 1) / 2) (passSegs 3 threeSegs)
              ∧ SSTCompaction smallConfig threeSegments = SSTCompaction smallConfig d2)
      ∧ ((∀ a, a < 3 → threeSegs a ≠ [])
          → (∃ d', SSTCompaction smallConfig threeSegments = some (.ok (), d'))
            ∧ (∃ d2, compactPass 3 threeSegments = some (.ok (), d2))
            ∧ ∀ k, k < (3 + 1) / 2 → passSegs 3 threeSegs k ≠ []) :=
  C19_compaction_terminates smallConfig threeSegments 3 threeSegs (by decide)
    ⟨by decide, by decide, by decide, by decide⟩

/-- C20: from a directory that holds exactly `SST0.sst` .. `SST{n-1}.sst`, a compaction that
returns without error leaves a directory that holds exactly `SST0.sst` .. `SST{m-1}.sst` for
some `m` not above the merge threshold, and no file with the temporary extension. With `n`
not above the threshold the directory is unchanged. Otherwise the first pass returns
without error and leaves exactly the segments below `(n + 1) / 2`, segment `k` being the
merge of the segments `2k` and `2k+1` and, for odd `n`, segment `n / 2` being the former
last segment `n - 1`; the rest of the run is the compaction of that directory, to which the
same applies. -/
theorem C20_compaction_contiguous_names (cfg : Config) (d d' : Dir) (n : Nat)
    (h : ExactlySegments d n) (hc : SSTCompaction cfg d = some (.ok (), d')) :
    (∃ m, m ≤ cfg.mergeThreshold ∧ ExactlySegments d' m)
      ∧ (∀ e ∈ d', e.1.hasTmpExt = false)
      ∧ (n ≤ cfg.mergeThreshold → d' = d)
      ∧ (cfg.mergeThreshold < n → ∃ d2, compactPass n d = some (.ok (), d2)
          ∧ PassResult d n d2 ∧ SSTCompaction cfg d2 = some (.ok (), d')) := by
  rw [SSTCompaction_exact cfg d n h] at hc
  obtain ⟨m, hm, hE⟩ := compactLoop_exact cfg (n + 1) n d d' h hc
  refine ⟨⟨m, hm, hE⟩, no_tmp_of_exactlySegments d' m hE, ?_, ?_⟩
  · intro hn
    rw [compactLoop_succ, if_neg (by omega)] at hc
    exact ((Prod.mk.inj (Option.some.inj hc)).2).symm
  · intro hn
    rw [compactLoop_succ, if_pos hn] at hc
    cases hp : compactPass n d with
    | none => rw [hp] at hc; cases hc
    | some x =>
      obtain ⟨o, d2⟩ := x
      rw [hp] at hc
      cases o with
      | err e => cases hc
      | panic msg => cases hc
      | ok u =>
        cases u
        dsimp only at hc
        have pr := compactPass_ok d d2 n h hp
        rw [CheckAndClean_exact d2 _ pr.exact] at hc
        dsimp only at hc
        refine ⟨d2, rfl, pr, ?_⟩
        rw [SSTCompaction_exact cfg d2 _ pr.exact]
        exact compactLoop_fuel cfg n _ d2 _ pr.exact hc _ (le_refl _)

set_option maxRecDepth 100000 in
theorem C20_compaction_contiguous_names_witness :
    (∃ m, m ≤ smallConfig.mergeThreshold
        ∧ ExactlySegments
            [(.sst 0, segmentOf (mergeRecs (mergeRecs (threeSegs 0) (threeSegs 1))
              (threeSegs 2)))] m)
      ∧ (∀ e ∈ [(FileName.sst 0, segmentOf (mergeRecs (mergeRecs (threeSegs 0) (threeSegs 1))
              (threeSegs 2)))], e.1.hasTmpExt = false)
      ∧ (3 ≤ smallConfig.mergeThreshold
          → [(FileName.sst 0, segmentOf (mergeRecs (mergeRecs (threeSegs 0) (threeSegs 1))
              (threeSegs 2)))] = threeSegments)
      ∧ (smallConfig.mergeThreshold < 3 → ∃ d2, compactPass 3 threeSegments = some (.ok (), d2)
          ∧ PassResult threeSegments 3 d2
          ∧ SSTCompaction smallConfig d2
            = some (.ok (), [(.sst 0, segmentOf (mergeRecs (mergeRecs (threeSegs 0)
                (threeSegs 1)) (threeSegs 2)))])) :=
  C20_compaction_contiguous_names smallConfig threeSegments _ 3 (by decide) (by rfl)

/-! ## The memtable -/

theorem mapGet_none_of_lt (m : KVMap) (k : String)
    (h : ∀ e ∈ m, strLt k e.1 = true) : mapGet m k = none := by
  induction m with
  | nil => rfl
  | cons x m ih =>
    obtain ⟨k', t'⟩ := x
    have hk : k ≠ k' := strLt_ne k k' (h (k', t') (List.mem_cons_self _ _))
    simp only [mapGet, if_neg hk]
    exact ih (fun e he => h e (List.mem_cons_of_mem _ he))

/-- In a map in key order, `Set` keeps the number of entries when the key is present and
adds one when it is not. -/
theorem length_mapSet (m : KVMap) (k : String) (t : Tuple) (h : SortedMap m) :
    (mapSet m k t).length = if (mapGet m k).isSome then m.length else m.length + 1 := by
  induction m with
  | nil => rfl
  | cons x m ih =>
    obtain ⟨k', t'⟩ := x
    unfold SortedMap at h
    rw [List.pairwise_cons] at h
    by_cases h1 : strLt k k' = true
    · have hk : k ≠ k' := strLt_ne k k' h1
      have hnone : mapGet m k = none :=
        mapGet_none_of_lt m k (fun e he => strLt_trans k k' e.1 h1 (h.1 e he))
      simp only [mapSet, if_pos h1, mapGet, if_neg hk, hnone, Option.isSome_none,
        Bool.false_eq_true, if_false, List.length_cons]
    · by_cases h2 : k = k'
      · simp only [mapSet, if_neg h1, if_pos h2, mapGet, Option.isSome_some, if_true,
          List.length_cons]
      · simp only [mapSet, if_neg h1, if_neg h2, mapGet, List.length_cons, ih h.2]
        split_ifs <;> rfl

theorem GetM_SetM (s : PersMem) (k v k' : String) :
    (s.SetM k v).GetM k' = if k' = k then .ok ⟨"set", v⟩ else s.GetM k' := by
  unfold PersMem.GetM PersMem.SetM
  dsimp only
  rw [mapGet_mapSet]
  split_ifs <;> rfl

/-- C21: in every memtable state (the ordered map holds its entries in key order), after
`SetM(k, v)` the call `GetM(k)` returns the tuple (set, v) without error, whatever entry
the key had before; `GetM` of every other key returns what it returned before; the number
of entries is unchanged when the key was present and one more when it was not; the map is
still in key order, and the WAL has the record (set, k, v) appended. -/
theorem C21_SetM_then_GetM (s : PersMem) (k v : String) (hs : SortedMap s.store) :
    (s.SetM k v).GetM k = .ok ⟨"set", v⟩
      ∧ (∀ k', k' ≠ k → (s.SetM k v).GetM k' = s.GetM k')
      ∧ ((s.SetM k v).store.length
          = if (mapGet s.store k).isSome then s.store.length else s.store.length + 1)
      ∧ SortedMap (s.SetM k v).store
      ∧ (s.SetM k v).wal.content = s.wal.content ++ encodeRecord ⟨"set", k, v⟩ := by
  refine ⟨?_, ?_, ?_, ?_, ?_⟩
  · rw [GetM_SetM, if_pos rfl]
  · intro k' hk
    rw [GetM_SetM, if_neg hk]
  · exact length_mapSet s.store k ⟨"set", v⟩ hs
  · exact sorted_mapSet s.store k ⟨"set", v⟩ hs
  · unfold PersMem.SetM
    dsimp only
    rw [WriteRecord_eq]
    rfl

set_option maxRecDepth 100000 in
theorem C21_SetM_then_GetM_witness :
    (sampleEngine.memDB.SetM "c" "4").GetM "c" = .ok ⟨"set", "4"⟩
      ∧ (∀ k', k' ≠ "c" → (sampleEngine.memDB.SetM "c" "4").GetM k' = sampleEngine.memDB.GetM k')
      ∧ ((sampleEngine.memDB.SetM "c" "4").store.length
          = if (mapGet sampleEngine.memDB.store "c").isSome then sampleEngine.memDB.store.length
            else sampleEngine.memDB.store.length + 1)
      ∧ SortedMap (sampleEngine.memDB.SetM "c" "4").store
      ∧ (sampleEngine.memDB.SetM "c" "4").wal.content
          = sampleEngine.memDB.wal.content ++ encodeRecord ⟨"set", "c", "4"⟩ :=
  C21_SetM_then_GetM sampleEngine.memDB "c" "4" (by unfold SortedMap; decide)

/-- C22: in every memtable state in which the entry of the key is (set, v), `DelM(k)`
returns `v` without error; afterwards `GetM(k)` returns the tombstone (del, "") without
error, `GetM` of a key that has no entry still fails, and the WAL has the record
(del, k, "") appended. -/
theorem C22_DelM_of_set (s : PersMem) (k v : String)
    (h : mapGet s.store k = some ⟨"set", v⟩) :
    (s.DelM k).1 = .ok v
      ∧ (s.DelM k).2.GetM k = .ok ⟨"del", ""⟩
      ∧ (∀ k', mapGet s.store k' = none
          → (s.DelM k).2.GetM k' = .err (.errorsNew "Key Not found In MemDB"))
      ∧ (s.DelM k).2.wal.content = s.wal.content ++ encodeRecord ⟨"del", k, ""⟩ := by
  have hd : s.DelM k
      = (.ok v, ⟨mapSet s.store k ⟨"del", ""⟩, s.wal.WriteRecord ⟨"del", k, ""⟩⟩) := by
    unfold PersMem.DelM
    dsimp only
    rw [h]
    dsimp only
    rw [if_neg (by decide)]
  rw [hd]
  dsimp only
  refine ⟨rfl, ?_, ?_, ?_⟩
  · unfold PersMem.GetM
    dsimp only
    rw [mapGet_mapSet, if_pos rfl]
  · intro k' hk'
    have hne : k' ≠ k := by
      rintro rfl
      rw [h] at hk'
      cases hk'
    unfold PersMem.GetM
    dsimp only
    rw [mapGet_mapSet, if_neg hne, hk']
  · rw [WriteRecord_eq]

set_option maxRecDepth 100000 in
theorem C22_DelM_of_set_witness :
    (sampleEngine.memDB.DelM "c").1 = .ok "3"
      ∧ (sampleEngine.memDB.DelM "c").2.GetM "c" = .ok ⟨"del", ""⟩
      ∧ (∀ k', mapGet sampleEngine.memDB.store k' = none
          → (sampleEngine.memDB.DelM "c").2.GetM k' = .err (.errorsNew "Key Not found In MemDB"))
      ∧ (sampleEngine.memDB.DelM "c").2.wal.content
          = sampleEngine.memDB.wal.content ++ encodeRecord ⟨"del", "c", ""⟩ :=
  C22_DelM_of_set sampleEngine.memDB "c" "3" (by rfl)

/-! ## The error of a failed flush -/

theorem SetOn_none (kv : MyKvStore) (key val : String) :
    kv.SetOn none key val = kv.Set key val := rfl

theorem DelOn_none (kv : MyKvStore) (key : String) : kv.DelOn none key = kv.Del key := rfl

theorem CheckIfFlushOn_error (kv : MyKvStore) (e : GoError)
    (h : kv.memDB.store.length > kv.sstM.loadThreshold) :
    kv.CheckIfFlushOn (some e) = (.err e, kv) := by
  unfold MyKvStore.CheckIfFlushOn
  rw [if_pos h]
  rfl

/-- Whenever the memtable after `SetM` exceeds the threshold and the flush fails at its
first call, `CheckIfFlush` returns the error and `Set` returns nil. -/
theorem SetOn_error (kv : MyKvStore) (key val : String) (e : GoError)
    (h : (mapSet kv.memDB.store key ⟨"set", val⟩).length > kv.sstM.loadThreshold) :
    kv.SetOn (some e) key val = (.ok (), { kv with memDB := kv.memDB.SetM key val }) := by
  unfold MyKvStore.SetOn
  rw [CheckIfFlushOn_error { kv with memDB := kv.memDB.SetM key val } e h]

/-- Whenever `Get` finds a value, the memtable after `DelM1` exceeds the threshold and the
flush fails at its first call, `Del` returns the value and nil. -/
theorem DelOn_error (kv kv1 : MyKvStore) (key s : String) (e : GoError)
    (hg : kv.Get key = (.ok s, kv1))
    (h : (mapSet kv1.memDB.store key ⟨"del", ""⟩).length > kv1.sstM.loadThreshold) :
    kv.DelOn (some e) key = (.ok s, { kv1 with memDB := kv1.memDB.DelM1 key }) := by
  unfold MyKvStore.DelOn
  rw [hg]
  dsimp only
  rw [CheckIfFlushOn_error { kv1 with memDB := kv1.memDB.DelM1 key } e h]

set_option maxRecDepth 100000 in
/-- C23, the code at a failing flush. With flush threshold 0 on an empty directory and WAL,
`Set(key, val)`, for any key and value, makes the memtable exceed the threshold; when the
`os.OpenFile` call of the flush fails on a full disk, `CheckIfFlush` returns the error but
`Set` returns nil, and the entry stays in the memtable with no segment written. Likewise
`Del("a")`, after a `Set("a", "1")` that was flushed, returns the value "1" and nil when
its flush fails. -/
theorem C23_flush_error_is_dropped (key val : String) :
    MyKvStore.CheckIfFlushOn (some diskFull)
        { NewKeyValueStore eagerConfig [] [] with
          memDB := (NewKeyValueStore eagerConfig [] []).memDB.SetM key val }
        = (.err diskFull, { NewKeyValueStore eagerConfig [] [] with
            memDB := (NewKeyValueStore eagerConfig [] []).memDB.SetM key val })
      ∧ ((NewKeyValueStore eagerConfig [] []).SetOn (some diskFull) key val).1 = .ok ()
      ∧ ((NewKeyValueStore eagerConfig [] []).SetOn (some diskFull) key val).2.memDB.store
          = [(key, ⟨"set", val⟩)]
      ∧ ((NewKeyValueStore eagerConfig [] []).SetOn (some diskFull) key val).2.dir = []
      ∧ (((NewKeyValueStore eagerConfig [] []).Set "a" "1").2.DelOn (some diskFull) "a").1
          = .ok "1"
      ∧ (((NewKeyValueStore eagerConfig [] []).Set "a" "1").2.DelOn (some diskFull) "a").2.memDB.store
          = [("a", ⟨"del", ""⟩)] := by
  have h : (mapSet (NewKeyValueStore eagerConfig [] []).memDB.store key ⟨"set", val⟩).length
      > (NewKeyValueStore eagerConfig [] []).sstM.loadThreshold := by
    show 1 > 0
    decide
  refine ⟨CheckIfFlushOn_error { NewKeyValueStore eagerConfig [] [] with
      memDB := (NewKeyValueStore eagerConfig [] []).memDB.SetM key val } _ h, ?_, ?_, ?_,
    by rfl, by rfl⟩
  · rw [SetOn_error _ key val _ h]
  · rw [SetOn_error _ key val _ h]
    rfl
  · rw [SetOn_error _ key val _ h]
    rfl


/-! ## Records with the same key in both inputs of a merge -/

/-- On equal keys the merge takes the record of the second input first: a record of the
second input comes before every record of the first input that has the same key. -/
theorem mergeRecs_tie_order (as : List FileRecord) :
    ∀ (bs : List FileRecord) (a b : FileRecord), KeysAscending bs → a ∈ as → b ∈ bs
      → a.Key = b.Key
      → ∃ pre mid post, mergeRecs as bs = pre ++ b :: (mid ++ a :: post) := by
  induction as with
  | nil =>
    intro bs a b _ ha
    cases ha
  | cons a0 as iha =>
    intro bs
    induction bs with
    | nil =>
      intro a b _ _ hb
      cases hb
    | cons b0 bs ihb =>
      intro a b hs ha hb hk
      unfold KeysAscending at hs
      have hs' := List.pairwise_cons.mp hs
      rw [mergeRecs_cons_cons]
      by_cases hlt : strLt a0.Key b0.Key = true
      · rw [if_pos hlt]
        have hb0 : strLt b.Key b0.Key = false := by
          rcases List.mem_cons.mp hb with hb | hb
          · rw [hb]
            exact strLt_irrefl _
          · exact hs'.1 b hb
        have ha' : a ∈ as := by
          rcases List.mem_cons.mp ha with ha | ha
          · exfalso
            rw [ha] at hk
            rw [← hk, hlt] at hb0
            exact Bool.noConfusion hb0
          · exact ha
        obtain ⟨pre, mid, post, e⟩ := iha (b0 :: bs) a b hs ha' hb hk
        exact ⟨a0 :: pre, mid, post, by rw [e]; rfl⟩
      · rw [if_neg hlt]
        rcases List.mem_cons.mp hb with hb | hb
        · have hmem : a ∈ mergeRecs (a0 :: as) bs :=
            (perm_mergeRecs (a0 :: as) bs).mem_iff.mpr (List.mem_append_left _ ha)
          obtain ⟨mid, post, e⟩ := List.append_of_mem hmem
          exact ⟨[], mid, post, by rw [e, hb]; rfl⟩
        · obtain ⟨pre, mid, post, e⟩ := ihb a b hs'.2 ha hb hk
          exact ⟨b0 :: pre, mid, post, by rw [e]; rfl⟩

set_option maxRecDepth 100000 in
/-- C24, the code at two segments that hold the same key. The merge of segment 0, which
holds ("k", "old"), with the newer segment 1, which holds ("k", "new"), writes both
records, the one of the newer input first and the one of the older input after it. The
merge of the two segments of the sample directory, which both hold the key "a", writes the
record ("a", "9") of the newer input before the tombstone of "a" of the older input. -/
theorem C24_newer_record_comes_first :
    MergeSST twoVersions 0 1
        = some (.ok (), [(.sst 0, segmentOf [⟨"set", "k", "new"⟩, ⟨"set", "k", "old"⟩])])
      ∧ MergeSST sampleEngine.dir 0 1
        = some (.ok (), [(.sst 0,
            segmentOf [⟨"set", "a", "9"⟩, ⟨"del", "a", ""⟩, ⟨"set", "b", "2"⟩])]) := by
  refine ⟨by rfl, by rfl⟩

/-! ## The record count in the header of a merged segment -/

set_option maxRecDepth 100000 in
/-- C25, counterexample: the merge of two one-record segments that hold the same key writes
the header count 2 and two records, so the count is the number of records written, not one
more. -/
theorem C25_count_equals_records_with_shared_key :
    (MergeSST twoVersions 0 1).map (fun r => (r.1, dirGet r.2 (.sst 0)))
        = some (.ok (), some (leBytes 8 magicNumber ++ leBytes 8 sysVers ++ leBytes 8 2
            ++ encodeRecords [⟨"set", "k", "new"⟩, ⟨"set", "k", "old"⟩]))
      ∧ [(⟨"set", "k", "new"⟩ : FileRecord), ⟨"set", "k", "old"⟩].length = 2 := by
  refine ⟨by rfl, by rfl⟩

/-- C25: for two well-formed, non-empty segments, also when a key appears in both,
`MergeSST` returns without error and writes the header with the record count
`count_i + count_j` followed by exactly that many records: the count in the header equals
the number of records written. Nothing follows them unless a longer stale temporary file of
the destination index was there. -/
theorem C25_header_count_is_exact (d : Dir) (i j : Nat) (rs1 rs2 : List FileRecord)
    (hij : i ≠ j)
    (hc1 : dirGet d (.sst i) = some (segmentOf rs1))
    (hc2 : dirGet d (.sst j) = some (segmentOf rs2))
    (h1 : rs1 ≠ []) (h2 : rs2 ≠ [])
    (hf1 : ∀ x ∈ rs1, fitsInt64 x) (hf2 : ∀ x ∈ rs2, fitsInt64 x)
    (hlen : rs1.length + rs2.length < 2 ^ 64) :
    ∃ d' written junk, MergeSST d i j = some (.ok (), d')
      ∧ dirGet d' (.sst (i / 2))
          = some (leBytes 8 magicNumber ++ leBytes 8 sysVers
              ++ leBytes 8 (rs1.length + rs2.length) ++ encodeRecords written ++ junk)
      ∧ written.length = rs1.length + rs2.length
      ∧ (dirGet d (.tmp (i / 2)) = none → junk = []) := by
  have hm := MergeSST_segments d i j rs1 rs2 hij hc1 hc2 h1 h2 hf1 hf2 hlen
  refine ⟨_, mergeRecs rs1 rs2,
    (openCreate d (.tmp (i / 2))).1.drop (segmentOf (mergeRecs rs1 rs2)).length,
    hm.1, ?_, length_mergeRecs rs1 rs2, ?_⟩
  · rw [hm.2]
    unfold overwrite segmentOf
    rw [length_mergeRecs]
  · intro h
    simp only [openCreate, h, List.drop_nil]

set_option maxRecDepth 100000 in
theorem C25_header_count_is_exact_witness :
    ∃ d' written junk, MergeSST twoVersions 0 1 = some (.ok (), d')
      ∧ dirGet d' (.sst (0 / 2))
          = some (leBytes 8 magicNumber ++ leBytes 8 sysVers
              ++ leBytes 8 ([(⟨"set", "k", "old"⟩ : FileRecord)].length
                  + [(⟨"set", "k", "new"⟩ : FileRecord)].length)
              ++ encodeRecords written ++ junk)
      ∧ written.length = [(⟨"set", "k", "old"⟩ : FileRecord)].length
          + [(⟨"set", "k", "new"⟩ : FileRecord)].length
      ∧ (dirGet twoVersions (.tmp (0 / 2)) = none → junk = []) :=
  C25_header_count_is_exact twoVersions 0 1 [⟨"set", "k", "old"⟩] [⟨"set", "k", "new"⟩]
    (by decide) (by rfl) (by rfl) (by decide) (by decide) (by decide) (by decide) (by decide)

/-! ## The load index after the compaction of a start -/

theorem Start_of_steps (cfg : Config) (kv : MyKvStore) (d1 d2 : Dir) (mem : PersMem)
    (mgr : mySSTManager)
    (hc : SSTCompaction cfg kv.dir = some (.ok (), d1))
    (hl : kv.memDB.Load = some (.ok (), mem))
    (ha : LoadALL { kv.sstM with sstCount := (CheckAndClean d1).1 } (CheckAndClean d1).2
      = (.ok (), mgr, d2)) :
    kv.Start cfg = some (.ok (), { kv with sstM := mgr, dir := d2, memDB := mem }) := by
  unfold MyKvStore.Start
  rw [hc]
  dsimp only
  rw [hl]
  dsimp only
  rw [ha]

theorem NewKeyValueStore_exact (cfg : Config) (d : Dir) (n : Nat) (w : List Nat)
    (h : ExactlySegments d n) :
    NewKeyValueStore cfg d w
      = ⟨⟨n, cfg.defLoad, n - cfg.defLoad, List.replicate cfg.defLoad [], cfg.treshold⟩, 0,
          ⟨[], ⟨w, w.length⟩⟩, sysVers, d⟩ := by
  unfold NewKeyValueStore NewSSTManager
  dsimp only
  rw [CheckAndClean_exact d n h]
  rfl

theorem LoadALL_nothing (m : mySSTManager) (d : Dir) (h : m.sstCount ≤ m.loadIdx) :
    LoadALL m d = (.ok (), m, d) := by
  unfold LoadALL
  rw [Nat.sub_eq_zero_of_le h]
  rfl

/-- When more segments are present at construction than the load window and the merge
threshold together, `Start` returns without error with a load index, fixed by
`NewSSTManager` from the count before compaction, above the segment count after
compaction, and with no segment loaded into the cache. -/
theorem Start_stale_loadIdx (cfg : Config) (d : Dir) (n : Nat) (segs : Nat → List FileRecord)
    (hthr : 1 ≤ cfg.mergeThreshold) (h : HoldsSegments d n segs)
    (hne : ∀ a, a < n → segs a ≠ []) (hn : cfg.defLoad + cfg.mergeThreshold < n) :
    ∃ s, (NewKeyValueStore cfg d []).Start cfg = some (.ok (), s)
      ∧ s.sstM.sstCount ≤ cfg.mergeThreshold
      ∧ s.sstM.loadIdx = n - cfg.defLoad
      ∧ s.sstM.sstCount < s.sstM.loadIdx
      ∧ s.sstM.memSST = List.replicate cfg.defLoad []
      ∧ ExactlySegments s.dir s.sstM.sstCount := by
  obtain ⟨r, hrun, hok⟩ := compactLoop_segments cfg hthr n d segs h
  obtain ⟨o, d1⟩ := r
  have ho := hok hne
  dsimp only at ho
  subst ho
  have hc : SSTCompaction cfg d = some (.ok (), d1) := by
    rw [SSTCompaction_exact cfg d n h.exact]
    exact hrun _ (le_refl _)
  have hc2 := hc
  rw [SSTCompaction_exact cfg d n h.exact] at hc2
  obtain ⟨m, hm, hE⟩ := compactLoop_exact cfg (n + 1) n d d1 h.exact hc2
  have hcc := CheckAndClean_exact d1 m hE
  have hl : PersMem.Load ⟨[], ⟨[], 0⟩⟩ = some (.ok (), ⟨[], ⟨[], 0⟩⟩) :=
    Load_records [] [] 0 (fun x hx => by cases hx)
  have hs := Start_of_steps cfg
    ⟨⟨n, cfg.defLoad, n - cfg.defLoad, List.replicate cfg.defLoad [], cfg.treshold⟩, 0,
      ⟨[], ⟨[], 0⟩⟩, sysVers, d⟩ d1 d1 ⟨[], ⟨[], 0⟩⟩
    ⟨m, cfg.defLoad, n - cfg.defLoad, List.replicate cfg.defLoad [], cfg.treshold⟩
    hc hl (by
      rw [hcc]
      exact LoadALL_nothing _ _ (by
        show m ≤ n - cfg.defLoad
        omega))
  rw [NewKeyValueStore_exact cfg d n [] h.exact]
  refine ⟨_, hs, hm, rfl, ?_, rfl, hE⟩
  show m < n - cfg.defLoad
  omega

theorem dirGet_of_mem (d : Dir) (f : FileName) (c : List Nat) (hn : (d.map Prod.fst).Nodup)
    (h : (f, c) ∈ d) : dirGet d f = some c := by
  induction d with
  | nil => cases h
  | cons x d ih =>
    obtain ⟨g, c'⟩ := x
    rw [List.map_cons, List.nodup_cons] at hn
    by_cases hf : f = g
    · subst hf
      rcases List.mem_cons.mp h with h | h
      · have hc : c = c' := (Prod.mk.inj h).2
        rw [hc]
        simp [dirGet]
      · exact absurd (List.mem_map_of_mem Prod.fst h) hn.1
    · rcases List.mem_cons.mp h with h | h
      · exact absurd (Prod.mk.inj h).1 hf
      · simp only [dirGet, if_neg hf]
        exact ih hn.2 h

theorem names_manySegments (n : Nat) :
    (manySegments n).map Prod.fst = (List.range n).map FileName.sst := by
  unfold manySegments
  rw [List.map_map]
  rfl

theorem holdsSegments_manySegments (n : Nat) (hn : n < 2 ^ 64) :
    HoldsSegments (manySegments n) n (fun _ => [⟨"set", "k", "v"⟩]) := by
  refine ⟨?_, ?_, ?_, ?_⟩
  · unfold ExactlySegments
    rw [names_manySegments]
  · intro a ha
    apply dirGet_of_mem
    · rw [names_manySegments]
      exact nodup_segmentNames n
    · unfold manySegments
      exact List.mem_map.mpr ⟨a, List.mem_range.mpr ha, rfl⟩
  · intro a _ r hr
    rw [List.mem_singleton.mp hr]
    decide
  · have : ((List.range n).map fun _ => ([(⟨"set", "k", "v"⟩ : FileRecord)]).length).sum = n := by
      simp
    rw [this]
    exact hn

set_option maxRecDepth 100000 in
/-- C26, the code at more segments than the load window. With a load window of one segment
and merge threshold 1, on a directory of three segments: `NewSSTManager` sets the load index
to 2, the compaction of `Start` leaves one segment, and `Start` returns with segment count
1, load index 2 and an empty cache slot; the lookup of "b" then opens `SST1.sst`, which does
not exist and is created empty, before it finds the key in `SST0.sst`. With the constants
of the source (window 1000, merge threshold 10), on a directory of 1011 segments `Start`
returns with load index 11, at most 10 segments, and no segment in the cache. -/
theorem C26_loadIdx_above_segment_count :
    ((NewKeyValueStore windowConfig threeSegments []).Start windowConfig).map
        (fun r => (r.1, r.2.sstM.sstCount, r.2.sstM.loadIdx, r.2.sstM.memSST,
          r.2.dir.map Prod.fst, (r.2.Get "b").1, (r.2.Get "b").2.dir.map Prod.fst))
        = some (.ok (), 1, 2, [[]], [.sst 0], .ok "2", [.sst 0, .sst 1])
      ∧ ∃ s, (NewKeyValueStore sourceConfig (manySegments 1011) []).Start sourceConfig
            = some (.ok (), s)
          ∧ s.sstM.sstCount ≤ 10 ∧ s.sstM.loadIdx = 11
          ∧ s.sstM.memSST = List.replicate 1000 [] := by
  refine ⟨by rfl, ?_⟩
  obtain ⟨s, h1, h2, h3, _, h5, _⟩ := Start_stale_loadIdx sourceConfig (manySegments 1011) 1011
    (fun _ => [⟨"set", "k", "v"⟩]) (by decide) (holdsSegments_manySegments 1011 (by decide))
    (fun _ _ => List.cons_ne_nil _ _) (by decide)
  exact ⟨s, h1, h2, h3, h5⟩

/-! ## The memtable and its WAL stay in step -/

theorem encodeRecords_append_one (rs : List FileRecord) (r : FileRecord) :
    encodeRecords (rs ++ [r]) = encodeRecords rs ++ encodeRecord r := by
  simp [encodeRecords]

theorem loadRecord_set (store : KVMap) (k v : String) :
    loadRecord store ⟨"set", k, v⟩ = mapSet store k ⟨"set", v⟩ := by
  unfold loadRecord
  rw [if_pos rfl]

theorem loadRecord_del (store : KVMap) (k : String) :
    loadRecord store ⟨"del", k, ""⟩ = mapSet store k ⟨"del", ""⟩ := by
  unfold loadRecord
  dsimp only
  rw [if_neg (by decide), if_pos rfl]

/-- After calls of `SetM`, `DelM1` and `Clear` from the empty memtable on an empty WAL, the
WAL holds the records of the calls made since the last `Clear`, and the map is what these
records give when they are applied in order to the empty map. -/
theorem applyAll_records (ops : List MemOp) (hfit : ∀ op ∈ ops, op.fits) :
    ∃ rs : List FileRecord,
      (PersMem.applyAll ⟨[], ⟨[], 0⟩⟩ ops).wal.content = encodeRecords rs
        ∧ (PersMem.applyAll ⟨[], ⟨[], 0⟩⟩ ops).store = rs.foldl loadRecord []
        ∧ ∀ x ∈ rs, fitsInt64 x := by
  induction ops using List.reverseRecOn with
  | nil => exact ⟨[], rfl, rfl, fun x hx => by cases hx⟩
  | append_singleton ops op ih =>
    obtain ⟨rs, hw, hst, hf⟩ := ih (fun o ho => hfit o (List.mem_append_left _ ho))
    have hop : op.fits := hfit op (List.mem_append_right _ (List.mem_singleton_self op))
    have hstep : PersMem.applyAll ⟨[], ⟨[], 0⟩⟩ (ops ++ [op])
        = (PersMem.applyAll ⟨[], ⟨[], 0⟩⟩ ops).apply op := by
      unfold PersMem.applyAll
      rw [List.foldl_append]
      rfl
    rw [hstep]
    generalize PersMem.applyAll ⟨[], ⟨[], 0⟩⟩ ops = s at hw hst
    cases op with
    | set key val =>
      refine ⟨rs ++ [⟨"set", key, val⟩], ?_, ?_, ?_⟩
      · unfold PersMem.apply PersMem.SetM
        dsimp only
        rw [WriteRecord_eq]
        dsimp only
        rw [encodeRecords_append_one, ← hw]
        rfl
      · unfold PersMem.apply PersMem.SetM
        dsimp only
        rw [List.foldl_append, ← hst]
        exact (loadRecord_set s.store key val).symm
      · intro x hx
        rcases List.mem_append.mp hx with hx | hx
        · exact hf x hx
        · rw [List.mem_singleton.mp hx]
          exact hop
    | del key =>
      refine ⟨rs ++ [⟨"del", key, ""⟩], ?_, ?_, ?_⟩
      · unfold PersMem.apply PersMem.DelM1
        dsimp only
        rw [WriteRecord_eq]
        dsimp only
        rw [encodeRecords_append_one, ← hw]
      · unfold PersMem.apply PersMem.DelM1
        dsimp only
        rw [List.foldl_append, ← hst]
        exact (loadRecord_del s.store key).symm
      · intro x hx
        rcases List.mem_append.mp hx with hx | hx
        · exact hf x hx
        · rw [List.mem_singleton.mp hx]
          exact hop
    | clear =>
      exact ⟨[], rfl, rfl, fun x hx => by cases hx⟩

/-- C27: after any sequence of `SetM`, `DelM1` and `Clear` calls that starts from the empty
memtable on an empty WAL, `Load` of the current WAL into an empty memtable returns without
error and yields exactly the map of the current memtable; the handle ends at the end of the
WAL. The records of the calls fit the integer type of their length prefix. -/
theorem C27_wal_replay_gives_memtable (ops : List MemOp) (hfit : ∀ op ∈ ops, op.fits) :
    PersMem.Load ⟨[], (PersMem.applyAll ⟨[], ⟨[], 0⟩⟩ ops).wal⟩
      = some (.ok (), ⟨(PersMem.applyAll ⟨[], ⟨[], 0⟩⟩ ops).store,
          ⟨(PersMem.applyAll ⟨[], ⟨[], 0⟩⟩ ops).wal.content,
            (PersMem.applyAll ⟨[], ⟨[], 0⟩⟩ ops).wal.content.length⟩⟩) := by
  obtain ⟨rs, hw, hst, hf⟩ := applyAll_records ops hfit
  have hl := Load_records rs [] (PersMem.applyAll ⟨[], ⟨[], 0⟩⟩ ops).wal.pos hf
  rw [hst, hw]
  rw [← hl]
  congr 2
  rw [← hw]

set_option maxRecDepth 100000 in
theorem C27_wal_replay_gives_memtable_witness :
    PersMem.Load ⟨[], (PersMem.applyAll ⟨[], ⟨[], 0⟩⟩
        [.set "a" "1", .clear, .set "b" "2", .del "b", .set "c" "3"]).wal⟩
      = some (.ok (), ⟨(PersMem.applyAll ⟨[], ⟨[], 0⟩⟩
            [.set "a" "1", .clear, .set "b" "2", .del "b", .set "c" "3"]).store,
          ⟨(PersMem.applyAll ⟨[], ⟨[], 0⟩⟩
              [.set "a" "1", .clear, .set "b" "2", .del "b", .set "c" "3"]).wal.content,
            (PersMem.applyAll ⟨[], ⟨[], 0⟩⟩
              [.set "a" "1", .clear, .set "b" "2", .del "b", .set "c" "3"]).wal.content.length⟩⟩) :=
  C27_wal_replay_gives_memtable [.set "a" "1", .clear, .set "b" "2", .del "b", .set "c" "3"]
    (by decide)

/-! ## The two read paths on a segment with distinct keys -/

theorem mapGet_foldl_records (rs : List FileRecord) :
    ∀ (mp : KVMap) (k : String),
      mapGet (rs.foldl (fun acc r => mapSet acc r.Key ⟨r.Operation, r.Value⟩) mp) k
        = match rs.reverse.find? (fun r => r.Key = k) with
          | some r => some ⟨r.Operation, r.Value⟩
          | none => mapGet mp k := by
  induction rs using List.reverseRecOn with
  | nil => intro mp k; rfl
  | append_singleton rs r ih =>
    intro mp k
    rw [List.foldl_append, List.reverse_append]
    simp only [List.foldl_cons, List.foldl_nil, List.reverse_cons, List.reverse_nil,
      List.nil_append, List.singleton_append, List.find?_cons]
    rw [mapGet_mapSet]
    by_cases hk : k = r.Key
    · rw [if_pos hk]
      have : decide (r.Key = k) = true := by simp [hk]
      rw [this]
    · rw [if_neg hk]
      have : decide (r.Key = k) = false := by
        simp only [decide_eq_false_iff_not]
        exact fun e => hk e.symm
      rw [this]
      exact ih mp k

theorem find_reverse_of_strict (rs : List FileRecord) (k : String)
    (hs : KeysStrictlyAscending rs) :
    rs.reverse.find? (fun r => r.Key = k) = rs.find? (fun r => r.Key = k) := by
  induction rs with
  | nil => rfl
  | cons r rs ih =>
    unfold KeysStrictlyAscending at hs
    rw [List.pairwise_cons] at hs
    rw [List.reverse_cons, List.find?_append, ih hs.2]
    by_cases hk : r.Key = k
    · have hnone : rs.find? (fun r => r.Key = k) = none := by
        rw [List.find?_eq_none]
        intro x hx
        have := strLt_ne r.Key x.Key (hs.1 x hx)
        simp only [decide_eq_true_eq]
        rw [← hk]
        exact fun e => this e.symm
      have hd : decide (r.Key = k) = true := by simp [hk]
      rw [hnone]
      simp only [List.find?_cons, hd, Option.none_or]
    · have hd : decide (r.Key = k) = false := by simp [hk]
      simp only [List.find?_cons, hd, List.find?_nil, Option.or_none]

/-- On a well-formed segment whose keys are strictly ascending, as `FlushToSST` writes
them, the two read paths agree: `SearchInSST` returns the decision for the entry that the
map built by `LoadToMem` holds for the key, and "Key Not Found" when the map holds none. -/
theorem read_paths_agree_of_strict (d : Dir) (i : Nat) (rs : List FileRecord) (k : String)
    (hc : dirGet d (.sst i) = some (segmentOf rs)) (hlen : rs.length < 2 ^ 64)
    (hfit : ∀ r ∈ rs, fitsInt64 r) (hs : KeysStrictlyAscending rs) :
    (LoadToMem [] (segmentOf rs)).1 = .ok ()
      ∧ (SearchInSST d k i).1
        = match mapGet (LoadToMem [] (segmentOf rs)).2 k with
          | some t => decision t
          | none => .err (.errorsNew "Key Not Found") := by
  have hl := LoadToMem_segmentOf rs [] [] hlen hfit
  rw [List.append_nil] at hl
  have hasc : KeysAscending rs := by
    unfold KeysAscending
    unfold KeysStrictlyAscending at hs
    exact hs.imp (fun h => strLt_asymm _ _ h)
  have hh : readHeader (segmentOf rs) = .ok (rs.length, 24) :=
    readHeader_segment rs.length (encodeRecords rs) hlen
  have hl24 : (leBytes 8 magicNumber ++ leBytes 8 sysVers ++ leBytes 8 rs.length).length
      = 24 := by
    simp only [List.length_append, length_leBytes]
  have hsr := searchRecords_records rs k
    (leBytes 8 magicNumber ++ leBytes 8 sysVers ++ leBytes 8 rs.length) [] hfit hasc
  rw [hl24, List.append_nil] at hsr
  have hsr2 : searchRecords rs.length (segmentOf rs) 24 k
      = match rs.find? (fun r => r.Key = k) with
        | some r => decision ⟨r.Operation, r.Value⟩
        | none => .err (.errorsNew "Key Not Found") := hsr
  rw [hl, SearchInSST_of_header d k i rs.length 24 (segmentOf rs) hc hh]
  refine ⟨rfl, ?_⟩
  dsimp only
  rw [hsr2, mapGet_foldl_records, find_reverse_of_strict rs k hs]
  cases rs.find? (fun r => r.Key = k) <;> rfl

set_option maxRecDepth 100000 in
/-- C28, the code at a merged segment that holds a key twice. After the merge of segment 0,
which holds ("k", "old"), with the newer segment 1, which holds ("k", "new"), `LoadToMem`
of the merged file returns without error and its map holds (set, "old") for "k", while
`SearchInSST` on the same file returns "new". -/
theorem C28_read_paths_disagree_after_merge :
    (MergeSST twoVersions 0 1).map (fun r =>
        (r.1, (LoadToMem [] ((dirGet r.2 (.sst 0)).getD [])).1,
          mapGet (LoadToMem [] ((dirGet r.2 (.sst 0)).getD [])).2 "k",
          (SearchInSST r.2 "k" 0).1))
      = some (.ok (), .ok (), some ⟨"set", "old"⟩, .ok "new") := by
  rfl

/-! ## The answer of the frontend to a lookup that fails -/

/-- Whenever `Get` returns an error made by `errors.New`, `HandleGet` answers with the
status 500 and the text of the error. -/
theorem HandleGet_errorsNew (kv kv1 : MyKvStore) (key msg : String)
    (h : kv.Get key = (.err (.errorsNew msg), kv1)) :
    HandleGet kv key = (.ok ⟨500, msg ++ "\n"⟩, kv1) := by
  unfold HandleGet
  rw [h]
  dsimp only
  rw [if_neg (by simp)]
  rfl

set_option maxRecDepth 100000 in
/-- C29, the code at a missing and at a deleted key. On a started engine over an empty
directory and WAL, `Get("a")` returns the error made by `errors.New("Key Not Found")` and
`HandleGet` answers with the status 500 and the body "Key Not Found" and a newline; after
`Set("a", "1")` and `Del("a")`, `Get("a")` returns the error made by
`errors.New("Key Deleted")` and `HandleGet` answers with the status 500 and the body "Key
Deleted" and a newline. Neither answer is the body "Key not found" with the status 200.
After `Set("a", "1")` alone the answer is the value with the status 200. -/
theorem C29_HandleGet_answers_server_error :
    ((NewKeyValueStore sourceConfig [] []).Start sourceConfig).map
        (fun r => (r.1, (r.2.Get "a").1, (HandleGet r.2 "a").1))
        = some (.ok (), .err (.errorsNew "Key Not Found"), .ok ⟨500, "Key Not Found\n"⟩)
      ∧ ((NewKeyValueStore sourceConfig [] []).Start sourceConfig).map
        (fun r => (((r.2.run [.set "a" "1", .del "a"]).Get "a").1,
          (HandleGet (r.2.run [.set "a" "1", .del "a"]) "a").1))
        = some (.err (.errorsNew "Key Deleted"), .ok ⟨500, "Key Deleted\n"⟩)
      ∧ ((NewKeyValueStore sourceConfig [] []).Start sourceConfig).map
        (fun r => (HandleGet (r.2.run [.set "a" "1"]) "a").1)
        = some (.ok ⟨200, "1"⟩) := by
  refine ⟨by rfl, by rfl, by rfl⟩

/-! ## The size of the JSON text of a record -/

theorem length_quoteChar_le (n : Nat) : (quoteChar n).length ≤ 6 := by
  unfold quoteChar utf8Encode
  split_ifs <;> simp

theorem length_quoteBody_le (cs : List Char) : (quoteBody cs).length ≤ 6 * cs.length := by
  induction cs with
  | nil => simp [quoteBody]
  | cons c cs ih =>
    have := length_quoteChar_le c.toNat
    simp only [quoteBody, List.length_cons, List.length_append]
    omega

theorem length_jsonMarshal_le (r : FileRecord) :
    (jsonMarshal r).length
      ≤ 6 * (r.Operation.length + r.Key.length + r.Value.length) + 36 := by
  have h1 : (quoteBody r.Operation.toList).length ≤ 6 * r.Operation.length :=
    length_quoteBody_le _
  have h2 : (quoteBody r.Key.toList).length ≤ 6 * r.Key.length := length_quoteBody_le _
  have h3 : (quoteBody r.Value.toList).length ≤ 6 * r.Value.length := length_quoteBody_le _
  have a1 : (ascii "\x7b\"Operation\":").length = 13 := by decide
  have a2 : (ascii ",\"Key\":").length = 7 := by decide
  have a3 : (ascii ",\"Value\":").length = 9 := by decide
  have a4 : (ascii "\x7d").length = 1 := by decide
  simp only [jsonMarshal, quote, List.length_append, List.length_cons, List.length_nil, a1, a2,
    a3, a4]
  omega

/-- A record whose three strings together have fewer than 2^32 characters fits. -/
theorem fitsInt64_of_short (r : FileRecord)
    (h : r.Operation.length + r.Key.length + r.Value.length < 2 ^ 32) : fitsInt64 r := by
  unfold fitsInt64
  have := length_jsonMarshal_le r
  have e1 : (2 : Nat) ^ 32 = 4294967296 := by norm_num
  have e2 : (2 : Nat) ^ 63 = 9223372036854775808 := by norm_num
  rw [e1] at h
  rw [e2]
  omega

/-! ## Keys made of the letter "a" -/

theorem length_aKey (i : Nat) : (aKey i).length = i + 1 := by
  unfold aKey
  simp [String.length]

theorem flatten_utf8_replicate (m : Nat) :
    ((List.replicate m 'a').map fun c => utf8Encode c.toNat).flatten
      = List.replicate m 97 := by
  induction m with
  | zero => rfl
  | succ m ih =>
    simp only [List.replicate_succ, List.map_cons, List.flatten_cons, ih]
    rfl

theorem utf8Bytes_aKey (i : Nat) : utf8Bytes (aKey i) = List.replicate (i + 1) 97 :=
  flatten_utf8_replicate (i + 1)

theorem bytesLt_replicate (b : Nat) :
    ∀ i j, i < j → bytesLt (List.replicate i b) (List.replicate j b) = true := by
  intro i
  induction i with
  | zero =>
    intro j hj
    obtain ⟨j', rfl⟩ : ∃ j', j = j' + 1 := ⟨j - 1, by omega⟩
    rfl
  | succ i ih =>
    intro j hj
    obtain ⟨j', rfl⟩ : ∃ j', j = j' + 1 := ⟨j - 1, by omega⟩
    simp only [List.replicate_succ, bytesLt, lt_self_iff_false, if_false, if_true]
    exact ih j' (by omega)

theorem strLt_aKey (i j : Nat) (h : i < j) : strLt (aKey i) (aKey j) = true := by
  unfold strLt
  rw [utf8Bytes_aKey, utf8Bytes_aKey]
  exact bytesLt_replicate 97 _ _ (by omega)

theorem aKey_ne_zz (i : Nat) : aKey i ≠ "zz" := by
  intro h
  have := congrArg String.data h
  unfold aKey at this
  rw [List.replicate_succ] at this
  have h2 := (List.cons.inj this).1
  exact absurd h2 (by decide)

theorem sortedMap_aKeys (n : Nat) :
    SortedMap ((List.range n).map fun i => (aKey i, (⟨"set", "v"⟩ : Tuple))) := by
  unfold SortedMap
  rw [List.pairwise_map]
  exact (List.pairwise_lt_range n).imp (fun h => strLt_aKey _ _ h)

theorem fitsInt64_aRecord (i : Nat) (h : i < 2 ^ 31) : fitsInt64 ⟨"set", aKey i, "v"⟩ := by
  apply fitsInt64_of_short
  have e1 : (2 : Nat) ^ 31 = 2147483648 := by norm_num
  have e2 : (2 : Nat) ^ 32 = 4294967296 := by norm_num
  rw [e1] at h
  rw [e2]
  show ("set" : String).length + (aKey i).length + ("v" : String).length < 4294967296
  rw [length_aKey]
  have a1 : ("set" : String).length = 3 := by decide
  have a2 : ("v" : String).length = 1 := by decide
  rw [a1, a2]
  omega

theorem fitsInt64_aRecords (n : Nat) (h : n < 2 ^ 31) : ∀ x ∈ aRecords n, fitsInt64 x := by
  intro x hx
  unfold aRecords at hx
  obtain ⟨i, hi, rfl⟩ := List.mem_map.mp hx
  exact fitsInt64_aRecord i (by have := List.mem_range.mp hi; omega)

theorem foldl_aRecords (n : Nat) :
    (aRecords n).foldl loadRecord []
      = (List.range n).map fun i => (aKey i, (⟨"set", "v"⟩ : Tuple)) := by
  have h := foldl_mapSet_sorted _ (sortedMap_aKeys n) [] (fun a ha => by cases ha)
  rw [List.nil_append, List.foldl_map] at h
  unfold aRecords
  rw [List.foldl_map]
  have hf : (fun (acc : KVMap) (i : Nat) => loadRecord acc ⟨"set", aKey i, "v"⟩)
      = fun acc i => mapSet acc (aKey i) ⟨"set", "v"⟩ := by
    funext acc i
    exact loadRecord_set acc (aKey i) "v"
  rw [hf]
  exact h

/-! ## `Del` of a key without a live value -/

theorem mapGet_none_of_ne (m : KVMap) (k : String) (h : ∀ e ∈ m, e.1 ≠ k) :
    mapGet m k = none := by
  induction m with
  | nil => rfl
  | cons x m ih =>
    obtain ⟨k', t'⟩ := x
    have hk : k ≠ k' := fun e => h (k', t') (List.mem_cons_self _ _) e.symm
    simp only [mapGet, if_neg hk]
    exact ih (fun e he => h e (List.mem_cons_of_mem _ he))

theorem slots_replicate (n j : Nat) : (List.replicate n ([] : KVMap)).getD j [] = [] := by
  rw [List.getD_eq_getElem?_getD, List.getElem?_replicate]
  split_ifs <;> rfl

/-- `Start` on an empty directory and a WAL of `n` records with distinct keys: the replay
fills the memtable with `n` entries, whatever the flush threshold is. -/
theorem Start_replayed (cfg : Config) (n : Nat) (hn : n < 2 ^ 31) :
    (NewKeyValueStore cfg [] (encodeRecords (aRecords n))).Start cfg
      = some (.ok (), replayedEngine cfg n) := by
  have hE : ExactlySegments [] 0 := by decide
  have hc : SSTCompaction cfg [] = some (.ok (), []) := by
    rw [SSTCompaction_exact cfg [] 0 hE, compactLoop_succ, if_neg (Nat.not_lt_zero _)]
  have hl := Load_records (aRecords n) [] (encodeRecords (aRecords n)).length
    (fitsInt64_aRecords n hn)
  rw [foldl_aRecords] at hl
  have hs := Start_of_steps cfg
    ⟨⟨0, cfg.defLoad, 0 - cfg.defLoad, List.replicate cfg.defLoad [], cfg.treshold⟩, 0,
      ⟨[], ⟨encodeRecords (aRecords n), (encodeRecords (aRecords n)).length⟩⟩, sysVers, []⟩
    [] [] _ ⟨0, cfg.defLoad, 0 - cfg.defLoad, List.replicate cfg.defLoad [], cfg.treshold⟩
    hc hl (LoadALL_nothing _ _ (Nat.zero_le _))
  rw [NewKeyValueStore_exact cfg [] 0 _ hE, hs]
  unfold replayedEngine
  rw [Nat.zero_sub]

theorem WF_replayed (cfg : Config) (n : Nat) (hn : n < 2 ^ 31)
    (ht : cfg.treshold + 1 < 2 ^ 64) : WF (replayedEngine cfg n) := by
  refine ⟨rfl, sortedMap_aKeys n, ?_, ?_, ht, fun j _ => slots_replicate _ j⟩
  · intro e he
    obtain ⟨i, hi, rfl⟩ := List.mem_map.mp he
    exact fitsInt64_aRecord i (by have := List.mem_range.mp hi; omega)
  · show ((List.range n).map fun i => (aKey i, (⟨"set", "v"⟩ : Tuple))).length + 1 < 2 ^ 64
    rw [List.length_map, List.length_range]
    have e1 : (2 : Nat) ^ 31 = 2147483648 := by norm_num
    have e2 : (2 : Nat) ^ 64 = 18446744073709551616 := by norm_num
    rw [e1] at hn
    rw [e2]
    omega

theorem length_replayed (cfg : Config) (n : Nat) :
    (replayedEngine cfg n).memDB.store.length = n := by
  show ((List.range n).map fun i => (aKey i, (⟨"set", "v"⟩ : Tuple))).length = n
  rw [List.length_map, List.length_range]

theorem Get_replayed (cfg : Config) (n : Nat) :
    ((replayedEngine cfg n).Get "zz").1 = .err (.errorsNew "Key Not Found") := by
  rw [Get_eq_tierGet (replayedEngine cfg n) (fun _ => []) "zz"
    (fun i hi => absurd hi (Nat.not_lt_zero i)) (Nat.zero_le _)]
  have h1 : mapGet (replayedEngine cfg n).memDB.store "zz" = none := by
    apply mapGet_none_of_ne
    intro e he
    obtain ⟨i, _, rfl⟩ := List.mem_map.mp he
    exact aKey_ne_zz i
  have h2 : cacheGet (replayedEngine cfg n).sstM.memSST "zz" = none :=
    cacheGet_of_empty _ _ (fun j => slots_replicate _ j)
  unfold tierGet
  rw [h1]
  dsimp only
  rw [h2]
  rfl

/-- When `Get(k)` fails and the flush check of `Del` does not panic, `Del(k)` returns the
error of `Get` and leaves the engine as the flush check leaves the one after `Get`. -/
theorem Del_err_state (kv : MyKvStore) (k : String) (e : GoError) (hwf : WF kv)
    (hget : (kv.Get k).1 = .err e) :
    kv.Del k = (.err e, (kv.Get k).2.CheckIfFlush.2) := by
  have hwf2 : WF (kv.Get k).2 := by
    rw [Get_state kv k]
    exact WF_dir kv _ hwf
  have hc := CheckIfFlush_spec (kv.Get k).2 hwf2.version hwf2.sorted hwf2.fits
    (by have := hwf2.size; omega) hwf2.threshold hwf2.slots
  exact Del_of_err kv k e hget hc.1

theorem CheckIfFlush_over (s : MyKvStore) (h : s.memDB.store.length > s.sstM.loadThreshold) :
    s.CheckIfFlush = s.FlushToSST := by
  unfold MyKvStore.CheckIfFlush
  rw [if_pos h]

theorem CheckIfFlush_under (s : MyKvStore) (h : s.memDB.store.length ≤ s.sstM.loadThreshold) :
    s.CheckIfFlush = (.ok (), s) := by
  unfold MyKvStore.CheckIfFlush
  rw [if_neg (by omega)]

/-- On the engine that a replay of `n` records leaves, with `n` above the flush threshold,
`Del` of the key "zz" returns "Key Not Found" and its flush check empties memtable and WAL
and writes the first segment. -/
theorem Del_replayed (cfg : Config) (n : Nat) (hn : n < 2 ^ 31)
    (ht : cfg.treshold + 1 < 2 ^ 64) (hgt : n > cfg.treshold) :
    ((replayedEngine cfg n).Del "zz").1 = .err (.errorsNew "Key Not Found")
      ∧ ((replayedEngine cfg n).Del "zz").2.memDB = ⟨[], ⟨[], 0⟩⟩
      ∧ ((replayedEngine cfg n).Del "zz").2.sstM.sstCount = 1 := by
  have hwf := WF_replayed cfg n hn ht
  have hd := Del_err_state (replayedEngine cfg n) "zz" _ hwf (Get_replayed cfg n)
  have hst := Get_state (replayedEngine cfg n) "zz"
  have hgt2 : ((replayedEngine cfg n).Get "zz").2.memDB.store.length
      > ((replayedEngine cfg n).Get "zz").2.sstM.loadThreshold := by
    rw [hst]
    show (replayedEngine cfg n).memDB.store.length > cfg.treshold
    rw [length_replayed]
    exact hgt
  have hf := FlushToSST_file ((replayedEngine cfg n).Get "zz").2
  rw [hd, CheckIfFlush_over _ hgt2]
  refine ⟨rfl, ?_, ?_⟩
  · rw [hf.2.2.2, hst]
    rfl
  · rw [hf.2.2.1, hst]
    rfl

set_option maxRecDepth 1000000 in
/-- C4, counterexample. An engine started on a WAL that holds one record, with flush
threshold 0, has one memtable entry: `Del` of a key that is in no tier returns "Key Not
Found", and its deferred flush check writes the memtable to a segment and empties the
memtable and the WAL. With the constants of the source (flush threshold 1000), `Start` on an
empty directory and a WAL of 1001 records with distinct keys returns an engine whose
memtable holds 1001 entries; for the key "zz", which is in no tier, `Get` and `Del` return
"Key Not Found", and after the `Del` memtable and WAL are empty and there is one segment. -/
theorem C4_del_of_missing_key_flushes :
    ((NewKeyValueStore eagerConfig [] (encodeRecord ⟨"set", "a", "1"⟩)).Start eagerConfig).map
        (fun r => (r.2.memDB.store, (r.2.Get "zz").1, (r.2.Del "zz").1,
          (r.2.Del "zz").2.memDB, (r.2.Del "zz").2.sstM.sstCount))
      = some ([("a", ⟨"set", "1"⟩)], .err (.errorsNew "Key Not Found"),
          .err (.errorsNew "Key Not Found"), ⟨[], ⟨[], 0⟩⟩, 1)
      ∧ ∃ s, (NewKeyValueStore sourceConfig [] (encodeRecords (aRecords 1001))).Start
            sourceConfig = some (.ok (), s)
          ∧ s.memDB.store.length = 1001 ∧ s.sstM.loadThreshold = 1000
          ∧ (s.Get "zz").1 = .err (.errorsNew "Key Not Found")
          ∧ (s.Del "zz").1 = .err (.errorsNew "Key Not Found")
          ∧ (s.Del "zz").2.memDB = ⟨[], ⟨[], 0⟩⟩
          ∧ (s.Del "zz").2.sstM.sstCount = 1 := by
  obtain ⟨h1, h2, h3⟩ := Del_replayed sourceConfig 1001 (by decide) (by decide) (by decide)
  exact ⟨by rfl, replayedEngine sourceConfig 1001,
    Start_replayed sourceConfig 1001 (by decide), length_replayed sourceConfig 1001, rfl,
    Get_replayed sourceConfig 1001, h1, h2, h3⟩

/-- C4 as amended: on every well-formed engine (the states reached from `NewKeyValueStore`
by `Start`, `Set` and `Del`) and for every key for which `Get` fails, `Del` returns the same
error and inserts no tombstone: what memtable and cache together hold is unchanged for
every key. When the memtable holds at most `loadThreshold` entries, memtable, WAL and
segment count are left as they were. When it holds more, the deferred flush check writes
exactly the entries the memtable had to the segment `SST{sstCount}.sst`, counts the segment,
and empties memtable and WAL. -/
theorem C4_del_without_live_value (kv : MyKvStore) (k : String) (e : GoError) (hwf : WF kv)
    (hget : (kv.Get k).1 = .err e) :
    (kv.Del k).1 = .err e
      ∧ (∀ k', (kv.Del k).2.topGet k' = kv.topGet k')
      ∧ (kv.memDB.store.length ≤ kv.sstM.loadThreshold →
          (kv.Del k).2.memDB = kv.memDB ∧ (kv.Del k).2.sstM = kv.sstM)
      ∧ (kv.memDB.store.length > kv.sstM.loadThreshold →
          (kv.Del k).2.memDB = ⟨[], ⟨[], 0⟩⟩
          ∧ (kv.Del k).2.sstM.sstCount = kv.sstM.sstCount + 1
          ∧ dirGet (kv.Del k).2.dir (.sst kv.sstM.sstCount)
              = some (overwrite (openCreate (kv.Get k).2.dir (.tmp kv.sstM.sstCount)).1
                  (segmentBytes kv.sysVersion kv.memDB.store))) := by
  have hst := Get_state kv k
  have hm : (kv.Get k).2.memDB = kv.memDB := by rw [hst]
  have ht : (kv.Get k).2.sstM = kv.sstM := by rw [hst]
  have hv : (kv.Get k).2.sysVersion = kv.sysVersion := by rw [hst]
  have hwf2 : WF (kv.Get k).2 := by
    rw [hst]
    exact WF_dir kv _ hwf
  have hc := CheckIfFlush_spec (kv.Get k).2 hwf2.version hwf2.sorted hwf2.fits
    (by have := hwf2.size; omega) hwf2.threshold hwf2.slots
  have htop : ∀ k', (kv.Get k).2.topGet k' = kv.topGet k' := by
    intro k'
    rw [hst]
    rfl
  rw [Del_err_state kv k e hwf hget]
  refine ⟨rfl, fun k' => by rw [hc.2.2 k', htop k'], ?_, ?_⟩
  · intro hle
    rw [CheckIfFlush_under _ (by rw [hm, ht]; exact hle)]
    exact ⟨hm, ht⟩
  · intro hgt
    have hf := FlushToSST_file (kv.Get k).2
    rw [CheckIfFlush_over _ (by rw [hm, ht]; exact hgt)]
    rw [hm, ht, hv] at hf
    exact ⟨hf.2.2.2, hf.2.2.1, hf.1⟩

set_option maxRecDepth 100000 in
theorem WF_sampleEngine : WF sampleEngine := by
  refine ⟨rfl, by unfold SortedMap; decide, by decide, by decide, by decide, ?_⟩
  intro j hj
  obtain ⟨j', rfl⟩ : ∃ j', j = j' + 2 := ⟨j - 2, by
    have : sampleEngine.sstM.sstCount = 2 := rfl
    omega⟩
  rfl

set_option maxRecDepth 100000 in
theorem C4_del_without_live_value_witness :
    (WF (replayedEngine sourceConfig 1001)
        ∧ (replayedEngine sourceConfig 1001).memDB.store.length = 1001
        ∧ (replayedEngine sourceConfig 1001).sstM.loadThreshold = 1000
        ∧ ((replayedEngine sourceConfig 1001).Get "zz").1 = .err (.errorsNew "Key Not Found"))
      ∧ (((replayedEngine sourceConfig 1001).Del "zz").1 = .err (.errorsNew "Key Not Found")
        ∧ (∀ k', ((replayedEngine sourceConfig 1001).Del "zz").2.topGet k'
            = (replayedEngine sourceConfig 1001).topGet k')
        ∧ ((replayedEngine sourceConfig 1001).memDB.store.length
              ≤ (replayedEngine sourceConfig 1001).sstM.loadThreshold →
            ((replayedEngine sourceConfig 1001).Del "zz").2.memDB
                = (replayedEngine sourceConfig 1001).memDB
              ∧ ((replayedEngine sourceConfig 1001).Del "zz").2.sstM
                = (replayedEngine sourceConfig 1001).sstM)
        ∧ ((replayedEngine sourceConfig 1001).memDB.store.length
              > (replayedEngine sourceConfig 1001).sstM.loadThreshold →
            ((replayedEngine sourceConfig 1001).Del "zz").2.memDB = ⟨[], ⟨[], 0⟩⟩
            ∧ ((replayedEngine sourceConfig 1001).Del "zz").2.sstM.sstCount
                = (replayedEngine sourceConfig 1001).sstM.sstCount + 1
            ∧ dirGet ((replayedEngine sourceConfig 1001).Del "zz").2.dir
                  (.sst (replayedEngine sourceConfig 1001).sstM.sstCount)
                = some (overwrite (openCreate ((replayedEngine sourceConfig 1001).Get "zz").2.dir
                      (.tmp (replayedEngine sourceConfig 1001).sstM.sstCount)).1
                    (segmentBytes (replayedEngine sourceConfig 1001).sysVersion
                      (replayedEngine sourceConfig 1001).memDB.store))))
      ∧ ((sampleEngine.Del "zz").1 = .err (.errorsNew "Key Not Found")
        ∧ (∀ k', (sampleEngine.Del "zz").2.topGet k' = sampleEngine.topGet k')
        ∧ (sampleEngine.memDB.store.length ≤ sampleEngine.sstM.loadThreshold →
            (sampleEngine.Del "zz").2.memDB = sampleEngine.memDB
              ∧ (sampleEngine.Del "zz").2.sstM = sampleEngine.sstM)
        ∧ (sampleEngine.memDB.store.length > sampleEngine.sstM.loadThreshold →
            (sampleEngine.Del "zz").2.memDB = ⟨[], ⟨[], 0⟩⟩
            ∧ (sampleEngine.Del "zz").2.sstM.sstCount = sampleEngine.sstM.sstCount + 1
            ∧ dirGet (sampleEngine.Del "zz").2.dir (.sst sampleEngine.sstM.sstCount)
                = some (overwrite (openCreate (sampleEngine.Get "zz").2.dir
                      (.tmp sampleEngine.sstM.sstCount)).1
                    (segmentBytes sampleEngine.sysVersion sampleEngine.memDB.store)))) :=
  ⟨⟨WF_replayed sourceConfig 1001 (by decide) (by decide), length_replayed sourceConfig 1001,
      rfl, Get_replayed sourceConfig 1001⟩,
    C4_del_without_live_value (replayedEngine sourceConfig 1001) "zz"
      (.errorsNew "Key Not Found") (WF_replayed sourceConfig 1001 (by decide) (by decide))
      (Get_replayed sourceConfig 1001),
    C4_del_without_live_value sampleEngine "zz" (.errorsNew "Key Not Found") WF_sampleEngine
      (by decide)⟩

end KVStore
